import Mathlib

/-!
Shallow embedding of the fragment-extraction core of disco-dop:
`discodop/_fragments.pyx` together with the `Ctrees` arena and `Node`
struct from `discodop/containers.pyx`/`containers.pxd`.

Machine integers (`int`, `short`) are modelled as `Int`; array reads are
total functions; the bit matrix is a function `Nat → Nat → Bool`
(row index into tree `b`, bit index into tree `a`).
-/
/-- A packed tree node (`struct Node` in containers.pxd): production id and
child indices.  A negative `left` encodes a terminal occupying sentence
position `-left - 1`; `right = -1` marks a unary node.  The `label` field is
unused by the functions under study and omitted. -/
structure Node where
  prod : Int
  left : Int
  right : Int
deriving DecidableEq

/-- A `NodeArray`: `len` nodes reached through a total indexing function,
mirroring the C pointer `Node *`.  Reads beyond `len` are modelled but never
relied upon. -/
structure NodeArr where
  len : Nat
  node : Nat → Node

/-- The arena invariant established at insertion: node productions are
non-decreasing along the array (sorted by `prod` ascending). -/
def prodSorted (a : NodeArr) : Prop :=
  ∀ j, j < a.len → ∀ i, i < j → (a.node i).prod ≤ (a.node j).prod

instance (a : NodeArr) : Decidable (prodSorted a) := by
  unfold prodSorted; infer_instance

/-! ## C10: the pair loop bounds of `extractfragments` -/
/-- Python `range(lo, hi)` over machine integers, as a list of `Int`. -/
def intRange (lo hi : Int) : List Int :=
  (List.range (hi - lo).toNat).map (fun k : Nat => lo + (k : Int))

/-- Python `x or dflt` on integers: `0` is falsy, everything else truthy. -/
def pyOrInt (x dflt : Int) : Int :=
  if x = 0 then dflt else x

/-- The source-tree indices visited by the pair loop of `extractfragments`:
`for n in range(offset, min(end or trees1.len, trees1.len))`. -/
def pairLoopIndices (offset endp len : Int) : List Int :=
  intRange offset (min (pyOrInt endp len) len)

/-! ## C9: `twoterminals` only yields indices of `trees2` -/
/-- Inner loop of `Ctrees.indextrees` over an explicit list of node indices:
for each node `m`, add tree number `n` to the set at index `nodes[m].prod`. -/
def indexNodes (n : Nat) (a : NodeArr) (l : List Nat)
    (acc : List (Finset Nat)) : List (Finset Nat) :=
  l.foldl
    (fun acc2 m =>
      acc2.set ((a.node m).prod).toNat
        (insert n (acc2.getD ((a.node m).prod).toNat ∅)))
    acc

/-- One step of `Ctrees.indextrees`: index all `a.len` nodes of tree `n`. -/
def indexOneTree (n : Nat) (a : NodeArr) (acc : List (Finset Nat)) :
    List (Finset Nat) :=
  indexNodes n a (List.range a.len) acc

/-- Tail of `Ctrees.indextrees`: fold `indexOneTree` over the trees, numbering
them from `n` upwards. -/
def indextreesAux (trees : List NodeArr) (n : Nat)
    (acc : List (Finset Nat)) : List (Finset Nat) :=
  match trees with
  | [] => acc
  | a :: rest => indextreesAux rest (n + 1) (indexOneTree n a acc)

/-- `Ctrees.indextrees`: build `treeswithprod`, a list of `numprods` sets;
set `p` collects the indices of the trees containing production `p`. -/
def indextrees (trees : List NodeArr) (numprods : Nat) : List (Finset Nat) :=
  indextreesAux trees 0 (List.replicate numprods ∅)

/-- Inner loop of `twoterminals` over node indices `j` of tree `a`: union in
`tmp & trees2.treeswithprod[anodes[j].prod]` for every other lexical node. -/
def ttInner (a : NodeArr) (twp : List (Finset Nat)) (lexicalprods : Finset Int)
    (i : Nat) (inner : List Nat) (cands : Finset Nat) : Finset Nat :=
  inner.foldl
    (fun cands2 j =>
      if i ≠ j ∧ (a.node j).left < 0 ∧ (a.node j).prod ∈ lexicalprods then
        cands2 ∪ (twp.getD ((a.node i).prod).toNat ∅ ∩
          twp.getD ((a.node j).prod).toNat ∅)
      else cands2)
    cands

/-- Outer loop of `twoterminals` over node indices `i` of tree `a`, skipping
nodes that are not terminals of a content-word production. -/
def ttOuter (a : NodeArr) (twp : List (Finset Nat))
    (contentwordprods lexicalprods : Finset Int) (outer inner : List Nat)
    (start : Finset Nat) : Finset Nat :=
  outer.foldl
    (fun cands i =>
      if (a.node i).left ≥ 0 ∨ (a.node i).prod ∉ contentwordprods then cands
      else ttInner a twp lexicalprods i inner cands)
    start

/-- `twoterminals` from _fragments.pyx: collect candidate trees from `trees2`
(via its `treeswithprod` index `twp`) that share with tree `a` one
content-word production and one additional lexical production. -/
def twoterminals (a : NodeArr) (twp : List (Finset Nat))
    (contentwordprods lexicalprods : Finset Int) : Finset Nat :=
  ttOuter a twp contentwordprods lexicalprods
    (List.range a.len) (List.range a.len) ∅

/-- The guard `m < 0 or m >= trees2.len` preceding
`raise ValueError(illegal index)` in the twoterms branch. -/
def illegalIndex (m len : Int) : Bool :=
  m < 0 || len ≤ m

/-! ## C7: `Ctrees.addnodes` canonical node ordering -/
/-- The sorted order of source-node indices computed by `Ctrees.addnodes`:
`sorted(range(cnt), key=prodsintree.get)` — ascending by production, stable
(Python `sorted` and `List.mergeSort` are both stable). -/
def addnodesOrder (source : NodeArr) : List Nat :=
  (List.range source.len).mergeSort
    (fun x y => decide ((source.node x).prod ≤ (source.node y).prod))

/-- `sortidx` of `Ctrees.addnodes`: position of source index `k` in the
sorted order. -/
def sortidx (source : NodeArr) (k : Nat) : Nat :=
  (addnodesOrder source).indexOf k

/-- Child rewriting performed by the copy loop of `Ctrees.addnodes`: a
non-terminal `left` (and, if present, `right`) is translated through
`sortidx`; terminal encodings (`left < 0`) are copied unchanged. -/
def addnodesRewrite (source : NodeArr) (src : Node) : Node :=
  if src.left ≥ 0 then
    { prod := src.prod,
      left := Int.ofNat (sortidx source src.left.toNat),
      right := if src.right ≥ 0 then
          Int.ofNat (sortidx source src.right.toNat)
        else src.right }
  else src

/-- The node slice written by `Ctrees.addnodes`: position `m` receives the
rewritten copy of the source node of rank `m` in the sorted order
(the loop `for n, m in sortidx.iteritems(): dest[m] = …`). -/
def addnodesDest (source : NodeArr) : NodeArr where
  len := source.len
  node := fun m =>
    addnodesRewrite source (source.node ((addnodesOrder source).getD m 0))

/-- The root index stored by `Ctrees.addnodes`: `sortidx[root]`. -/
def addnodesRoot (source : NodeArr) (root : Nat) : Nat :=
  sortidx source root

/-! ## C8: failed `Ctrees.add` leaves the committed arena unchanged -/
/-- A child of a parsed python Tree node: an integer terminal index, or a
subtree reference carrying the position `idx` assigned by `tolist`. -/
inductive PyChild where
  | term (t : Int)
  | sub (idx : Int)
deriving DecidableEq

/-- An element of the python node list passed to `Ctrees.add`: a Tree node
with its production key, children and (for the head element) `rootidx`,
or a non-Tree object, which `copynodes` rejects. -/
inductive PyObj where
  | tree (prodkey : Nat) (children : List PyChild) (rootidx : Nat)
  | nonTree
deriving DecidableEq

/-- A `NodeArray` record of the arena (offset/len/root bookkeeping). -/
structure TreeRec where
  offset : Nat
  len : Nat
  root : Nat
deriving DecidableEq

/-- The mutable state of a `Ctrees` arena.  The node pool and tree-record
array are total functions; the committed region is `< numnodes` resp.
`< len`.  `maxcap` models `self.max`. -/
structure CtreesSt where
  trees : Nat → TreeRec
  nodes : Nat → Node
  len : Nat
  numnodes : Nat
  maxnodes : Nat
  maxcap : Nat
  nodesleft : Nat

/-- Conversion of a single python Tree node by `copynodes`.  A first child
that is an `int` is a terminal (`left = -t - 1`, `right` left unassigned,
modelled by keeping the old pool value); otherwise `left` is the child
`idx` and `right` is the second child `idx` or `-1` for a unary node.
`none` models the exceptions: zero or more than two children, and the
`AttributeError` of `a[1].idx` when the second child is an `int`. -/
def copynodesOne (prods : Nat → Int) (old : Node) (pk : Nat)
    (children : List PyChild) : Option Node :=
  match children with
  | [.term t] => some { prod := prods pk, left := -t - 1, right := old.right }
  | [.term t, _] => some { prod := prods pk, left := -t - 1, right := old.right }
  | [.sub i] => some { prod := prods pk, left := i, right := -1 }
  | [.sub i, .sub j] => some { prod := prods pk, left := i, right := j }
  | _ => none

/-- `copynodes` from containers.pyx: convert the python node list into Node
structs written at pool positions `off + n`, `off + n + 1`, ….  A
validation error aborts mid-way and leaves the writes already made. -/
def copynodes (prods : Nat → Int) (off : Nat) (l : List PyObj) (n : Nat)
    (pool : Nat → Node) : (Nat → Node) × Bool :=
  match l with
  | [] => (pool, true)
  | .nonTree :: _ => (pool, false)
  | .tree pk children _ :: rest =>
    match copynodesOne prods (pool (off + n)) pk children with
    | none => (pool, false)
    | some nd =>
      copynodes prods off rest (n + 1)
        (fun k => if k = off + n then nd else pool k)

/-- First half of `Ctrees.realloc`: overallocate the tree-record capacity
`self.max` when needed. -/
def reallocTrees (st : CtreesSt) (numtrees : Nat) : CtreesSt :=
  if numtrees > st.maxcap then
    { st with maxcap :=
        numtrees + (numtrees >>> 3) + (if numtrees < 9 then 3 else 6) }
  else st

/-- Second half of `Ctrees.realloc`: overallocate the node pool and update
`self.nodesleft` when needed. -/
def reallocNodes (st : CtreesSt) (extranodes : Nat) : CtreesSt :=
  if extranodes > st.nodesleft then
    { st with nodesleft :=
        (st.numnodes + extranodes) + ((st.numnodes + extranodes) >>> 3) +
          (if st.numnodes + extranodes < 9 then 3 else 6) - st.numnodes }
  else st

/-- `Ctrees.realloc`: grow capacity bookkeeping; committed data and the
counters `len`, `numnodes`, `maxnodes` are untouched. -/
def ctreesRealloc (st : CtreesSt) (numtrees extranodes : Nat) : CtreesSt :=
  reallocNodes (reallocTrees st numtrees) extranodes

/-- The conditional `realloc` call at the top of `Ctrees.add`. -/
def ctreesAddGrow (st : CtreesSt) (l : List PyObj) : CtreesSt :=
  if st.len ≥ st.maxcap ∨ st.nodesleft < l.length then
    ctreesRealloc st (st.len + 1) l.length
  else st

/-- The staging writes of `Ctrees.add`: `self.trees[self.len].len` and
`.offset` are written into the not-yet-committed record slot `self.len`
before `copynodes` runs (`root` is written only later, after validation). -/
def ctreesAddStage (st : CtreesSt) (l : List PyObj) : CtreesSt :=
  { st with trees := fun k => if k = st.len then
      { offset := st.numnodes, len := l.length, root := (st.trees st.len).root }
    else st.trees k }

/-- The copy-and-commit phase of `Ctrees.add`: run `copynodes` into the pool
at `self.numnodes`; on success store the root and bump the counters, on
failure return with the partial writes left in the uncommitted region. -/
def ctreesAddRun (st : CtreesSt) (prods : Nat → Int) (l : List PyObj) :
    CtreesSt × Bool :=
  match copynodes prods st.numnodes l 0 st.nodes with
  | (pool, ok) =>
    if ok then
      match l with
      | PyObj.tree _ _ ridx :: _ =>
        ({ st with
            nodes := pool,
            trees := fun k => if k = st.len then
                { offset := st.numnodes, len := l.length, root := ridx }
              else st.trees k,
            len := st.len + 1,
            nodesleft := st.nodesleft - l.length,
            numnodes := st.numnodes + l.length,
            maxnodes := max st.maxnodes l.length }, true)
      | _ => ({ st with nodes := pool }, false)
    else ({ st with nodes := pool }, false)

/-- `Ctrees.add` from containers.pyx: stage the new tree record and nodes in
the uncommitted region, then commit by bumping the counters; any
`copynodes` failure (or an empty node list, or missing capacity
initialisation) returns with the staging writes done but nothing
committed.  The Bool is `true` on success. -/
def ctreesAdd (st : CtreesSt) (prods : Nat → Int) (l : List PyObj) :
    CtreesSt × Bool :=
  if st.maxcap = 0 then (st, false)
  else ctreesAddRun (ctreesAddStage (ctreesAddGrow st l) l) prods l

/-- A small concrete arena state used to witness the failed-add theorem. -/
def wit8st : CtreesSt where
  trees := fun _ => ⟨0, 2, 0⟩
  nodes := fun _ => ⟨7, -1, -1⟩
  len := 1
  numnodes := 2
  maxnodes := 2
  maxcap := 4
  nodesleft := 6

/-! ## C1: the fast tree kernel computes the all-pairs production matrix -/
/-- The scratch bit matrix of `extractfrompair`: row `j` (a node of tree
`b`) holds one bit per node `i` of tree `a`. -/
abbrev Mat := Nat → Nat → Bool

/-- `SETBIT(&matrix[j * SLOTS], i)`. -/
def setb (m : Mat) (j i : Nat) : Mat :=
  fun j2 i2 => if j2 = j ∧ i2 = i then true else m j2 i2

/-- `CLEARBIT(&matrix[j * SLOTS], i)`. -/
def clearb (m : Mat) (j i : Nat) : Mat :=
  fun j2 i2 => if j2 = j ∧ i2 = i then false else m j2 i2

/-- The innermost loop of `fasttreekernel`: starting at `ii = i`, set bit
`ii` in row `j` and advance while `a[ii].prod` equals the current
production `p = b[j].prod`, stopping when `ii` reaches `alen`. -/
def ftkRow (a : NodeArr) (p : Int) (j ii : Nat) (m : Mat) : Mat :=
  if h : ii < a.len ∧ (a.node ii).prod = p then
    ftkRow a p j (ii + 1) (setb m j ii)
  else m
termination_by a.len - ii
decreasing_by omega

/-- The loop structure of `fasttreekernel` (Moschitti 2006): two cursors
advance through the production-sorted node arrays; on equality, the run of
equal productions in `a` is cross-marked against each row of the run of
equal productions in `b`.  The middle `while a[i].prod == b[j].prod` loop
is realised by falling back to the main dispatch, whose equality branch is
that loop body — the control flow is behaviourally identical because the
dispatch re-tests exactly the loop condition. -/
def ftkMain (a b : NodeArr) (i j : Nat) (m : Mat) : Mat :=
  if (a.node i).prod < (b.node j).prod then
    (if i + 1 ≥ a.len then m else ftkMain a b (i + 1) j m)
  else if (b.node j).prod < (a.node i).prod then
    (if j + 1 ≥ b.len then m else ftkMain a b i (j + 1) m)
  else
    (if j + 1 ≥ b.len then ftkRow a ((b.node j).prod) j i m
     else ftkMain a b i (j + 1) (ftkRow a ((b.node j).prod) j i m))
termination_by (a.len - i) + (b.len - j)
decreasing_by
  · omega
  · omega
  · omega

/-- `fasttreekernel(a, b, alen, blen, matrix, SLOTS)` run on the zeroed
matrix. -/
def fasttreekernel (a b : NodeArr) : Mat :=
  ftkMain a b 0 0 (fun _ _ => false)

/-- Row `j` of the matrix holds every match: bit `i` is set for each node
`i` of `a` with the production of `b[j]`. -/
def rowComplete (a b : NodeArr) (m : Mat) (j : Nat) : Prop :=
  ∀ i2, i2 < a.len → (a.node i2).prod = (b.node j).prod → m j i2 = true

/-- Every set matrix bit is an in-range matching pair. -/
def matSound (a b : NodeArr) (m : Mat) : Prop :=
  ∀ j2 i2, m j2 i2 = true →
    j2 < b.len ∧ i2 < a.len ∧ (a.node i2).prod = (b.node j2).prod

/-! ## Extraction: `extractat` and `extractbitsets` (C2, C3) -/
/-- `SETBIT(result, i)` on a scratch fragment bitset. -/
def setr (r : Nat → Bool) (i : Nat) : Nat → Bool :=
  fun i2 => if i2 = i then true else r i2

/-- `extractat` from _fragments.pyx: traverse `a` and `b` in parallel,
setting bit `i` in `result` and clearing bit `i` of matrix row `j`, then
following matched children.  The C recursion over child indices is modelled
with fuel (`none` = fuel exhausted; the C code terminates because node
arrays encode trees).  Negative child indices of `b` are read through
`Int.toNat` (the C code would read out of bounds; in extraction calls the
equal productions make both sides the same shape). -/
def extractat (a b : NodeArr) :
    Nat → Mat → (Nat → Bool) → Nat → Nat →
    Option (Mat × (Nat → Bool) × Int)
  | 0, _, _, _, _ => none
  | fuel + 1, m, r, i, j =>
    let r1 := setr r i
    let m1 := clearb m j i
    if (a.node i).left < 0 then some (m1, r1, 1)
    else
      let li := ((a.node i).left).toNat
      let lj := ((b.node j).left).toNat
      let step1 : Option (Mat × (Nat → Bool) × Int) :=
        if m1 lj li then extractat a b fuel m1 r1 li lj
        else some (m1, r1, 0)
      match step1 with
      | none => none
      | some (m2, r2, t1) =>
        if (a.node i).right < 0 then some (m2, r2, 0)
        else
          let ri := ((a.node i).right).toNat
          let rj := ((b.node j).right).toNat
          if m2 rj ri then
            match extractat a b fuel m2 r2 ri rj with
            | none => none
            | some (m3, r3, t2) => some (m3, r3, t1 + t2)
          else some (m2, r2, t1)

/-- The left-child step of `extractat` (`step1` in the model): recurse when
the matched-child bit is set, otherwise pass the state through with a zero
count. -/
def leftStep (a b : NodeArr) (fuel : Nat) (m : Mat) (r : Nat → Bool)
    (i j : Nat) : Option (Mat × (Nat → Bool) × Int) :=
  if (clearb m j i) ((b.node j).left).toNat ((a.node i).left).toNat then
    extractat a b fuel (clearb m j i) (setr r i)
      ((a.node i).left).toNat ((b.node j).left).toNat
  else some (clearb m j i, setr r i, 0)

/-- The reference all-pairs matrix `M[j][i] = (a[i].prod == b[j].prod)`
restricted to the in-range cells; by C1 the kernel computes exactly this
function, which lets concrete runs be evaluated by `decide`. -/
def refMat (a b : NodeArr) : Mat :=
  fun j i =>
    decide (j < b.len ∧ i < a.len ∧ (a.node i).prod = (b.node j).prod)

/-- The counterexample tree for the `extractat` count claim: the binarized
tree `(S (NP man))` after canonical sorting — node 0 is the preterminal
`NP` over the terminal (prod 0, `left = -1`), node 1 the unary root `S`
(prod 1, `left = 0`, `right = -1`). -/
def cex2 : NodeArr :=
  ⟨2, fun k => if k = 0 then ⟨0, -1, -1⟩ else ⟨1, 0, -1⟩⟩

/-- The count returned by an `extractat` run (sentinel −1000 for fuel
exhaustion, which does not occur in the concrete runs below). -/
def exTerms (res : Option (Mat × (Nat → Bool) × Int)) : Int :=
  match res with
  | none => -1000
  | some x => x.2.2

/-- The fragment bitset produced by an `extractat` run. -/
def exBits (res : Option (Mat × (Nat → Bool) × Int)) : Nat → Bool :=
  match res with
  | none => fun _ => false
  | some x => x.2.1

/-- The number of terminal nodes of `a` among the set bits of a fragment
bitset — the count the claim says `extractat` returns. -/
def termbits (a : NodeArr) (r : Nat → Bool) : Nat :=
  ((List.range a.len).filter (fun k => r k && decide ((a.node k).left < 0))).length

/-- Modelled from the spec: `iteratesetbits` from discodop/bit.pyx is not
among the sources; spec section 4.1 specifies that it yields the set-bit
indices in ascending order via a word/offset cursor.  We model one step as
the least set bit at index at least `cursor`, within the bitset width. -/
def nextSetBit (row : Nat → Bool) (cursor width : Nat) : Option Nat :=
  ((List.range width).filter (fun k => decide (cursor ≤ k) && row k)).head?

/-- The extraction state threaded through `extractbitsets`: the shared bit
matrix, the emitted fragments (bitset, root, tree id — the `wrap` /
`setrootid` trailer), the trace of `(i, j)` node pairs at which a top-level
`extractat` call was started, and a flag recording `extractat` fuel
exhaustion (which aborts the model run; the C recursion always
terminates on tree-shaped input). -/
structure EbsSt where
  m : Mat
  results : List ((Nat → Bool) × Nat × Nat)
  trace : List (Nat × Nat)
  halted : Bool

/-- One extraction start in the while loop of `extractbitsets`: run
`extractat` from pair `(i, j)` on a zeroed scratch bitset; a fragment
reaching `minterms` terminals is emitted with trailer `(root := i,
id := n)`; fuel exhaustion halts the run. -/
def ebsStart (a b : NodeArr) (n : Nat) (minterms : Int) (atFuel j i : Nat)
    (st : EbsSt) : EbsSt :=
  match extractat a b atFuel st.m (fun _ => false) i j with
  | none => { st with trace := st.trace ++ [(i, j)], halted := true }
  | some (m2, r2, terms) =>
    { m := m2,
      results := if minterms ≤ terms then st.results ++ [(r2, i, n)]
        else st.results,
      trace := st.trace ++ [(i, j)],
      halted := false }

/-- The while loop of `extractbitsets` over the still-set bits of matrix
row `j`: iterate the set bits in ascending order (cursor semantics of
`iteratesetbits`), starting one extraction per yielded bit. -/
def ebsRowLoop (a b : NodeArr) (n : Nat) (minterms : Int) (atFuel j : Nat) :
    Nat → Nat → EbsSt → EbsSt
  | 0, _, st => { st with halted := true }
  | lf + 1, cursor, st =>
    if st.halted then st
    else
      match nextSetBit (st.m j) cursor a.len with
      | none => st
      | some i =>
        ebsRowLoop a b n minterms atFuel j lf (i + 1)
          (ebsStart a b n minterms atFuel j i st)

/-- `extractbitsets` from _fragments.pyx: visit the nodes of `b` top-down
starting at `j`, run the row loop at each node, then recurse into the left
and (if present) right child.  The traversal recursion carries fuel. -/
def ebs (a b : NodeArr) (n : Nat) (minterms : Int) (atFuel : Nat) :
    Nat → Nat → EbsSt → EbsSt
  | 0, _, st => { st with halted := true }
  | tf + 1, j, st =>
    if st.halted then st
    else
      let st1 := ebsRowLoop a b n minterms atFuel j (a.len + 1) 0 st
      if 0 ≤ (b.node j).left then
        let st2 := ebs a b n minterms atFuel tf ((b.node j).left).toNat st1
        if 0 ≤ (b.node j).right then
          ebs a b n minterms atFuel tf ((b.node j).right).toNat st2
        else st2
      else st1

/-- The run invariant behind uniqueness of extraction starts: the trace has
no duplicates, and (while the run is live) the matrix cell of every traced
pair is cleared. -/
def ebsInv (st : EbsSt) : Prop :=
  st.trace.Nodup ∧
  (st.halted = false → ∀ p ∈ st.trace, st.m p.2 p.1 = false)

/-! ## C4: fragments emitted from a corpus count at least once in it -/
/-- `containsbitset` from _fragments.pyx: test whether the fragment
`bitset` of tree `a` rooted at `a[i]` occurs at `b[j]`, following only
children whose bit is set.  The C `int` result is a truth value; `none`
models fuel exhaustion. -/
def containsbitset (a b : NodeArr) :
    Nat → (Nat → Bool) → Nat → Nat → Option Bool
  | 0, _, _, _ => none
  | fuel + 1, R, i, j =>
    if (a.node i).prod ≠ (b.node j).prod then some false
    else if (a.node i).left < 0 then some true
    else
      match (if R ((a.node i).left).toNat then
          containsbitset a b fuel R ((a.node i).left).toNat
            ((b.node j).left).toNat
        else some true) with
      | none => none
      | some false => some false
      | some true =>
        if (a.node i).right < 0 then some true
        else if R ((a.node i).right).toNat then
          containsbitset a b fuel R ((a.node i).right).toNat
            ((b.node j).right).toNat
        else some true

/-- The ascending list of set bits of a fragment bitset within `width`,
the order `iteratesetbits` yields them in. -/
def bitsList (R : Nat → Bool) (width : Nat) : List Nat :=
  (List.range width).filter R

/-- The candidate computation of `exactcounts`: start from
`trees2.treeswithprod[a[first].prod]` for the first set bit, then
intersect with the sets of the further set bits, stopping at the first bit
at index `>= a.len` (the guarded `break`).  An empty bitset (the code
asserts against it) yields no candidates. -/
def candidatesOf (twp : List (Finset Nat)) (a : NodeArr) (R : Nat → Bool)
    (width : Nat) : Finset Nat :=
  match bitsList R width with
  | [] => ∅
  | i0 :: rest =>
    (rest.takeWhile (fun k => decide (k < a.len))).foldl
      (fun c k => c ∩ twp.getD ((a.node k).prod).toNat ∅)
      (twp.getD ((a.node i0).prod).toNat ∅)

/-- The inner loop of `exactcounts` over the nodes `j` of candidate tree
`b`: count the positions where the fragment root production matches and
`containsbitset` succeeds; break as soon as `a[i].prod < b[j].prod`
(the arrays are production-sorted). -/
def countMatchesFrom (a b : NodeArr) (R : Nat → Bool) (i fuel j : Nat) :
    Nat :=
  if h : j < b.len then
    if (a.node i).prod = (b.node j).prod then
      (if containsbitset a b fuel R i j = some true then 1 else 0) +
        countMatchesFrom a b R i fuel (j + 1)
    else if (a.node i).prod < (b.node j).prod then 0
    else countMatchesFrom a b R i fuel (j + 1)
  else 0
termination_by b.len - j

/-- The all-default node array (reads of `trees[id]` at an invalid id). -/
def dfltArr : NodeArr := ⟨0, fun _ => ⟨0, 0, 0⟩⟩

/-- The per-fragment count of `exactcounts`: recover the source tree from
the trailer id, restrict candidate trees through the production index,
and sum the structural matches over each candidate tree. -/
def exactcountOne (trees1 trees2 : List NodeArr) (twp : List (Finset Nat))
    (fuel : Nat) (R : Nat → Bool) (root id width : Nat) : Nat :=
  (candidatesOf twp (trees1.getD id dfltArr) R width).sum
    (fun mm => countMatchesFrom (trees1.getD id dfltArr)
      (trees2.getD mm dfltArr) R root fuel 0)

/-- Well-formedness carried by extraction runs: every emitted fragment has
trailer id `n`, its root bit set, root and all set bits inside tree `a`;
and the matrix only has bits at valid `a`-node indices. -/
def ebsResWf (a : NodeArr) (n : Nat) (st : EbsSt) : Prop :=
  (∀ e ∈ st.results, e.2.2 = n ∧ e.1 e.2.1 = true ∧ e.2.1 < a.len ∧
    (∀ k, e.1 k = true → k < a.len)) ∧
  (∀ j2 i2, st.m j2 i2 = true → i2 < a.len)

/-! ## C5: `getsent` — renumbering of fragment indices -/
/-- A regex word character (`\w` over the byte strings in use): the
alphanumerics and underscore; `\b` holds where a word character meets a
non-word character or the string edge. -/
def isWordChar (c : Char) : Bool :=
  c.isAlphanum || c = '_'

/-- Word boundary after a digit run: the remainder starts with a non-word
character or is empty. -/
def wordBoundary (s : List Char) : Bool :=
  match s with
  | [] => true
  | c :: _ => !(isWordChar c)

/-- Split a leading run of decimal digits. -/
def takeDigits (s : List Char) : List Char × List Char :=
  match s with
  | [] => ([], [])
  | c :: rest =>
    if c.isDigit then
      let p := takeDigits rest
      (c :: p.1, p.2)
    else ([], s)

/-- Numeric value of a digit run. -/
def digitsVal (ds : List Char) : Nat :=
  ds.foldl (fun acc c => acc * 10 + (c.toNat - 48)) 0

/-- `FRONTIERRE.findall`: all matches of ` ([0-9]+):([0-9]+)\b` in order.
The scan advances one character at a time; this is equivalent to resuming
at each match end, because a match starts with a space and contains no
further space, so no new match can begin inside a consumed match. -/
def scanFrontiers : List Char → List (Nat × Nat)
  | [] => []
  | c :: rest =>
    (if c = ' ' then
      match takeDigits rest with
      | ([], _) => []
      | (d1 :: ds1, rest2) =>
        match rest2 with
        | ':' :: rest3 =>
          match takeDigits rest3 with
          | ([], _) => []
          | (d2 :: ds2, rest4) =>
            if wordBoundary rest4 then
              [(digitsVal (d1 :: ds1), digitsVal (d2 :: ds2))]
            else []
        | _ => []
    else []) ++ scanFrontiers rest

/-- The matches of ` ([0-9]+)\)` inside one run of non-`(` characters,
with a nonempty prefix before the space (the `[^(]+` of
`TERMINDICESRE`); `q` is the position within the segment. -/
def segTermVals : List Char → Nat → List Nat
  | [], _ => []
  | c :: rest, q =>
    (if c = ' ' ∧ 1 ≤ q then
      match takeDigits rest with
      | (d :: ds, ')' :: _) => [digitsVal (d :: ds)]
      | _ => []
    else []) ++ segTermVals rest (q + 1)

/-- `TERMINDICESRE.findall`: for each `(`, the greedy `[^(]+` makes the
engine capture the digits of the last ` <digits>)` occurrence inside the
following non-`(` segment, if any. -/
def scanTermIndices : List Char → List Nat
  | [] => []
  | c :: rest =>
    (if c = '(' then
      match (segTermVals (rest.takeWhile (fun x => x ≠ '(')) 0).getLast? with
      | some v => [v]
      | none => []
    else []) ++ scanTermIndices rest

/-- One attempted match of `FRONTIERORTERMRE` (` ([0-9]+)(?::[0-9]+)?\b`)
at the head of the string: returns the captured first number and the
remainder after the match.  The optional `:d2` part is taken greedily when
its boundary holds; otherwise the engine backtracks to the bare ` d1`
(whose boundary at `:` always holds). -/
def tryLeafMatch : List Char → Option (Nat × List Char)
  | ' ' :: rest =>
    (match takeDigits rest with
    | ([], _) => none
    | (d :: ds, rest2) =>
      match rest2 with
      | ':' :: rest3 =>
        (match takeDigits rest3 with
        | ([], _) =>
          if wordBoundary rest2 then some (digitsVal (d :: ds), rest2)
          else none
        | (_ :: _, rest4) =>
          if wordBoundary rest4 then some (digitsVal (d :: ds), rest4)
          else if wordBoundary rest2 then some (digitsVal (d :: ds), rest2)
          else none)
      | _ =>
        if wordBoundary rest2 then some (digitsVal (d :: ds), rest2)
        else none)
  | _ => none

/-- `FRONTIERORTERMRE.sub`: scan left to right; each match is replaced by
the `leafmap` entry of its first captured number and the scan resumes
after the match.  Fuel bounds the iteration count; one character is
consumed per step at minimum, so `fuel = s.length` always suffices. -/
def substFragFuel (leafmap : Nat → List Char) :
    Nat → List Char → List Char
  | 0, s => s
  | _ + 1, [] => []
  | fuel + 1, c :: rest =>
    match tryLeafMatch (c :: rest) with
    | some (v, rem) => leafmap v ++ substFragFuel leafmap fuel rem
    | none => c :: substFragFuel leafmap fuel rest

/-- The fragment string after index substitution. -/
def substFrag (leafmap : Nat → List Char) (s : List Char) : List Char :=
  substFragFuel leafmap s.length s

/-- Ascending insertion into a sorted list (model of Python `sorted` over
the distinct dict keys). -/
def insertSorted (x : Nat) : List Nat → List Nat
  | [] => [x]
  | y :: ys => if x ≤ y then x :: y :: ys else y :: insertSorted x ys

/-- Sort a list of naturals ascending. -/
def sortNat (l : List Nat) : List Nat :=
  l.foldr insertSorted []

/-- Pointwise update, modelling one `dict[key] = value` assignment. -/
def updateF (f : Nat → Nat) (k v : Nat) : Nat → Nat :=
  fun x => if x = k then v else f x

/-- The main loop of `getsent`: walk the sorted keys; emit `sent[n]` for
terminal leaves and `None` for frontier starts, assign the next dense
index to each key, and insert one extra `None` position after a key whose
span end is not itself a key (a gap), except at the last key. -/
def getsentLoop (sent : List String) (leaves : List Nat) (spv : Nat → Nat)
    (keys : List Nat) (maxl : Nat) :
    List Nat → Nat → List (Option String) × List (Nat × Nat)
  | [], _ => ([], [])
  | n :: rest, m =>
    let entry : Option String := if n ∈ leaves then sent.get? n else none
    if spv n ∉ keys ∧ n ≠ maxl then
      let p := getsentLoop sent leaves spv keys maxl rest (m + 2)
      (entry :: none :: p.1, (n, m) :: p.2)
    else
      let p := getsentLoop sent leaves spv keys maxl rest (m + 1)
      (entry :: p.1, (n, m) :: p.2)

/-- Decimal digit character: `'0'` through `'9'` for `d < 10`. -/
def digitChar (d : Nat) : Char := Char.ofNat (48 + d)

/-- Decimal rendering of a natural number (Python `'%d' % n` / `str(n)`),
with a fuel argument keeping the recursion structural; `n + 1` units
always suffice since the number of digits is at most `n + 1`. -/
def natDigitsAux : Nat → Nat → List Char
  | 0, _ => []
  | fuel + 1, n =>
    if n < 10 then [digitChar n]
    else natDigitsAux fuel (n / 10) ++ [digitChar (n % 10)]

/-- Canonical decimal digits of `n`. -/
def natDigits (n : Nat) : List Char := natDigitsAux (n + 1) n

/-- `getsent` from _fragments.pyx: collect the frontier intervals and
terminal indices, build the span map, renumber the sorted keys densely
(one extra position per gap), build the new sentence tuple, and substitute
the new indices into the fragment string.  A `leafmap` lookup the loop
never defined (impossible for fragments produced by `getsubtree`) is
modelled as the empty replacement where Python would raise `KeyError`;
likewise `max(spans)` of an empty map is modelled as 0 where Python would
raise. -/
def getsent (frag : List Char) (sent : List String) :
    List Char × List (Option String) :=
  let fr := scanFrontiers frag
  let lv := scanTermIndices frag
  let spv0 : Nat → Nat := fr.foldl (fun f p => updateF f p.1 (p.2 + 1))
    (fun _ => 0)
  let spv : Nat → Nat := lv.foldl (fun f n => updateF f n (n + 1)) spv0
  let keys : List Nat := (fr.map Prod.fst ++ lv).dedup
  let sorted := sortNat keys
  let maxl := sorted.getLast?.getD 0
  let res := getsentLoop sent lv spv keys maxl sorted 0
  let leafmap : Nat → List Char := fun k =>
    match res.2.lookup k with
    | some mm => ' ' :: natDigits mm
    | none => []
  (substFrag leafmap frag, res.1)

/-- The number of keys after which the loop inserts an extra `None`
position: keys whose span end is not a key, the last key excepted. -/
def gapCount (spv : Nat → Nat) (keys : List Nat) (maxl : Nat) :
    List Nat → Nat
  | [] => 0
  | n :: rest =>
    (if spv n ∉ keys ∧ n ≠ maxl then 1 else 0) +
      gapCount spv keys maxl rest

/-- `termidx`: translate the packed representation of a terminal index
(a negative `left` field) back to the sentence position `-x - 1`. -/
def termidx (x : Int) : Nat := (-x - 1).toNat

/-- The `for i in range(trees.trees[n].len)` scan of `coverbitsets` with
its `break`: the first node of tree `a` whose production is `p`. -/
def firstProdIdx (a : NodeArr) (p : Nat) : Option Nat :=
  (List.range a.len).find? (fun i => (a.node i).prod == (p : Int))

/-- A bitset together with the root node index and tree id that
`setrootid` stores in the trailing slots; `wrap` copies the whole of it
into the dictionary value. -/
structure BitsetW where
  bits : Nat → Bool
  root : Nat
  treeid : Nat

/-- A `coverbitsets` dict key: the fragment string in continuous mode,
or the `(fragment string, sentence tuple)` pair returned by `getsent` in
discontinuous mode (second component `none`/`some` respectively). -/
abbrev CovKey := List Char × Option (List (Option String))

/-- A dict entry whose bitset selects exactly one node of its tree,
namely its recorded root, and that node carries production `p`. -/
def selectsSingleNode (trees : List NodeArr) (p : Nat)
    (e : CovKey × BitsetW) : Bool :=
  decide ((List.range (trees.getD e.2.treeid dfltArr).len).filter
      (fun k => e.2.bits k) = [e.2.root]) &&
  decide (((trees.getD e.2.treeid dfltArr).node e.2.root).prod = (p : Int))

def covTrees : List NodeArr :=
  [⟨2, fun k => if k = 0 then ⟨0, -1, -1⟩ else ⟨1, 0, -1⟩⟩]

def covLabels : Nat → List Char :=
  fun p => if p = 0 then ['N', 'P'] else ['S']

/-- Whether the string begins with a decimal digit. -/
def headDigit : List Char → Bool
  | [] => false
  | c :: _ => c.isDigit

/-- Well-formed fragment strings, as produced by the discontinuous
`getsubtree`: a terminal leaf `(<tag> <k>)`, a frontier non-terminal with
one or more yield intervals `(<lab> <k>:<k'> ...)`, and unary and binary
internal nodes. -/
inductive FTree where
  | term (tag : List Char) (k : Nat)
  | front (lab : List Char) (ivs : List (Nat × Nat))
  | node1 (lab : List Char) (c : FTree)
  | node2 (lab : List Char) (c1 c2 : FTree)
deriving DecidableEq

/-- Render one ` <a>:<b>` interval. -/
def renderIv (iv : Nat × Nat) : List Char :=
  ' ' :: (natDigits iv.1 ++ ':' :: natDigits iv.2)

/-- Render a list of intervals, each preceded by a space. -/
def renderIvs (ivs : List (Nat × Nat)) : List Char :=
  ivs.foldr (fun iv acc => renderIv iv ++ acc) []

/-- The fragment string of a tree: the exact bracket format of the
discontinuous `getsubtree` output that `getsent` expects. -/
def render : FTree → List Char
  | .term tag k => '(' :: (tag ++ ' ' :: (natDigits k ++ [')']))
  | .front lab ivs => '(' :: (lab ++ renderIvs ivs ++ [')'])
  | .node1 lab c => '(' :: (lab ++ ' ' :: (render c ++ [')']))
  | .node2 lab c1 c2 =>
      '(' :: (lab ++ ' ' :: (render c1 ++ ' ' :: (render c2 ++ [')'])))

/-- A clean label: nonempty and without spaces or brackets, as extracted
by the label regex `\( *([^ ()]+) *`. -/
def cleanLabel (l : List Char) : Bool :=
  !l.isEmpty && l.all (fun c => c ≠ ' ' && c ≠ '(' && c ≠ ')')

/-- Well-formedness of a fragment tree: clean labels throughout and at
least one interval on each frontier. -/
def wfT : FTree → Bool
  | .term tag _ => cleanLabel tag
  | .front lab ivs => cleanLabel lab && !ivs.isEmpty
  | .node1 lab c => cleanLabel lab && wfT c
  | .node2 lab c1 c2 => cleanLabel lab && wfT c1 && wfT c2

/-- The frontier intervals of the fragment in string order. -/
def frontsOf : FTree → List (Nat × Nat)
  | .term _ _ => []
  | .front _ ivs => ivs
  | .node1 _ c => frontsOf c
  | .node2 _ c1 c2 => frontsOf c1 ++ frontsOf c2

/-- The terminal leaf indices of the fragment in string order. -/
def termsOf : FTree → List Nat
  | .term _ k => [k]
  | .front _ _ => []
  | .node1 _ c => termsOf c
  | .node2 _ c1 c2 => termsOf c1 ++ termsOf c2

/-- The fragment with every leaf occurrence replaced through `lm`: a
terminal index or frontier interval starting at `k` becomes `lm k` (the
`FRONTIERORTERMRE.sub` replacement applied structurally). -/
def substRender (lm : Nat → List Char) : FTree → List Char
  | .term tag k => '(' :: (tag ++ lm k ++ [')'])
  | .front lab ivs =>
      '(' :: (lab ++ (ivs.foldr (fun iv acc => lm iv.1 ++ acc) []) ++ [')'])
  | .node1 lab c => '(' :: (lab ++ ' ' :: (substRender lm c ++ [')']))
  | .node2 lab c1 c2 =>
      '(' :: (lab ++ ' ' :: (substRender lm c1 ++ ' ' ::
        (substRender lm c2 ++ [')'])))

/-- A continuation string whose prefix up to the first `(` consists of
closing brackets and spaces only: the shape of everything that can follow
a rendered subtree inside a larger render. -/
def tailClean (s : List Char) : Bool :=
  (s.takeWhile (fun c => c ≠ '(')).all (fun c => c = ')' || c = ' ')

/-- The attempted `FRONTIERRE` match right after one space: the head
matcher of `scanFrontiers`, named for the proofs below. -/
def frontHead (rest : List Char) : List (Nat × Nat) :=
  match takeDigits rest with
  | ([], _) => []
  | (d1 :: ds1, rest2) =>
    match rest2 with
    | ':' :: rest3 =>
      (match takeDigits rest3 with
      | ([], _) => []
      | (d2 :: ds2, rest4) =>
        if wordBoundary rest4 then
          [(digitsVal (d1 :: ds1), digitsVal (d2 :: ds2))]
        else [])
    | _ => []

/-- The attempted ` <digits>)` match right after one space: the head
matcher of `segTermVals`, named for the proofs below. -/
def termHead (rest : List Char) : List Nat :=
  match takeDigits rest with
  | (d :: ds, ')' :: _) => [digitsVal (d :: ds)]
  | _ => []

/-- The span map `spans` built by `getsent` for a fragment: frontier
intervals first, then terminal indices. -/
def fragSpans (T : FTree) : Nat → Nat :=
  (termsOf T).foldl (fun f n => updateF f n (n + 1))
    ((frontsOf T).foldl (fun f p => updateF f p.1 (p.2 + 1)) (fun _ => 0))

/-- The distinct keys of the span map. -/
def fragKeys (T : FTree) : List Nat :=
  ((frontsOf T).map Prod.fst ++ termsOf T).dedup

/-- The keys in ascending order (`sorted(spans)`). -/
def fragSorted (T : FTree) : List Nat := sortNat (fragKeys T)

/-- `max(spans)`. -/
def fragMaxl (T : FTree) : Nat := (fragSorted T).getLast?.getD 0

/-- The renumbering loop of `getsent` run on the fragment's own data. -/
def fragLoop (T : FTree) (sent : List String) :
    List (Option String) × List (Nat × Nat) :=
  getsentLoop sent (termsOf T) (fragSpans T) (fragKeys T) (fragMaxl T)
    (fragSorted T) 0

/-- The substitution map: leaf index to ` <new index>`. -/
def fragLeafmap (T : FTree) (sent : List String) : Nat → List Char :=
  fun k =>
    match (fragLoop T sent).2.lookup k with
    | some mm => ' ' :: natDigits mm
    | none => []

/-- `getyield` from _fragments.pyx: recursively collect the terminal
indices under node `i`; `fuel` keeps the recursion structural and
`a.len + 1` always suffices for tree-shaped node arrays. -/
def getyield (a : NodeArr) : Nat → Nat → List Nat
  | 0, _ => []
  | fuel + 1, i =>
    if (a.node i).left < 0 then [termidx (a.node i).left]
    else if (a.node i).right < 0 then
      getyield a fuel ((a.node i).left).toNat
    else getyield a fuel ((a.node i).left).toNat ++
      getyield a fuel ((a.node i).right).toNat

/-- Modelled from the spec: `yieldranges` (discodop/containers.pyx, not
under src/) groups an ascending index list into maximal consecutive runs,
rendered as ` <start>:<end>` intervals (singletons as `k:k`, per the
`FRONTIERRE` regex and the `pygetsent` doctests). -/
def yieldGroupsAux : Nat → Nat → List Nat → List (Nat × Nat)
  | s, c, [] => [(s, c)]
  | s, c, n :: rest =>
    if n = c + 1 then yieldGroupsAux s n rest
    else (s, c) :: yieldGroupsAux n n rest

/-- The interval list of an ascending index list. -/
def yieldGroups : List Nat → List (Nat × Nat)
  | [] => []
  | n :: rest => yieldGroupsAux n n rest

/-- The interval list rendered without its leading space (the space is
already emitted after the label by `getsubtree`). -/
def rangesBody (ivs : List (Nat × Nat)) : List Char :=
  match ivs with
  | [] => []
  | iv :: rest => natDigits iv.1 ++ ':' :: natDigits iv.2 ++ renderIvs rest

/-- `getsubtree`: render the fragment denoted by `bitset` rooted at node
`i`.  A node in the bitset recurses into its children; a terminal node
appends its word (continuous mode, `sent = some s`) or its decimal index
(discontinuous mode, `sent = none`); a node outside the bitset is a
frontier non-terminal contributing only its label in continuous mode and
its gap-collapsed yield ranges in discontinuous mode.  `fuel` bounds the
recursion depth; the callers pass `a.len + 1`, enough for the single-bit
bitsets of `coverbitsets` (depth at most two). -/
def getsubtree (a : NodeArr) (bitset : Nat → Bool)
    (labels : Nat → List Char) (sent : Option (List String)) :
    Nat → Nat → List Char
  | 0, _ => []
  | fuel + 1, i =>
      '(' :: (labels ((a.node i).prod).toNat ++ ' ' ::
        ((if bitset i then
            if (a.node i).left ≥ 0 then
              getsubtree a bitset labels sent fuel ((a.node i).left).toNat
                ++ (if (a.node i).right ≥ 0 then
                  ' ' :: getsubtree a bitset labels sent fuel
                    ((a.node i).right).toNat
                else [])
            else
              (match sent with
              | some s => (s.getD (termidx (a.node i).left) "").toList
              | none => natDigits (termidx (a.node i).left))
          else
            (match sent with
            | some _ => []
            | none =>
              rangesBody (yieldGroups
                (sortNat (getyield a (a.len + 1) i))))) ++ [')']))

/-- The dict key `coverbitsets` computes for the single-node fragment at
node `i` of tree `n`: the rendered string in continuous mode, the
`getsent` pair in discontinuous mode. -/
def covKeyAt (trees : List NodeArr) (sents : List (List String))
    (labels : Nat → List Char) (disc : Bool) (n i : Nat) : CovKey :=
  if disc then
    ((getsent (getsubtree (trees.getD n dfltArr) (fun k => decide (k = i))
        labels none ((trees.getD n dfltArr).len + 1) i)
      (sents.getD n [])).1,
     some ((getsent (getsubtree (trees.getD n dfltArr)
        (fun k => decide (k = i)) labels none
        ((trees.getD n dfltArr).len + 1) i) (sents.getD n [])).2))
  else
    (getsubtree (trees.getD n dfltArr) (fun k => decide (k = i)) labels
      (some (sents.getD n [])) ((trees.getD n dfltArr).len + 1) i,
     none)

/-- Python dict assignment `result[frag] = v` on an association list: an
existing key keeps its position and receives the new value, a fresh key
is appended. -/
def dictInsert (l : List (CovKey × BitsetW)) (k : CovKey)
    (v : BitsetW) : List (CovKey × BitsetW) :=
  if l.any (fun q => q.1 == k) then
    l.map (fun q => if q.1 == k then (k, v) else q)
  else l ++ [(k, v)]

/-- Loop of `coverbitsets` over `enumerate(trees.treeswithprod)`: `p` is
the production id of the first set in the list argument.  An empty set is
skipped (the `StopIteration` branch); otherwise an arbitrary member `n`
is taken (Python set iteration order is arbitrary; modelled as the least
member), the first node `i` of tree `n` carrying production `p` is found
(the `ValueError` when there is none is modelled as `none`), the
single-bit bitset at `i` is built with root `i` and id `n`, and the
fragment key for the current mode is inserted into the result dict. -/
def coverAux (trees : List NodeArr) (labels : Nat → List Char)
    (sents : List (List String)) (disc : Bool) :
    List (Finset Nat) → Nat → List (CovKey × BitsetW) →
    Option (List (CovKey × BitsetW))
  | [], _, acc => some acc
  | ti :: rest, p, acc =>
    if h : ti.Nonempty then
      match firstProdIdx (trees.getD (ti.min' h) dfltArr) p with
      | none => none
      | some i =>
        coverAux trees labels sents disc rest (p + 1)
          (dictInsert acc (covKeyAt trees sents labels disc (ti.min' h) i)
            ⟨fun k => decide (k = i), i, ti.min' h⟩)
    else coverAux trees labels sents disc rest (p + 1) acc

/-- `coverbitsets`: one pass over `treeswithprod` (as built by
`indextrees`), producing a dict from fragment keys to bitsets, in
continuous (`disc = false`) or discontinuous (`disc = true`) mode. -/
def coverbitsets (trees : List NodeArr) (sents : List (List String))
    (labels : Nat → List Char) (numprods : Nat) (disc : Bool) :
    Option (List (CovKey × BitsetW)) :=
  coverAux trees labels sents disc (indextrees trees numprods) 0 []

def covSents : List (List String) := [["man"]]

/-- Shape invariant of the entries built by `coverAux` for production
`q`, relative to a per-production key function `K`: the stored key is
`K q`; the stored root is a node of the stored tree carrying production
`q`; and the bitset holds exactly the root bit. -/
def entryForK (trees : List NodeArr) (K : Nat → CovKey) (q : Nat)
    (e : CovKey × BitsetW) : Prop :=
  e.1 = K q ∧
  e.2.treeid < trees.length ∧
  e.2.root < (trees.getD e.2.treeid dfltArr).len ∧
  ((trees.getD e.2.treeid dfltArr).node e.2.root).prod = (q : Int) ∧
  (∀ k, e.2.bits k = decide (k = e.2.root))

/-- The continuous-mode shape of a single-production fragment: a lexical
production `(tag word)`, a unary production `(lab (cl ))`, or a binary
production `(lab (cl ) (cr ))`. -/
inductive CSig where
  | cterm (tag w : List Char)
  | cnode1 (lab cl : List Char)
  | cnode2 (lab cl cr : List Char)
deriving DecidableEq

/-- The continuous rendering of a single-production fragment, exactly as
`getsubtree` emits it for a single-bit bitset. -/
def renderC : CSig → List Char
  | .cterm tag w => '(' :: (tag ++ ' ' :: (w ++ [')']))
  | .cnode1 lab cl =>
      '(' :: (lab ++ ' ' :: (('(' :: (cl ++ ' ' :: [')'])) ++ [')']))
  | .cnode2 lab cl cr =>
      '(' :: (lab ++ ' ' :: ((('(' :: (cl ++ ' ' :: [')'])) ++
        ' ' :: ('(' :: (cr ++ ' ' :: [')']))) ++ [')']))

/-- The shape of the occurrence of a production at node `i` of tree `n`,
read off the node array and the sentence: its label, its word for a
terminal, and the labels of its child productions otherwise. -/
def sigAtC (trees : List NodeArr) (sents : List (List String))
    (labels : Nat → List Char) (n i : Nat) : CSig :=
  if ((trees.getD n dfltArr).node i).left < 0 then
    CSig.cterm (labels (((trees.getD n dfltArr).node i).prod).toNat)
      (((sents.getD n []).getD
        (termidx ((trees.getD n dfltArr).node i).left) "").toList)
  else if ((trees.getD n dfltArr).node i).right < 0 then
    CSig.cnode1 (labels (((trees.getD n dfltArr).node i).prod).toNat)
      (labels (((trees.getD n dfltArr).node
        ((((trees.getD n dfltArr).node i).left).toNat)).prod).toNat)
  else
    CSig.cnode2 (labels (((trees.getD n dfltArr).node i).prod).toNat)
      (labels (((trees.getD n dfltArr).node
        ((((trees.getD n dfltArr).node i).left).toNat)).prod).toNat)
      (labels (((trees.getD n dfltArr).node
        ((((trees.getD n dfltArr).node i).right).toNat)).prod).toNat)

/-- Cleanliness of a continuous shape: clean labels, and a word that does
not begin with an opening bracket (so that lexical and frontier bodies
cannot be confused). -/
def cleanC : CSig → Bool
  | .cterm tag w => cleanLabel tag && !(decide (w.headD ' ' = '('))
  | .cnode1 lab cl => cleanLabel lab && cleanLabel cl
  | .cnode2 lab cl cr => cleanLabel lab && cleanLabel cl && cleanLabel cr

/-- The frontier child of a single-node discontinuous fragment: the
child's label over the gap-collapsed yield ranges of its subtree, as
written by `getsubtree` for a node outside the bitset. -/
def childFront (a : NodeArr) (labels : Nat → List Char) (c : Nat) : FTree :=
  FTree.front (labels ((a.node c).prod).toNat)
    (yieldGroups (sortNat (getyield a (a.len + 1) c)))

/-- The fragment tree denoted by the single-bit bitset of `coverbitsets`
at node `i` of tree `n` in discontinuous mode: a terminal leaf for a
lexical node, otherwise the node's label over its frontier children. -/
def fragTreeAt (trees : List NodeArr) (labels : Nat → List Char)
    (n i : Nat) : FTree :=
  if ((trees.getD n dfltArr).node i).left < 0 then
    FTree.term (labels (((trees.getD n dfltArr).node i).prod).toNat)
      (termidx ((trees.getD n dfltArr).node i).left)
  else if ((trees.getD n dfltArr).node i).right < 0 then
    FTree.node1 (labels (((trees.getD n dfltArr).node i).prod).toNat)
      (childFront (trees.getD n dfltArr) labels
        ((((trees.getD n dfltArr).node i).left).toNat))
  else
    FTree.node2 (labels (((trees.getD n dfltArr).node i).prod).toNat)
      (childFront (trees.getD n dfltArr) labels
        ((((trees.getD n dfltArr).node i).left).toNat))
      (childFront (trees.getD n dfltArr) labels
        ((((trees.getD n dfltArr).node i).right).toNat))

/-- The shape of a `getsent`-renumbered fragment string: each leaf carries
its label and a nonempty list of renumbered indices — one for a terminal,
one per yield interval for a frontier, since the `FRONTIERORTERMRE`
substitution collapses each ` <k>:<k'>` interval to the single renumbered
index of its start. -/
inductive NTree where
  | leaf (lab : List Char) (ks : List Nat)
  | node1 (lab : List Char) (c : NTree)
  | node2 (lab : List Char) (c1 c2 : NTree)
deriving DecidableEq

/-- Render a list of leaf indices, each preceded by a space. -/
def numsRender (ks : List Nat) : List Char :=
  ks.foldr (fun k acc => ' ' :: natDigits k ++ acc) []

/-- The renumbered fragment string denoted by a normalized tree. -/
def renderN : NTree → List Char
  | .leaf lab ks => '(' :: (lab ++ numsRender ks ++ [')'])
  | .node1 lab c => '(' :: (lab ++ ' ' :: (renderN c ++ [')']))
  | .node2 lab c1 c2 =>
      '(' :: (lab ++ ' ' :: (renderN c1 ++ ' ' :: (renderN c2 ++ [')'])))

/-- Well-formedness of a normalized tree: clean labels and nonempty leaf
index lists. -/
def wfN : NTree → Bool
  | .leaf lab ks => cleanLabel lab && !ks.isEmpty
  | .node1 lab c => cleanLabel lab && wfN c
  | .node2 lab c1 c2 => cleanLabel lab && wfN c1 && wfN c2

/-- The normalized tree of a fragment under the leaf renumbering `f`. -/
def normT (f : Nat → Nat) : FTree → NTree
  | .term tag k => .leaf tag [f k]
  | .front lab ivs => .leaf lab (ivs.map (fun iv => f iv.1))
  | .node1 lab c => .node1 lab (normT f c)
  | .node2 lab c1 c2 => .node2 lab (normT f c1) (normT f c2)

/-- The renumbering that the `getsent` loop assigns to the fragment's
leaf indices. -/
def fragRenum (T : FTree) (sent : List String) : Nat → Nat :=
  fun k => ((fragLoop T sent).2.lookup k).getD 0

/-- The per-production continuous signatures of the example corpus. -/
def covDescC : Nat → CSig :=
  fun p => if p = 0 then CSig.cterm ['N', 'P'] ['m', 'a', 'n']
    else CSig.cnode1 ['S'] ['N', 'P']

/-- The per-production discontinuous descriptors of the example corpus:
the normalized fragment tree and the `getsent` sentence tuple. -/
def covDescD : Nat → NTree × List (Option String) :=
  fun p => if p = 0 then (NTree.leaf ['N', 'P'] [0], [some "man"])
    else (NTree.node1 ['S'] (NTree.leaf ['N', 'P'] [0]), [none])

theorem intRange_mem {lo hi n : Int} (h : n ∈ intRange lo hi) :
    lo ≤ n ∧ n < hi := by
  unfold intRange at h
  obtain ⟨k, hk, rfl⟩ := List.mem_map.mp h
  have hk2 : k < (hi - lo).toNat := List.mem_range.mp hk
  omega

/-- C10: with `end = 0` the loop runs from `offset` to `trees1.len`; an `end`
beyond `trees1.len` is clamped to `trees1.len`; and (for a non-negative
offset) every visited index lies inside `[0, trees1.len)`. -/
theorem extractfragments_loop_bounds (offset endp len : Int)
    (hoff : 0 ≤ offset) :
    pairLoopIndices offset 0 len = intRange offset len ∧
    (len ≤ endp → pairLoopIndices offset endp len = intRange offset len) ∧
    (∀ n ∈ pairLoopIndices offset endp len, 0 ≤ n ∧ n < len) := by
  refine ⟨?_, ?_, ?_⟩
  · unfold pairLoopIndices pyOrInt
    simp
  · intro hle
    unfold pairLoopIndices pyOrInt
    by_cases h0 : endp = 0
    · subst h0; simp
    · simp only [if_neg h0]
      congr 1
      omega
  · intro n hn
    have h := intRange_mem hn
    unfold pairLoopIndices at h
    constructor
    · omega
    · have : min (pyOrInt endp len) len ≤ len := min_le_right _ _
      omega

theorem extractfragments_loop_bounds_witness :
    pairLoopIndices 1 0 3 = intRange 1 3 ∧
    ((3 : Int) ≤ 5 → pairLoopIndices 1 5 3 = intRange 1 3) ∧
    (∀ n ∈ pairLoopIndices 1 5 3, 0 ≤ n ∧ n < 3) :=
  extractfragments_loop_bounds 1 5 3 (by decide)

theorem getD_set_mem {acc : List (Finset Nat)} {p q x n : Nat} {s : Finset Nat}
    (hs : ∀ y ∈ s, y ∈ acc.getD p ∅ ∨ y = n)
    (h : x ∈ (acc.set p s).getD q ∅) :
    x ∈ acc.getD q ∅ ∨ x = n := by
  by_cases hlen : p < acc.length
  · by_cases hq : p = q
    · subst hq
      rw [List.getD_eq_getElem?_getD, List.getElem?_set_self hlen] at h
      simp only [Option.getD_some] at h
      rcases hs x h with h3 | h3
      · exact Or.inl h3
      · exact Or.inr h3
    · rw [List.getD_eq_getElem?_getD, List.getElem?_set_ne hq] at h
      exact Or.inl (by rw [List.getD_eq_getElem?_getD]; exact h)
  · rw [List.set_eq_of_length_le (by omega)] at h
    exact Or.inl h

theorem indexNodes_mem {n : Nat} {a : NodeArr} {q x : Nat} (l : List Nat) :
    ∀ acc : List (Finset Nat), x ∈ (indexNodes n a l acc).getD q ∅ →
    x ∈ acc.getD q ∅ ∨ x = n := by
  induction l with
  | nil => intro acc h; exact Or.inl h
  | cons m ms ih =>
    intro acc h
    simp only [indexNodes, List.foldl_cons] at h
    rcases ih _ h with h2 | h2
    · refine getD_set_mem ?_ h2
      intro y hy
      rcases Finset.mem_insert.mp hy with h3 | h3
      · exact Or.inr h3
      · exact Or.inl h3
    · exact Or.inr h2

theorem indexOneTree_mem {n : Nat} {a : NodeArr} {acc : List (Finset Nat)}
    {q x : Nat} (h : x ∈ (indexOneTree n a acc).getD q ∅) :
    x ∈ acc.getD q ∅ ∨ x = n :=
  indexNodes_mem (List.range a.len) acc h

theorem indextreesAux_mem {trees : List NodeArr} {n : Nat}
    {acc : List (Finset Nat)} {q x : Nat}
    (h : x ∈ (indextreesAux trees n acc).getD q ∅) :
    x ∈ acc.getD q ∅ ∨ (n ≤ x ∧ x < n + trees.length) := by
  induction trees generalizing n acc with
  | nil => exact Or.inl h
  | cons a rest ih =>
    simp only [indextreesAux] at h
    rcases ih h with h2 | h2
    · rcases indexOneTree_mem h2 with h3 | h3
      · exact Or.inl h3
      · subst h3; right; simp
    · right; simp only [List.length_cons]; omega

/-- Every member of every set of `indextrees trees numprods` is a valid tree
index below `trees.length`. -/
theorem indextrees_mem {trees : List NodeArr} {numprods : Nat} {q x : Nat}
    (h : x ∈ (indextrees trees numprods).getD q ∅) : x < trees.length := by
  unfold indextrees at h
  rcases indextreesAux_mem h with h2 | h2
  · exfalso
    rw [List.getD_eq_getElem?_getD] at h2
    by_cases hq : q < numprods
    · rw [List.getElem?_replicate, if_pos hq] at h2
      simp at h2
    · rw [List.getElem?_eq_none (by simp; omega)] at h2
      simp at h2
  · omega

theorem ttInner_mem {a : NodeArr} {twp : List (Finset Nat)}
    {lex : Finset Int} {bound : Nat}
    (hb : ∀ q x, x ∈ twp.getD q ∅ → x < bound) (i : Nat)
    (inner : List Nat) :
    ∀ cands : Finset Nat, (∀ x ∈ cands, x < bound) →
      ∀ x ∈ ttInner a twp lex i inner cands, x < bound := by
  induction inner with
  | nil => intro cands hs x hx; exact hs x hx
  | cons j js ih =>
    intro cands hs x hx
    simp only [ttInner, List.foldl_cons] at hx
    by_cases hg : i ≠ j ∧ (a.node j).left < 0 ∧ (a.node j).prod ∈ lex
    · rw [if_pos hg] at hx
      refine ih _ ?_ x hx
      intro y hy
      rcases Finset.mem_union.mp hy with hy2 | hy2
      · exact hs y hy2
      · exact hb _ y (Finset.mem_inter.mp hy2).1
    · rw [if_neg hg] at hx
      exact ih _ hs x hx

theorem ttOuter_mem {a : NodeArr} {twp : List (Finset Nat)}
    {cw lex : Finset Int} {bound : Nat}
    (hb : ∀ q x, x ∈ twp.getD q ∅ → x < bound) (outer inner : List Nat) :
    ∀ start : Finset Nat, (∀ x ∈ start, x < bound) →
      ∀ x ∈ ttOuter a twp cw lex outer inner start, x < bound := by
  induction outer with
  | nil => intro start hs x hx; exact hs x hx
  | cons i is ih =>
    intro start hs x hx
    simp only [ttOuter, List.foldl_cons] at hx
    by_cases hg : (a.node i).left ≥ 0 ∨ (a.node i).prod ∉ cw
    · rw [if_pos hg] at hx
      exact ih start hs x hx
    · rw [if_neg hg] at hx
      exact ih _ (ttInner_mem hb i inner start hs) x hx

/-- C9: when `twp` was built by `Ctrees.indextrees` over `trees2`, every tree
index returned by `twoterminals` lies in `[0, trees2.len)`, so the
`illegal index` `ValueError` branch of `extractfragments` is unreachable. -/
theorem twoterminals_indices_in_range (trees2 : List NodeArr)
    (numprods : Nat) (a : NodeArr) (cw lex : Finset Int) :
    ∀ m ∈ twoterminals a (indextrees trees2 numprods) cw lex,
      m < trees2.length ∧
      illegalIndex (Int.ofNat m) (Int.ofNat trees2.length) = false := by
  intro m hm
  have hb : m < trees2.length := by
    refine ttOuter_mem (fun q x hx => indextrees_mem hx)
      (List.range a.len) (List.range a.len) ∅ (by simp) m hm
  refine ⟨hb, ?_⟩
  unfold illegalIndex
  simp only [Bool.or_eq_false_iff, decide_eq_false_iff_not, not_lt, not_le]
  exact ⟨Int.ofNat_nonneg m, Int.ofNat_lt.mpr hb⟩

theorem twoterminals_indices_in_range_witness :
    0 ∈ twoterminals ⟨2, fun k => if k = 0 then ⟨0, -1, -1⟩
        else ⟨1, -1, -1⟩⟩ (indextrees [⟨2, fun k => if k = 0 then ⟨0, -1, -1⟩
        else ⟨1, -1, -1⟩⟩] 2) {0} {1} ∧
    0 < 1 ∧ illegalIndex (Int.ofNat 0) (Int.ofNat 1) = false := by
  refine ⟨by decide, ?_⟩
  have h := twoterminals_indices_in_range
    [⟨2, fun k => if k = 0 then ⟨0, -1, -1⟩ else ⟨1, -1, -1⟩⟩] 2
    ⟨2, fun k => if k = 0 then ⟨0, -1, -1⟩ else ⟨1, -1, -1⟩⟩ {0} {1}
    0 (by decide)
  simpa using h

theorem addnodesOrder_length (source : NodeArr) :
    (addnodesOrder source).length = source.len := by
  unfold addnodesOrder
  rw [List.length_mergeSort, List.length_range]

theorem addnodesOrder_mem (source : NodeArr) (k : Nat) :
    k ∈ addnodesOrder source ↔ k < source.len := by
  unfold addnodesOrder
  rw [List.mem_mergeSort, List.mem_range]

theorem addnodesOrder_sorted (source : NodeArr) :
    (addnodesOrder source).Pairwise
      (fun x y => (source.node x).prod ≤ (source.node y).prod) := by
  have h := @List.sorted_mergeSort Nat
    (fun x y => decide ((source.node x).prod ≤ (source.node y).prod))
    (fun a b c h1 h2 => by
      simp only [decide_eq_true_eq] at h1 h2 ⊢; omega)
    (fun a b => by
      simp only [Bool.or_eq_true, decide_eq_true_eq]; omega)
    (List.range source.len)
  refine List.Pairwise.imp ?_ h
  intro a b hab
  simpa using hab

theorem addnodesRewrite_prod (source : NodeArr) (src : Node) :
    (addnodesRewrite source src).prod = src.prod := by
  unfold addnodesRewrite
  split <;> rfl

theorem sortidx_lt (source : NodeArr) (k : Nat) (hk : k < source.len) :
    sortidx source k < source.len := by
  unfold sortidx
  rw [← addnodesOrder_length source]
  exact List.indexOf_lt_length.mpr ((addnodesOrder_mem source k).mpr hk)

theorem addnodesOrder_getD_sortidx (source : NodeArr) (k : Nat)
    (hk : k < source.len) :
    (addnodesOrder source).getD (sortidx source k) 0 = k := by
  have hmem := (addnodesOrder_mem source k).mpr hk
  have hlt : (addnodesOrder source).indexOf k < (addnodesOrder source).length :=
    List.indexOf_lt_length.mpr hmem
  unfold sortidx
  rw [List.getD_eq_getElem?_getD, List.getElem?_eq_getElem hlt]
  simp [List.getElem_indexOf]

/-- C7: the slice stored by `Ctrees.addnodes` is the source nodes permuted
into ascending-production order, with every non-terminal child index
rewritten through the same permutation (terminal encodings unchanged), and
the stored root is the permuted position of the original root. -/
theorem addnodes_canonicalises (source : NodeArr) (root : Nat)
    (hroot : root < source.len) :
    prodSorted (addnodesDest source) ∧
    (addnodesDest source).len = source.len ∧
    (∀ k, k < source.len → sortidx source k < source.len) ∧
    (∀ k1 k2, k1 < source.len → k2 < source.len →
      sortidx source k1 = sortidx source k2 → k1 = k2) ∧
    (∀ n, n < source.len →
      (addnodesDest source).node (sortidx source n) =
        addnodesRewrite source (source.node n)) ∧
    addnodesRoot source root = sortidx source root ∧
    addnodesRoot source root < source.len := by
  refine ⟨?_, rfl, fun k hk => sortidx_lt source k hk, ?_, ?_, rfl,
    sortidx_lt source root hroot⟩
  · intro j hj i hij
    have hlen := addnodesOrder_length source
    have hdl : (addnodesDest source).len = source.len := rfl
    rw [hdl] at hj
    have hpw := addnodesOrder_sorted source
    rw [List.pairwise_iff_getElem] at hpw
    have hj2 : j < (addnodesOrder source).length := by omega
    have hi2 : i < (addnodesOrder source).length := by omega
    have h := hpw i j hi2 hj2 hij
    show (addnodesRewrite source _).prod ≤ (addnodesRewrite source _).prod
    have hgi : (addnodesOrder source).getD i 0 = (addnodesOrder source)[i] := by
      rw [List.getD_eq_getElem?_getD, List.getElem?_eq_getElem hi2]; rfl
    have hgj : (addnodesOrder source).getD j 0 = (addnodesOrder source)[j] := by
      rw [List.getD_eq_getElem?_getD, List.getElem?_eq_getElem hj2]; rfl
    rw [hgi, hgj, addnodesRewrite_prod, addnodesRewrite_prod]
    exact h
  · intro k1 k2 h1 h2 heq
    have hm1 := (addnodesOrder_mem source k1).mpr h1
    have hm2 := (addnodesOrder_mem source k2).mpr h2
    exact (List.indexOf_inj hm1 hm2).mp heq
  · intro n hn
    show addnodesRewrite source
        (source.node ((addnodesOrder source).getD (sortidx source n) 0)) = _
    rw [addnodesOrder_getD_sortidx source n hn]

theorem addnodes_canonicalises_witness :
    prodSorted (addnodesDest ⟨2, fun k => if k = 0 then ⟨5, 1, -1⟩
      else ⟨3, -1, -1⟩⟩) ∧
    (addnodesDest ⟨2, fun k => if k = 0 then ⟨5, 1, -1⟩
      else ⟨3, -1, -1⟩⟩).len = 2 ∧
    (∀ k, k < 2 → sortidx ⟨2, fun k => if k = 0 then ⟨5, 1, -1⟩
      else ⟨3, -1, -1⟩⟩ k < 2) ∧
    (∀ k1 k2, k1 < 2 → k2 < 2 →
      sortidx ⟨2, fun k => if k = 0 then ⟨5, 1, -1⟩ else ⟨3, -1, -1⟩⟩ k1 =
        sortidx ⟨2, fun k => if k = 0 then ⟨5, 1, -1⟩ else ⟨3, -1, -1⟩⟩ k2 →
      k1 = k2) ∧
    (∀ n, n < 2 →
      (addnodesDest ⟨2, fun k => if k = 0 then ⟨5, 1, -1⟩
        else ⟨3, -1, -1⟩⟩).node
          (sortidx ⟨2, fun k => if k = 0 then ⟨5, 1, -1⟩
            else ⟨3, -1, -1⟩⟩ n) =
        addnodesRewrite ⟨2, fun k => if k = 0 then ⟨5, 1, -1⟩
          else ⟨3, -1, -1⟩⟩
          ((fun k => if k = 0 then (⟨5, 1, -1⟩ : Node) else ⟨3, -1, -1⟩) n)) ∧
    addnodesRoot ⟨2, fun k => if k = 0 then ⟨5, 1, -1⟩ else ⟨3, -1, -1⟩⟩ 0 =
      sortidx ⟨2, fun k => if k = 0 then ⟨5, 1, -1⟩ else ⟨3, -1, -1⟩⟩ 0 ∧
    addnodesRoot ⟨2, fun k => if k = 0 then ⟨5, 1, -1⟩
      else ⟨3, -1, -1⟩⟩ 0 < 2 :=
  addnodes_canonicalises ⟨2, fun k => if k = 0 then ⟨5, 1, -1⟩
    else ⟨3, -1, -1⟩⟩ 0 (by decide)

theorem copynodes_writes_high (prods : Nat → Int) (off : Nat)
    (l : List PyObj) :
    ∀ n pool k, k < off + n → (copynodes prods off l n pool).1 k = pool k := by
  induction l with
  | nil => intro n pool k hk; rfl
  | cons x rest ih =>
    intro n pool k hk
    match x with
    | PyObj.nonTree => rfl
    | PyObj.tree pk children ridx =>
      show (match copynodesOne prods (pool (off + n)) pk children with
        | none => (pool, false)
        | some nd => copynodes prods off rest (n + 1)
            (fun k => if k = off + n then nd else pool k)).1 k = pool k
      cases copynodesOne prods (pool (off + n)) pk children with
      | none => rfl
      | some nd =>
        have h2 := ih (n + 1)
          (fun k2 => if k2 = off + n then nd else pool k2) k (by omega)
        simp only at h2 ⊢
        rw [h2, if_neg (by omega)]

theorem reallocTrees_obs (st : CtreesSt) (n : Nat) :
    (reallocTrees st n).len = st.len ∧
    (reallocTrees st n).numnodes = st.numnodes ∧
    (reallocTrees st n).maxnodes = st.maxnodes ∧
    (reallocTrees st n).nodes = st.nodes ∧
    (reallocTrees st n).trees = st.trees := by
  unfold reallocTrees
  split <;> exact ⟨rfl, rfl, rfl, rfl, rfl⟩

theorem reallocNodes_obs (st : CtreesSt) (n : Nat) :
    (reallocNodes st n).len = st.len ∧
    (reallocNodes st n).numnodes = st.numnodes ∧
    (reallocNodes st n).maxnodes = st.maxnodes ∧
    (reallocNodes st n).nodes = st.nodes ∧
    (reallocNodes st n).trees = st.trees := by
  unfold reallocNodes
  split <;> exact ⟨rfl, rfl, rfl, rfl, rfl⟩

theorem ctreesRealloc_counters (st : CtreesSt) (numtrees extranodes : Nat) :
    (ctreesRealloc st numtrees extranodes).len = st.len ∧
    (ctreesRealloc st numtrees extranodes).numnodes = st.numnodes ∧
    (ctreesRealloc st numtrees extranodes).maxnodes = st.maxnodes ∧
    (ctreesRealloc st numtrees extranodes).nodes = st.nodes ∧
    (ctreesRealloc st numtrees extranodes).trees = st.trees := by
  obtain ⟨h1, h2, h3, h4, h5⟩ :=
    reallocNodes_obs (reallocTrees st numtrees) extranodes
  obtain ⟨g1, g2, g3, g4, g5⟩ := reallocTrees_obs st numtrees
  exact ⟨h1.trans g1, h2.trans g2, h3.trans g3, h4.trans g4, h5.trans g5⟩

/-- C8: when `Ctrees.add` fails on an invalid tree, the observable arena
state is unchanged: `len`, `numnodes` and `maxnodes` keep their values, all
node cells of committed trees (`< numnodes`) are untouched, and the records
of all previously added trees (`< len`) are untouched — staging writes stay
in the uncommitted region. -/
theorem ctreesAddRun_error (st : CtreesSt) (prods : Nat → Int)
    (l : List PyObj) (herr : (ctreesAddRun st prods l).2 = false) :
    (ctreesAddRun st prods l).1.len = st.len ∧
    (ctreesAddRun st prods l).1.numnodes = st.numnodes ∧
    (ctreesAddRun st prods l).1.maxnodes = st.maxnodes ∧
    (∀ k, k < st.numnodes → (ctreesAddRun st prods l).1.nodes k = st.nodes k) ∧
    (ctreesAddRun st prods l).1.trees = st.trees := by
  have hwr := copynodes_writes_high prods st.numnodes l 0 st.nodes
  unfold ctreesAddRun at herr ⊢
  rcases hcp : copynodes prods st.numnodes l 0 st.nodes with ⟨pool, ok⟩
  have hpool : ∀ k, k < st.numnodes → pool k = st.nodes k := by
    intro k hk
    have h2 := hwr k (by omega)
    rw [hcp] at h2
    exact h2
  cases ok with
  | false => exact ⟨rfl, rfl, rfl, hpool, rfl⟩
  | true =>
    match l with
    | [] => exact ⟨rfl, rfl, rfl, hpool, rfl⟩
    | PyObj.nonTree :: rest => exact ⟨rfl, rfl, rfl, hpool, rfl⟩
    | PyObj.tree pk children ridx :: rest =>
      rw [hcp] at herr
      simp at herr

theorem ctreesAddStage_obs (st : CtreesSt) (l : List PyObj) :
    (ctreesAddStage st l).len = st.len ∧
    (ctreesAddStage st l).numnodes = st.numnodes ∧
    (ctreesAddStage st l).maxnodes = st.maxnodes ∧
    (ctreesAddStage st l).nodes = st.nodes ∧
    (∀ t, t < st.len → (ctreesAddStage st l).trees t = st.trees t) := by
  refine ⟨rfl, rfl, rfl, rfl, ?_⟩
  intro t ht
  show (if t = st.len then _ else st.trees t) = st.trees t
  rw [if_neg (by omega)]

theorem ctreesAddGrow_obs (st : CtreesSt) (l : List PyObj) :
    (ctreesAddGrow st l).len = st.len ∧
    (ctreesAddGrow st l).numnodes = st.numnodes ∧
    (ctreesAddGrow st l).maxnodes = st.maxnodes ∧
    (ctreesAddGrow st l).nodes = st.nodes ∧
    (ctreesAddGrow st l).trees = st.trees := by
  unfold ctreesAddGrow
  split
  · exact ctreesRealloc_counters st (st.len + 1) l.length
  · exact ⟨rfl, rfl, rfl, rfl, rfl⟩

/-- C8: when `Ctrees.add` fails on an invalid tree, the observable arena
state is unchanged: `len`, `numnodes` and `maxnodes` keep their values, all
node cells of committed trees (`< numnodes`) are untouched, and the records
of all previously added trees (`< len`) are untouched — staging writes stay
in the uncommitted region. -/
theorem ctrees_add_error_preserves (st : CtreesSt) (prods : Nat → Int)
    (l : List PyObj) (herr : (ctreesAdd st prods l).2 = false) :
    (ctreesAdd st prods l).1.len = st.len ∧
    (ctreesAdd st prods l).1.numnodes = st.numnodes ∧
    (ctreesAdd st prods l).1.maxnodes = st.maxnodes ∧
    (∀ k, k < st.numnodes → (ctreesAdd st prods l).1.nodes k = st.nodes k) ∧
    (∀ t, t < st.len → (ctreesAdd st prods l).1.trees t = st.trees t) := by
  unfold ctreesAdd at herr ⊢
  by_cases h0 : st.maxcap = 0
  · rw [if_pos h0]
    exact ⟨rfl, rfl, rfl, fun k _ => rfl, fun t _ => rfl⟩
  · rw [if_neg h0] at herr ⊢
    obtain ⟨g1, g2, g3, g4, g5⟩ := ctreesAddGrow_obs st l
    obtain ⟨s1, s2, s3, s4, s5⟩ := ctreesAddStage_obs (ctreesAddGrow st l) l
    obtain ⟨r1, r2, r3, r4, r5⟩ :=
      ctreesAddRun_error (ctreesAddStage (ctreesAddGrow st l) l) prods l herr
    refine ⟨by rw [r1, s1, g1], by rw [r2, s2, g2], by rw [r3, s3, g3],
      ?_, ?_⟩
    · intro k hk
      rw [r4 k (by rw [s2, g2]; exact hk), s4, g4]
    · intro t ht
      rw [r5, s5 t (by rw [g1]; exact ht), g5]

theorem ctrees_add_error_preserves_witness :
    (ctreesAdd wit8st (fun _ => 0) [PyObj.tree 0 [] 0]).1.len = wit8st.len ∧
    (ctreesAdd wit8st (fun _ => 0) [PyObj.tree 0 [] 0]).1.numnodes =
      wit8st.numnodes ∧
    (ctreesAdd wit8st (fun _ => 0) [PyObj.tree 0 [] 0]).1.maxnodes =
      wit8st.maxnodes ∧
    (∀ k, k < wit8st.numnodes →
      (ctreesAdd wit8st (fun _ => 0) [PyObj.tree 0 [] 0]).1.nodes k =
        wit8st.nodes k) ∧
    (∀ t, t < wit8st.len →
      (ctreesAdd wit8st (fun _ => 0) [PyObj.tree 0 [] 0]).1.trees t =
        wit8st.trees t) :=
  ctrees_add_error_preserves wit8st (fun _ => 0) [PyObj.tree 0 [] 0]
    (by decide)

theorem setb_eq_true {m : Mat} {j i j2 i2 : Nat} :
    setb m j i j2 i2 = true ↔ ((j2 = j ∧ i2 = i) ∨ m j2 i2 = true) := by
  unfold setb
  split
  · simp_all
  · simp_all

theorem ftkRow_mono (a : NodeArr) (p : Int) (j : Nat) :
    ∀ ii m, ∀ j2 i2, m j2 i2 = true → ftkRow a p j ii m j2 i2 = true := by
  intro ii m
  induction ii, m using ftkRow.induct a p j with
  | case1 ii m hc ih =>
    intro j2 i2 h
    rw [ftkRow, dif_pos hc]
    exact ih j2 i2 (setb_eq_true.mpr (Or.inr h))
  | case2 ii m hc =>
    intro j2 i2 h
    rw [ftkRow, dif_neg hc]
    exact h

theorem ftkRow_sound (a : NodeArr) (p : Int) (j : Nat) :
    ∀ ii m, ∀ j2 i2, ftkRow a p j ii m j2 i2 = true →
      m j2 i2 = true ∨
      (j2 = j ∧ ii ≤ i2 ∧ i2 < a.len ∧ (a.node i2).prod = p) := by
  intro ii m
  induction ii, m using ftkRow.induct a p j with
  | case1 ii m hc ih =>
    intro j2 i2 h
    rw [ftkRow, dif_pos hc] at h
    rcases ih j2 i2 h with h2 | h2
    · rcases setb_eq_true.mp h2 with ⟨rfl, rfl⟩ | h3
      · exact Or.inr ⟨rfl, le_refl _, hc.1, hc.2⟩
      · exact Or.inl h3
    · exact Or.inr ⟨h2.1, by omega, h2.2.2⟩
  | case2 ii m hc =>
    intro j2 i2 h
    rw [ftkRow, dif_neg hc] at h
    exact Or.inl h

theorem ftkRow_complete (a : NodeArr) (p : Int) (j : Nat) :
    ∀ ii m i2, ii ≤ i2 → i2 < a.len →
      (∀ k, ii ≤ k → k ≤ i2 → (a.node k).prod = p) →
      ftkRow a p j ii m j i2 = true := by
  intro ii m
  induction ii, m using ftkRow.induct a p j with
  | case1 ii m hc ih =>
    intro i2 hle hlt hrun
    rw [ftkRow, dif_pos hc]
    by_cases he : ii = i2
    · subst he
      exact ftkRow_mono a p j (ii + 1) _ j ii
        (setb_eq_true.mpr (Or.inl ⟨rfl, rfl⟩))
    · exact ih i2 (by omega) hlt (fun k hk1 hk2 => hrun k (by omega) hk2)
  | case2 ii m hc =>
    intro i2 hle hlt hrun
    exact absurd ⟨by omega, hrun ii (le_refl _) hle⟩ hc

theorem prodSorted_le {a : NodeArr} (ha : prodSorted a) {i1 i2 : Nat}
    (h : i1 ≤ i2) (h2 : i2 < a.len) :
    (a.node i1).prod ≤ (a.node i2).prod := by
  rcases Nat.eq_or_lt_of_le h with rfl | hlt
  · exact le_refl _
  · exact ha i2 h2 i1 hlt

theorem ftkRow_here_sound {a b : NodeArr} {i j : Nat} {m : Mat}
    (hj : j < b.len) (hsound : matSound a b m) :
    matSound a b (ftkRow a ((b.node j).prod) j i m) := by
  intro j2 i2 h
  rcases ftkRow_sound a ((b.node j).prod) j i m j2 i2 h with h2 | h2
  · exact hsound j2 i2 h2
  · obtain ⟨rfl, hle, hlt, hp⟩ := h2
    exact ⟨hj, hlt, hp⟩

theorem ftkRow_here_complete {a b : NodeArr} {i j : Nat} {m : Mat}
    (ha : prodSorted a) (hi : i < a.len)
    (heq : (a.node i).prod = (b.node j).prod)
    (hH1 : ∀ i2, i2 < i → (a.node i2).prod < (b.node j).prod) :
    rowComplete a b (ftkRow a ((b.node j).prod) j i m) j := by
  intro i2 hi2 hmatch
  by_cases hcmp : i2 < i
  · exact absurd hmatch (by have := hH1 i2 hcmp; omega)
  · refine ftkRow_complete a ((b.node j).prod) j i m i2 (by omega) hi2 ?_
    intro k hk1 hk2
    have h1 : (a.node i).prod ≤ (a.node k).prod :=
      prodSorted_le ha hk1 (by omega)
    have h2 : (a.node k).prod ≤ (a.node i2).prod :=
      prodSorted_le ha hk2 hi2
    omega

theorem row_no_match {a b : NodeArr} {i j : Nat}
    (ha : prodSorted a) (hi : i < a.len)
    (hgt : (b.node j).prod < (a.node i).prod)
    (hH1 : ∀ i2, i2 < i → (a.node i2).prod < (b.node j).prod) :
    ∀ i2, i2 < a.len → (a.node i2).prod ≠ (b.node j).prod := by
  intro i2 hi2
  by_cases hcmp : i2 < i
  · have := hH1 i2 hcmp; omega
  · have := prodSorted_le ha (show i ≤ i2 by omega) hi2
    omega

theorem ftkMain_invariant (a b : NodeArr) (ha : prodSorted a)
    (hb : prodSorted b) :
    ∀ i j m, i < a.len → j < b.len → matSound a b m →
      (∀ i2, i2 < i → (a.node i2).prod < (b.node j).prod) →
      (∀ j2, j2 < j → rowComplete a b m j2) →
      matSound a b (ftkMain a b i j m) ∧
      (∀ j2, j2 < b.len → rowComplete a b (ftkMain a b i j m) j2) := by
  intro i j m
  induction i, j, m using ftkMain.induct a b with
  | case1 i j m hC1 hC2 =>
    intro hi hj hsound hH1 hH2
    rw [ftkMain, if_pos hC1, if_pos hC2]
    refine ⟨hsound, ?_⟩
    intro j2 hj2
    by_cases hcmp : j2 < j
    · exact hH2 j2 hcmp
    · intro i2 hi2 hmatch
      exfalso
      have hbj : (b.node j).prod ≤ (b.node j2).prod :=
        prodSorted_le hb (by omega) hj2
      by_cases hii : i2 < i
      · have := hH1 i2 hii; omega
      · have hie : i2 = i := by omega
        subst hie; omega
  | case2 i j m hC1 hC2 ih =>
    intro hi hj hsound hH1 hH2
    rw [ftkMain, if_pos hC1, if_neg hC2]
    refine ih (by omega) hj hsound ?_ hH2
    intro i2 hi2
    by_cases hii : i2 < i
    · exact hH1 i2 hii
    · have : i2 = i := by omega
      subst this; exact hC1
  | case3 i j m hC1 hC3 hC4 =>
    intro hi hj hsound hH1 hH2
    rw [ftkMain, if_neg hC1, if_pos hC3, if_pos hC4]
    refine ⟨hsound, ?_⟩
    intro j2 hj2
    by_cases hcmp : j2 < j
    · exact hH2 j2 hcmp
    · have : j2 = j := by omega
      subst this
      intro i2 hi2 hmatch
      exact absurd hmatch (row_no_match ha hi hC3 hH1 i2 hi2)
  | case4 i j m hC1 hC3 hC4 ih =>
    intro hi hj hsound hH1 hH2
    rw [ftkMain, if_neg hC1, if_pos hC3, if_neg hC4]
    refine ih hi (by omega) hsound ?_ ?_
    · intro i2 hi2
      have := hH1 i2 hi2
      have hbj : (b.node j).prod ≤ (b.node (j + 1)).prod :=
        prodSorted_le hb (by omega) (by omega)
      omega
    · intro j2 hj2
      by_cases hcmp : j2 < j
      · exact hH2 j2 hcmp
      · have : j2 = j := by omega
        subst this
        intro i2 hi2 hmatch
        exact absurd hmatch (row_no_match ha hi hC3 hH1 i2 hi2)
  | case5 i j m hC1 hC3 hC5 =>
    intro hi hj hsound hH1 hH2
    rw [ftkMain, if_neg hC1, if_neg hC3, if_pos hC5]
    have heq : (a.node i).prod = (b.node j).prod := by omega
    refine ⟨ftkRow_here_sound hj hsound, ?_⟩
    intro j2 hj2
    by_cases hcmp : j2 < j
    · intro i2 hi2 hmatch
      exact ftkRow_mono a ((b.node j).prod) j i m j2 i2
        (hH2 j2 hcmp i2 hi2 hmatch)
    · have : j2 = j := by omega
      subst this
      exact ftkRow_here_complete ha hi heq hH1
  | case6 i j m hC1 hC3 hC5 ih =>
    intro hi hj hsound hH1 hH2
    rw [ftkMain, if_neg hC1, if_neg hC3, if_neg hC5]
    have heq : (a.node i).prod = (b.node j).prod := by omega
    refine ih hi (by omega) (ftkRow_here_sound hj hsound) ?_ ?_
    · intro i2 hi2
      have := hH1 i2 hi2
      have hbj : (b.node j).prod ≤ (b.node (j + 1)).prod :=
        prodSorted_le hb (by omega) (by omega)
      omega
    · intro j2 hj2
      by_cases hcmp : j2 < j
      · intro i2 hi2 hmatch
        exact ftkRow_mono a ((b.node j).prod) j i m j2 i2
          (hH2 j2 hcmp i2 hi2 hmatch)
      · have : j2 = j := by omega
        subst this
        exact ftkRow_here_complete ha hi heq hH1

/-- C1: for two production-sorted trees, `fasttreekernel` started on the
zeroed matrix computes exactly the reference all-pairs matrix: bit `i` of
row `j` is set iff `a[i].prod == b[j].prod`. -/
theorem fasttreekernel_correct (a b : NodeArr)
    (ha : prodSorted a) (hb : prodSorted b)
    (ha0 : 0 < a.len) (hb0 : 0 < b.len) :
    ∀ j, j < b.len → ∀ i, i < a.len →
      (fasttreekernel a b j i = true ↔
        (a.node i).prod = (b.node j).prod) := by
  obtain ⟨hsound, hcomp⟩ := ftkMain_invariant a b ha hb 0 0
    (fun _ _ => false) ha0 hb0
    (fun _ _ h => by simp at h)
    (fun i2 hi2 => by omega)
    (fun j2 hj2 => by omega)
  intro j hj i hi
  constructor
  · intro h
    exact (hsound j i h).2.2
  · intro h
    exact hcomp j hj i hi h

theorem fasttreekernel_correct_witness :
    fasttreekernel
        ⟨2, fun k => if k = 0 then ⟨0, -1, -1⟩ else ⟨1, 0, -1⟩⟩
        ⟨2, fun k => if k = 0 then ⟨0, -1, -1⟩ else ⟨1, 0, -1⟩⟩ 1 1 = true ↔
      ((⟨2, fun k => if k = 0 then ⟨0, -1, -1⟩ else ⟨1, 0, -1⟩⟩ :
          NodeArr).node 1).prod =
      ((⟨2, fun k => if k = 0 then ⟨0, -1, -1⟩ else ⟨1, 0, -1⟩⟩ :
          NodeArr).node 1).prod :=
  fasttreekernel_correct
    ⟨2, fun k => if k = 0 then ⟨0, -1, -1⟩ else ⟨1, 0, -1⟩⟩
    ⟨2, fun k => if k = 0 then ⟨0, -1, -1⟩ else ⟨1, 0, -1⟩⟩
    (by decide) (by decide) (by decide) (by decide)
    1 (by decide) 1 (by decide)

theorem clearb_le {m : Mat} {j i j2 i2 : Nat}
    (h : clearb m j i j2 i2 = true) : m j2 i2 = true := by
  unfold clearb at h
  split at h
  · exact absurd h (by simp)
  · exact h

/-- `extractat` only clears matrix bits, and the bit of its own pair is
cleared in the final matrix. -/
theorem extractat_matrix (a b : NodeArr) :
    ∀ fuel m r i j m2 r2 t,
      extractat a b fuel m r i j = some (m2, r2, t) →
      (∀ j3 i3, m2 j3 i3 = true → m j3 i3 = true) ∧ m2 j i = false := by
  intro fuel
  induction fuel with
  | zero => intro m r i j m2 r2 t h; exact absurd h (by simp [extractat])
  | succ fuel ih =>
    intro m r i j m2 r2 t h
    rw [extractat] at h
    by_cases hterm : (a.node i).left < 0
    · rw [if_pos hterm] at h
      obtain ⟨rfl, rfl, rfl⟩ : clearb m j i = m2 ∧ setr r i = r2 ∧ 1 = t := by
        injection h with h2
        injection h2 with e1 h3
        injection h3 with e2 e3
        exact ⟨e1, e2, e3⟩
      refine ⟨fun j3 i3 h3 => clearb_le h3, ?_⟩
      unfold clearb
      simp
    · rw [if_neg hterm] at h
      simp only at h
      -- the left step
      set m1 := clearb m j i with hm1
      set r1 := setr r i with hr1
      set li := ((a.node i).left).toNat
      set lj := ((b.node j).left).toNat
      have hm1le : ∀ j3 i3, m1 j3 i3 = true → m j3 i3 = true :=
        fun j3 i3 h3 => clearb_le h3
      have hm1self : m1 j i = false := by rw [hm1]; unfold clearb; simp
      rcases hstep : (if m1 lj li then extractat a b fuel m1 r1 li lj
          else some (m1, r1, 0)) with _ | ⟨mA, rA, tA⟩
      · rw [hstep] at h; exact absurd h (by simp)
      · rw [hstep] at h
        simp only at h
        have hA : (∀ j3 i3, mA j3 i3 = true → m j3 i3 = true) ∧
            mA j i = false := by
          by_cases hbit : m1 lj li = true
          · rw [if_pos hbit] at hstep
            obtain ⟨hle, hcl⟩ := ih m1 r1 li lj mA rA tA hstep
            refine ⟨fun j3 i3 h3 => hm1le j3 i3 (hle j3 i3 h3), ?_⟩
            rcases hbm : mA j i with _ | _
            · rfl
            · exact absurd (hle j i hbm) (by rw [hm1self]; simp)
          · rw [if_neg (by simpa using hbit)] at hstep
            obtain ⟨rfl, rfl, rfl⟩ : m1 = mA ∧ r1 = rA ∧ 0 = tA := by
              injection hstep with h2
              injection h2 with e1 h3
              injection h3 with e2 e3
              exact ⟨e1, e2, e3⟩
            exact ⟨hm1le, hm1self⟩
        obtain ⟨hAle, hAself⟩ := hA
        by_cases hun : (a.node i).right < 0
        · rw [if_pos hun] at h
          obtain ⟨rfl, rfl, rfl⟩ : mA = m2 ∧ rA = r2 ∧ 0 = t := by
            injection h with h2
            injection h2 with e1 h3
            injection h3 with e2 e3
            exact ⟨e1, e2, e3⟩
          exact ⟨hAle, hAself⟩
        · rw [if_neg hun] at h
          set ri := ((a.node i).right).toNat
          set rj := ((b.node j).right).toNat
          by_cases hbit2 : mA rj ri = true
          · rw [if_pos hbit2] at h
            rcases hrec : extractat a b fuel mA rA ri rj with _ | ⟨mB, rB, tB⟩
            · rw [hrec] at h; exact absurd h (by simp)
            · rw [hrec] at h
              simp only at h
              obtain ⟨rfl, rfl, rfl⟩ : mB = m2 ∧ rB = r2 ∧ tA + tB = t := by
                injection h with h2
                injection h2 with e1 h3
                injection h3 with e2 e3
                exact ⟨e1, e2, e3⟩
              obtain ⟨hBle, hBself⟩ := ih mA rA ri rj mB rB tB hrec
              refine ⟨fun j3 i3 h3 => hAle j3 i3 (hBle j3 i3 h3), ?_⟩
              rcases hbm : mB j i with _ | _
              · rfl
              · exact absurd (hBle j i hbm) (by rw [hAself]; simp)
          · rw [if_neg (by simpa using hbit2)] at h
            obtain ⟨rfl, rfl, rfl⟩ : mA = m2 ∧ rA = r2 ∧ tA = t := by
              injection h with h2
              injection h2 with e1 h3
              injection h3 with e2 e3
              exact ⟨e1, e2, e3⟩
            exact ⟨hAle, hAself⟩

theorem setr_eq_true {r : Nat → Bool} {i k : Nat} :
    setr r i k = true ↔ (k = i ∨ r k = true) := by
  unfold setr
  split
  · simp_all
  · simp_all

/-- Bits of the fragment bitset built by `extractat`: the result only
grows, its own root bit `i` is set, and every added bit was either the
root or carried a set bit somewhere in the input matrix. -/
theorem extractat_result (a b : NodeArr) :
    ∀ fuel m r i j m2 r2 t,
      extractat a b fuel m r i j = some (m2, r2, t) →
      (∀ k, r k = true → r2 k = true) ∧ r2 i = true ∧
      (∀ k, r2 k = true →
        r k = true ∨ k = i ∨ (∃ j3, m j3 k = true)) := by
  intro fuel
  induction fuel with
  | zero => intro m r i j m2 r2 t h; exact absurd h (by simp [extractat])
  | succ fuel ih =>
    intro m r i j m2 r2 t h
    rw [extractat] at h
    by_cases hterm : (a.node i).left < 0
    · rw [if_pos hterm] at h
      obtain ⟨rfl, rfl, rfl⟩ : clearb m j i = m2 ∧ setr r i = r2 ∧ 1 = t := by
        injection h with h2
        injection h2 with e1 h3
        injection h3 with e2 e3
        exact ⟨e1, e2, e3⟩
      refine ⟨fun k hk => setr_eq_true.mpr (Or.inr hk),
        setr_eq_true.mpr (Or.inl rfl), ?_⟩
      intro k hk
      rcases setr_eq_true.mp hk with h3 | h3
      · exact Or.inr (Or.inl h3)
      · exact Or.inl h3
    · rw [if_neg hterm] at h
      simp only at h
      set m1 := clearb m j i with hm1
      set r1 := setr r i with hr1
      set li := ((a.node i).left).toNat
      set lj := ((b.node j).left).toNat
      rcases hstep : (if m1 lj li then extractat a b fuel m1 r1 li lj
          else some (m1, r1, 0)) with _ | ⟨mA, rA, tA⟩
      · rw [hstep] at h; exact absurd h (by simp)
      · rw [hstep] at h
        simp only at h
        have hA : (∀ k, r1 k = true → rA k = true) ∧
            (∀ k, rA k = true →
              r1 k = true ∨ (∃ j3, m j3 k = true)) ∧
            (∀ j3 i3, mA j3 i3 = true → m j3 i3 = true) := by
          by_cases hbit : m1 lj li = true
          · rw [if_pos hbit] at hstep
            obtain ⟨hmono, hroot, hnew⟩ := ih m1 r1 li lj mA rA tA hstep
            obtain ⟨hmle, _⟩ := extractat_matrix a b fuel m1 r1 li lj mA rA tA hstep
            refine ⟨hmono, ?_, fun j3 i3 h3 => clearb_le (hmle j3 i3 h3)⟩
            intro k hk
            rcases hnew k hk with h3 | h3 | h3
            · exact Or.inl h3
            · subst h3
              exact Or.inr ⟨lj, clearb_le hbit⟩
            · obtain ⟨j3, h4⟩ := h3
              exact Or.inr ⟨j3, clearb_le h4⟩
          · rw [if_neg (by simpa using hbit)] at hstep
            obtain ⟨rfl, rfl, rfl⟩ : m1 = mA ∧ r1 = rA ∧ 0 = tA := by
              injection hstep with h2
              injection h2 with e1 h3
              injection h3 with e2 e3
              exact ⟨e1, e2, e3⟩
            exact ⟨fun k hk => hk, fun k hk => Or.inl hk,
              fun j3 i3 h3 => clearb_le h3⟩
        obtain ⟨hAmono, hAnew, hAle⟩ := hA
        have hr1sub : ∀ k, r1 k = true →
            r k = true ∨ k = i ∨ (∃ j3, m j3 k = true) := by
          intro k hk
          rcases setr_eq_true.mp (by rw [← hr1]; exact hk) with h3 | h3
          · exact Or.inr (Or.inl h3)
          · exact Or.inl h3
        have hAfin : ∀ k, rA k = true →
            r k = true ∨ k = i ∨ (∃ j3, m j3 k = true) := by
          intro k hk
          rcases hAnew k hk with h3 | h3
          · exact hr1sub k h3
          · exact Or.inr (Or.inr h3)
        have hAmono2 : ∀ k, r k = true → rA k = true :=
          fun k hk => hAmono k (by rw [hr1]; exact setr_eq_true.mpr (Or.inr hk))
        have hAroot : rA i = true :=
          hAmono i (by rw [hr1]; exact setr_eq_true.mpr (Or.inl rfl))
        by_cases hun : (a.node i).right < 0
        · rw [if_pos hun] at h
          obtain ⟨rfl, rfl, rfl⟩ : mA = m2 ∧ rA = r2 ∧ 0 = t := by
            injection h with h2
            injection h2 with e1 h3
            injection h3 with e2 e3
            exact ⟨e1, e2, e3⟩
          exact ⟨hAmono2, hAroot, hAfin⟩
        · rw [if_neg hun] at h
          set ri := ((a.node i).right).toNat
          set rj := ((b.node j).right).toNat
          by_cases hbit2 : mA rj ri = true
          · rw [if_pos hbit2] at h
            rcases hrec : extractat a b fuel mA rA ri rj with _ | ⟨mB, rB, tB⟩
            · rw [hrec] at h; exact absurd h (by simp)
            · rw [hrec] at h
              simp only at h
              obtain ⟨rfl, rfl, rfl⟩ : mB = m2 ∧ rB = r2 ∧ tA + tB = t := by
                injection h with h2
                injection h2 with e1 h3
                injection h3 with e2 e3
                exact ⟨e1, e2, e3⟩
              obtain ⟨hBmono, hBroot, hBnew⟩ := ih mA rA ri rj mB rB tB hrec
              refine ⟨fun k hk => hBmono k (hAmono2 k hk),
                hBmono i hAroot, ?_⟩
              intro k hk
              rcases hBnew k hk with h3 | h3 | h3
              · exact hAfin k h3
              · subst h3
                exact Or.inr (Or.inr ⟨rj, hAle rj ri hbit2⟩)
              · obtain ⟨j3, h4⟩ := h3
                exact Or.inr (Or.inr ⟨j3, hAle j3 k h4⟩)
          · rw [if_neg (by simpa using hbit2)] at h
            obtain ⟨rfl, rfl, rfl⟩ : mA = m2 ∧ rA = r2 ∧ tA = t := by
              injection h with h2
              injection h2 with e1 h3
              injection h3 with e2 e3
              exact ⟨e1, e2, e3⟩
            exact ⟨hAmono2, hAroot, hAfin⟩

/-- C2 (amended): the return-count discipline of `extractat`.  A terminal
node (`a[i].left < 0`) returns 1 after setting bit `i` and clearing the
matrix cell; a unary internal node (`a[i].right < 0`) returns 0, discarding
whatever terminal count its left branch absorbed; a binary internal node
returns the sum of the counts of the child steps it performs. -/
theorem extractat_count_discipline (a b : NodeArr) (fuel : Nat) (m : Mat)
    (r : Nat → Bool) (i j : Nat) :
    ((a.node i).left < 0 →
      extractat a b (fuel + 1) m r i j =
        some (clearb m j i, setr r i, 1)) ∧
    (0 ≤ (a.node i).left → (a.node i).right < 0 →
      ∀ m2 r2 t, extractat a b (fuel + 1) m r i j = some (m2, r2, t) →
        t = 0) ∧
    (0 ≤ (a.node i).left → 0 ≤ (a.node i).right →
      ∀ m2 r2 t, extractat a b (fuel + 1) m r i j = some (m2, r2, t) →
        ∃ mA rA tA tB, leftStep a b fuel m r i j = some (mA, rA, tA) ∧
          t = tA + tB ∧
          (if mA ((b.node j).right).toNat ((a.node i).right).toNat then
            extractat a b fuel mA rA ((a.node i).right).toNat
              ((b.node j).right).toNat = some (m2, r2, tB)
          else (m2 = mA ∧ r2 = rA ∧ tB = 0))) := by
  refine ⟨?_, ?_, ?_⟩
  · intro hterm
    rw [extractat, if_pos hterm]
  · intro hl hr m2 r2 t h
    rw [extractat, if_neg (by omega)] at h
    simp only at h
    rcases hstep : (if (clearb m j i) ((b.node j).left).toNat
          ((a.node i).left).toNat then
        extractat a b fuel (clearb m j i) (setr r i)
          ((a.node i).left).toNat ((b.node j).left).toNat
      else some (clearb m j i, setr r i, 0)) with _ | ⟨mA, rA, tA⟩
    · rw [hstep] at h; exact absurd h (by simp)
    · rw [hstep] at h
      simp only at h
      rw [if_pos hr] at h
      injection h with h2
      injection h2 with e1 h3
      injection h3 with e2 e3
      omega
  · intro hl hr m2 r2 t h
    rw [extractat, if_neg (by omega)] at h
    simp only at h
    rcases hstep : (if (clearb m j i) ((b.node j).left).toNat
          ((a.node i).left).toNat then
        extractat a b fuel (clearb m j i) (setr r i)
          ((a.node i).left).toNat ((b.node j).left).toNat
      else some (clearb m j i, setr r i, 0)) with _ | ⟨mA, rA, tA⟩
    · rw [hstep] at h; exact absurd h (by simp)
    · rw [hstep] at h
      simp only at h
      rw [if_neg (by omega)] at h
      refine ⟨mA, rA, tA, ?_⟩
      by_cases hbit2 : mA ((b.node j).right).toNat
          ((a.node i).right).toNat = true
      · rw [if_pos hbit2] at h
        rcases hrec : extractat a b fuel mA rA ((a.node i).right).toNat
            ((b.node j).right).toNat with _ | ⟨mB, rB, tB⟩
        · rw [hrec] at h; exact absurd h (by simp)
        · rw [hrec] at h
          simp only at h
          injection h with h2
          injection h2 with e1 h3
          injection h3 with e2 e3
          refine ⟨tB, ?_, by omega, ?_⟩
          · show leftStep a b fuel m r i j = _
            rw [leftStep, hstep]
          · rw [if_pos hbit2, e1, e2]
      · rw [if_neg (by simpa using hbit2)] at h
        injection h with h2
        injection h2 with e1 h3
        injection h3 with e2 e3
        refine ⟨0, ?_, by omega, ?_⟩
        · show leftStep a b fuel m r i j = _
          rw [leftStep, hstep]
        · rw [if_neg (by simpa using hbit2)]
          exact ⟨e1.symm, e2.symm, rfl⟩

theorem bool_ext {x y : Bool} (h : (x = true) ↔ (y = true)) : x = y := by
  cases x <;> cases y <;> simp_all

theorem fasttreekernel_sound (a b : NodeArr) (ha : prodSorted a)
    (hb : prodSorted b) (ha0 : 0 < a.len) (hb0 : 0 < b.len) :
    matSound a b (fasttreekernel a b) :=
  (ftkMain_invariant a b ha hb 0 0 (fun _ _ => false) ha0 hb0
    (fun _ _ h => by simp at h)
    (fun i2 hi2 => by omega)
    (fun j2 hj2 => by omega)).1

theorem fasttreekernel_eq_refMat (a b : NodeArr) (ha : prodSorted a)
    (hb : prodSorted b) (ha0 : 0 < a.len) (hb0 : 0 < b.len) :
    fasttreekernel a b = refMat a b := by
  have hs := fasttreekernel_sound a b ha hb ha0 hb0
  have hc := fasttreekernel_correct a b ha hb ha0 hb0
  funext j i
  by_cases hj : j < b.len
  · by_cases hi : i < a.len
    · refine bool_ext ?_
      rw [hc j hj i hi]
      unfold refMat
      simp [hj, hi]
    · refine bool_ext ?_
      unfold refMat
      constructor
      · intro h
        exact absurd (hs j i h).2.1 hi
      · intro h
        simp at h
        omega
  · refine bool_ext ?_
    unfold refMat
    constructor
    · intro h
      exact absurd (hs j i h).1 hj
    · intro h
      simp at h
      omega

/-- C2 (counterexample): running `extractat` on the pair `(cex2, cex2)`
with the genuine `fasttreekernel` matrix, starting at the unary root pair
`(1, 1)` (equal productions), absorbs one terminal of `a` into the
extracted bitset but returns 0, not 1. -/
theorem extractat_count_counterexample :
    fasttreekernel cex2 cex2 = refMat cex2 cex2 ∧
    (cex2.node 1).prod = (cex2.node 1).prod ∧
    (extractat cex2 cex2 3 (refMat cex2 cex2)
      (fun _ => false) 1 1).isSome = true ∧
    exTerms (extractat cex2 cex2 3 (refMat cex2 cex2)
      (fun _ => false) 1 1) = 0 ∧
    termbits cex2 (exBits (extractat cex2 cex2 3 (refMat cex2 cex2)
      (fun _ => false) 1 1)) = 1 ∧
    (0 : Int) ≠ 1 := by
  refine ⟨fasttreekernel_eq_refMat cex2 cex2
    (by decide) (by decide) (by decide) (by decide), ?_, ?_, ?_, ?_, ?_⟩
  · rfl
  · decide
  · decide
  · decide
  · decide

theorem extractat_count_discipline_witness :
    (0 ≤ (cex2.node 1).left ∧ (cex2.node 1).right < 0) ∧
    exTerms (extractat cex2 cex2 3 (refMat cex2 cex2)
      (fun _ => false) 1 1) = 0 := by
  refine ⟨by decide, ?_⟩
  have h := (extractat_count_discipline cex2 cex2 2 (refMat cex2 cex2)
    (fun _ => false) 1 1).2.1 (by decide) (by decide)
  rcases hres : extractat cex2 cex2 3 (refMat cex2 cex2)
      (fun _ => false) 1 1 with _ | ⟨m2, r2, t⟩
  · have hs : (extractat cex2 cex2 3 (refMat cex2 cex2)
        (fun _ => false) 1 1).isSome = true := by decide
    rw [hres] at hs
    simp at hs
  · have ht := h m2 r2 t hres
    simp [exTerms, hres, ht]

theorem nextSetBit_mem {row : Nat → Bool} {cursor width i : Nat}
    (h : nextSetBit row cursor width = some i) :
    cursor ≤ i ∧ i < width ∧ row i = true := by
  unfold nextSetBit at h
  have hmem : i ∈ (List.range width).filter
      (fun k => decide (cursor ≤ k) && row k) :=
    List.mem_of_mem_head? h
  have h2 := List.mem_filter.mp hmem
  obtain ⟨h3, h4⟩ := h2
  simp only [Bool.and_eq_true, decide_eq_true_eq] at h4
  exact ⟨h4.1, List.mem_range.mp h3, h4.2⟩

theorem ebsStart_inv (a b : NodeArr) (n : Nat) (minterms : Int)
    (atFuel j i : Nat) (st : EbsSt) (hinv : ebsInv st)
    (hh : st.halted = false) (hbit : st.m j i = true) :
    ebsInv (ebsStart a b n minterms atFuel j i st) := by
  have hnotin : (i, j) ∉ st.trace := by
    intro hmem
    have h5 := hinv.2 hh (i, j) hmem
    rw [h5] at hbit
    exact absurd hbit (by simp)
  have hnodup2 : (st.trace ++ [(i, j)]).Nodup := by
    rw [List.nodup_append]
    refine ⟨hinv.1, List.nodup_singleton _, ?_⟩
    intro p hp hq
    simp only [List.mem_singleton] at hq
    subst hq
    exact hnotin hp
  unfold ebsStart
  rcases hex : extractat a b atFuel st.m (fun _ => false) i j
      with _ | ⟨m2, r2, terms⟩
  · exact ⟨hnodup2, fun h => Bool.noConfusion h⟩
  · obtain ⟨hle, hself⟩ :=
      extractat_matrix a b atFuel st.m (fun _ => false) i j m2 r2 terms hex
    refine ⟨hnodup2, ?_⟩
    intro _ p hp
    rcases List.mem_append.mp hp with hp2 | hp2
    · have hold := hinv.2 hh p hp2
      show m2 p.2 p.1 = false
      rcases hb2 : m2 p.2 p.1 with _ | _
      · rfl
      · exact absurd (hle p.2 p.1 hb2) (by rw [hold]; simp)
    · simp only [List.mem_singleton] at hp2
      subst hp2
      exact hself

theorem ebsRowLoop_inv (a b : NodeArr) (n : Nat) (minterms : Int)
    (atFuel j : Nat) :
    ∀ lf cursor st, ebsInv st →
      ebsInv (ebsRowLoop a b n minterms atFuel j lf cursor st) := by
  intro lf
  induction lf with
  | zero =>
    intro cursor st hinv
    exact ⟨hinv.1, fun h => Bool.noConfusion h⟩
  | succ lf ih =>
    intro cursor st hinv
    rw [ebsRowLoop]
    by_cases hh : st.halted
    · rw [if_pos hh]; exact hinv
    · rw [if_neg hh]
      rcases hnext : nextSetBit (st.m j) cursor a.len with _ | i
      · exact hinv
      · have ⟨hcur, hiw, hbit⟩ := nextSetBit_mem hnext
        exact ih (i + 1) _
          (ebsStart_inv a b n minterms atFuel j i st hinv
            (by simpa using hh) hbit)

theorem ebs_inv (a b : NodeArr) (n : Nat) (minterms : Int) (atFuel : Nat) :
    ∀ tf j st, ebsInv st → ebsInv (ebs a b n minterms atFuel tf j st) := by
  intro tf
  induction tf with
  | zero =>
    intro j st hinv
    exact ⟨hinv.1, fun h => Bool.noConfusion h⟩
  | succ tf ih =>
    intro j st hinv
    rw [ebs]
    by_cases hh : st.halted
    · rw [if_pos hh]; exact hinv
    · rw [if_neg hh]
      have h1 := ebsRowLoop_inv a b n minterms atFuel j (a.len + 1) 0 st hinv
      by_cases hl : 0 ≤ (b.node j).left
      · rw [if_pos hl]
        have h2 := ih ((b.node j).left).toNat _ h1
        by_cases hr : 0 ≤ (b.node j).right
        · rw [if_pos hr]
          exact ih ((b.node j).right).toNat _ h2
        · rw [if_neg hr]
          exact h2
      · rw [if_neg hl]
        exact h1

/-- C3: during the extraction pass over one tree pair, no two top-level
`extractat` extractions are ever started from the same `(i, j)` node pair
— the clear of the matrix cell at the start of `extractat`, together with
the fact that extraction only ever clears matrix bits, makes the trace of
extraction starts duplicate-free, so no fragment bitset is produced twice
for the pair. -/
theorem extractbitsets_trace_nodup (a b : NodeArr) (n : Nat)
    (minterms : Int) (atFuel tf j0 : Nat) (m0 : Mat) :
    (ebs a b n minterms atFuel tf j0
      { m := m0, results := [], trace := [], halted := false }).trace.Nodup :=
  (ebs_inv a b n minterms atFuel tf j0
    { m := m0, results := [], trace := [], halted := false }
    ⟨List.nodup_nil, fun _ p hp => absurd hp (List.not_mem_nil p)⟩).1

/-- A fragment embeds in its own tree at its own root: running
`containsbitset` on the same tree with `i = j` answers true, given enough
fuel for the tree depth (`d` is any measure that decreases from parent to
child). -/
theorem containsbitset_self (a : NodeArr) (R : Nat → Bool) (d : Nat → Nat)
    (hd : ∀ k, k < a.len →
      (0 ≤ (a.node k).left → ((a.node k).left).toNat < a.len ∧
        d (((a.node k).left).toNat) < d k) ∧
      (0 ≤ (a.node k).right → ((a.node k).right).toNat < a.len ∧
        d (((a.node k).right).toNat) < d k)) :
    ∀ fuel i, i < a.len → d i < fuel →
      containsbitset a a fuel R i i = some true := by
  intro fuel
  induction fuel with
  | zero => intro i hi hdi; omega
  | succ fuel ih =>
    intro i hi hdi
    rw [containsbitset, if_neg (by simp)]
    by_cases hterm : (a.node i).left < 0
    · rw [if_pos hterm]
    · rw [if_neg hterm]
      obtain ⟨hdl, hdr⟩ := hd i hi
      have hstep : (if R ((a.node i).left).toNat then
          containsbitset a a fuel R ((a.node i).left).toNat
            ((a.node i).left).toNat
        else some true) = some true := by
        split
        · exact ih ((a.node i).left).toNat (hdl (by omega)).1
            (by have := (hdl (by omega)).2; omega)
        · rfl
      rw [hstep]
      by_cases hun : (a.node i).right < 0
      · simp only [if_pos hun]
      · simp only [if_neg hun]
        split
        · exact ih ((a.node i).right).toNat (hdr (by omega)).1
            (by have := (hdr (by omega)).2; omega)
        · rfl

theorem indexNodes_length {n : Nat} {a : NodeArr} (l : List Nat)
    (acc : List (Finset Nat)) :
    (indexNodes n a l acc).length = acc.length := by
  induction l generalizing acc with
  | nil => rfl
  | cons m ms ih =>
    show (indexNodes n a ms _).length = _
    rw [ih]
    exact List.length_set acc _ _

theorem getD_set_mono {acc : List (Finset Nat)} {p q x : Nat}
    {s : Finset Nat} (hs : acc.getD p ∅ ⊆ s)
    (h : x ∈ acc.getD q ∅) : x ∈ (acc.set p s).getD q ∅ := by
  by_cases hlen : p < acc.length
  · by_cases hq : p = q
    · subst hq
      rw [List.getD_eq_getElem?_getD, List.getElem?_set_self hlen]
      exact hs h
    · rw [List.getD_eq_getElem?_getD, List.getElem?_set_ne hq]
      rw [List.getD_eq_getElem?_getD] at h
      exact h
  · rw [List.set_eq_of_length_le (by omega)]
    exact h

theorem indexNodes_mono {n : Nat} {a : NodeArr} {q x : Nat} (l : List Nat) :
    ∀ acc : List (Finset Nat), x ∈ acc.getD q ∅ →
      x ∈ (indexNodes n a l acc).getD q ∅ := by
  induction l with
  | nil => intro acc h; exact h
  | cons m ms ih =>
    intro acc h
    show x ∈ (indexNodes n a ms _).getD q ∅
    refine ih _ (getD_set_mono (fun y hy => Finset.mem_insert_of_mem hy) h)

theorem indexNodes_adds {n : Nat} {a : NodeArr} (l : List Nat)
    (acc : List (Finset Nat)) (m : Nat) (hm : m ∈ l)
    (hp : ((a.node m).prod).toNat < acc.length) :
    n ∈ (indexNodes n a l acc).getD ((a.node m).prod).toNat ∅ := by
  induction l generalizing acc with
  | nil => exact absurd hm (List.not_mem_nil m)
  | cons m2 ms ih =>
    rcases List.mem_cons.mp hm with rfl | hm2
    · show n ∈ (indexNodes n a ms _).getD ((a.node m).prod).toNat ∅
      refine indexNodes_mono ms _ ?_
      rw [List.getD_eq_getElem?_getD, List.getElem?_set_self hp]
      exact Finset.mem_insert_self n _
    · show n ∈ (indexNodes n a ms _).getD ((a.node m).prod).toNat ∅
      exact ih _ hm2 (by rw [List.length_set]; exact hp)

theorem indexOneTree_length {n : Nat} {a : NodeArr}
    (acc : List (Finset Nat)) :
    (indexOneTree n a acc).length = acc.length :=
  indexNodes_length (List.range a.len) acc

theorem indextreesAux_mono {q x : Nat} (trees : List NodeArr) :
    ∀ n0 acc, x ∈ acc.getD q ∅ →
      x ∈ (indextreesAux trees n0 acc).getD q ∅ := by
  induction trees with
  | nil => intro n0 acc h; exact h
  | cons a rest ih =>
    intro n0 acc h
    exact ih _ _ (indexNodes_mono (List.range a.len) acc h)

theorem indextreesAux_length (trees : List NodeArr) :
    ∀ n0 acc, (indextreesAux trees n0 acc).length = acc.length := by
  induction trees with
  | nil => intro n0 acc; rfl
  | cons a rest ih =>
    intro n0 acc
    show (indextreesAux rest _ _).length = _
    rw [ih, indexOneTree_length]

theorem indextreesAux_adds (trees : List NodeArr) :
    ∀ n0 acc t, t < trees.length →
      ∀ mi, mi < (trees.getD t dfltArr).len →
        (((trees.getD t dfltArr).node mi).prod).toNat < acc.length →
        (n0 + t) ∈ (indextreesAux trees n0 acc).getD
          ((((trees.getD t dfltArr).node mi).prod).toNat) ∅ := by
  induction trees with
  | nil => intro n0 acc t ht; exact absurd ht (by simp)
  | cons a rest ih =>
    intro n0 acc t ht mi hmi hp
    match t with
    | 0 =>
      show (n0 + 0) ∈ (indextreesAux rest (n0 + 1) (indexOneTree n0 a acc)).getD _ ∅
      refine indextreesAux_mono rest _ _ ?_
      have h0 : (n0 + 0) = n0 := by omega
      rw [h0]
      exact indexNodes_adds (List.range a.len) acc mi
        (List.mem_range.mpr hmi) hp
    | t2 + 1 =>
      show (n0 + (t2 + 1)) ∈ (indextreesAux rest (n0 + 1) (indexOneTree n0 a acc)).getD _ ∅
      have h1 : n0 + (t2 + 1) = (n0 + 1) + t2 := by omega
      rw [h1]
      refine ih (n0 + 1) (indexOneTree n0 a acc) t2
        (by simpa using Nat.lt_of_succ_lt_succ ht) mi hmi ?_
      rw [indexOneTree_length]
      exact hp

/-- Positive membership in the production index: a tree containing a node
of production `p` is in `treeswithprod[p]`. -/
theorem indextrees_adds (trees : List NodeArr) (numprods : Nat) (t : Nat)
    (ht : t < trees.length) (mi : Nat)
    (hmi : mi < (trees.getD t dfltArr).len)
    (hp : (((trees.getD t dfltArr).node mi).prod).toNat < numprods) :
    t ∈ (indextrees trees numprods).getD
      ((((trees.getD t dfltArr).node mi).prod).toNat) ∅ := by
  have h := indextreesAux_adds trees 0 (List.replicate numprods ∅) t ht mi
    hmi (by rw [List.length_replicate]; exact hp)
  simpa using h

theorem foldl_inter_mem {x : Nat} (f : Nat → Finset Nat) (l : List Nat) :
    ∀ init : Finset Nat, x ∈ init → (∀ k ∈ l, x ∈ f k) →
      x ∈ l.foldl (fun c k => c ∩ f k) init := by
  induction l with
  | nil => intro init h _; exact h
  | cons k ks ih =>
    intro init h hall
    simp only [List.foldl_cons]
    refine ih _ (Finset.mem_inter.mpr ⟨h, hall k (by simp)⟩) ?_
    intro k2 hk2
    exact hall k2 (by simp [hk2])

/-- The source tree survives the candidate intersection: every set bit of
the fragment names a node of tree `id`, so `id` is in every intersected
`treeswithprod` set. -/
theorem candidatesOf_self (trees : List NodeArr) (numprods : Nat)
    (id : Nat) (hid : id < trees.length) (R : Nat → Bool) (root : Nat)
    (hroot : root < (trees.getD id dfltArr).len) (hrbit : R root = true)
    (hprods : ∀ k, k < (trees.getD id dfltArr).len →
      (((trees.getD id dfltArr).node k).prod).toNat < numprods) :
    id ∈ candidatesOf (indextrees trees numprods) (trees.getD id dfltArr) R
      (trees.getD id dfltArr).len := by
  unfold candidatesOf
  have hmemall : ∀ k ∈ bitsList R (trees.getD id dfltArr).len,
      id ∈ (indextrees trees numprods).getD
        ((((trees.getD id dfltArr).node k).prod).toNat) ∅ := by
    intro k hk
    have h2 := List.mem_filter.mp hk
    have hk2 := List.mem_range.mp h2.1
    exact indextrees_adds trees numprods id hid k hk2 (hprods k hk2)
  have hne : root ∈ bitsList R (trees.getD id dfltArr).len := by
    unfold bitsList
    exact List.mem_filter.mpr ⟨List.mem_range.mpr hroot, hrbit⟩
  rcases hbl : bitsList R (trees.getD id dfltArr).len with _ | ⟨i0, rest⟩
  · rw [hbl] at hne; exact absurd hne (List.not_mem_nil root)
  · refine foldl_inter_mem _ _ _ ?_ ?_
    · exact hmemall i0 (by rw [hbl]; simp)
    · intro k hk
      have hk2 : k ∈ rest := List.Sublist.mem hk (List.takeWhile_sublist _)
      exact hmemall k (by rw [hbl]; simp [hk2])

/-- Reaching the fragment root in the inner loop of `exactcounts`: on a
production-sorted tree the `break` cannot fire before `j` reaches the
root, where the self-embedding contributes 1. -/
theorem countMatchesFrom_self_ge (a : NodeArr) (R : Nat → Bool)
    (root fuel : Nat) (ha : prodSorted a) (hroot : root < a.len)
    (hself : containsbitset a a fuel R root root = some true) :
    ∀ nsteps j, j ≤ root → root - j = nsteps →
      1 ≤ countMatchesFrom a a R root fuel j := by
  intro nsteps
  induction nsteps with
  | zero =>
    intro j hj hn
    have hjr : j = root := by omega
    subst hjr
    rw [countMatchesFrom, dif_pos hroot, if_pos rfl, if_pos hself]
    omega
  | succ nsteps ih =>
    intro j hj hn
    have hjr : j < root := by omega
    have hjlen : j < a.len := by omega
    rw [countMatchesFrom, dif_pos hjlen]
    by_cases heq : (a.node root).prod = (a.node j).prod
    · rw [if_pos heq]
      have h2 := ih (j + 1) (by omega) (by omega)
      omega
    · rw [if_neg heq]
      have hle : (a.node j).prod ≤ (a.node root).prod := ha root hroot j hjr
      rw [if_neg (by omega)]
      exact ih (j + 1) (by omega) (by omega)

theorem ebsStart_wf (a b : NodeArr) (n : Nat) (minterms : Int)
    (atFuel j i : Nat) (st : EbsSt) (hwf : ebsResWf a n st)
    (hbit : st.m j i = true) :
    ebsResWf a n (ebsStart a b n minterms atFuel j i st) := by
  unfold ebsStart
  rcases hex : extractat a b atFuel st.m (fun _ => false) i j
      with _ | ⟨m2, r2, terms⟩
  · exact hwf
  · obtain ⟨hle, _⟩ :=
      extractat_matrix a b atFuel st.m (fun _ => false) i j m2 r2 terms hex
    obtain ⟨hmono, hroot, hnew⟩ :=
      extractat_result a b atFuel st.m (fun _ => false) i j m2 r2 terms hex
    have hm2 : ∀ j2 i2, m2 j2 i2 = true → i2 < a.len :=
      fun j2 i2 h2 => hwf.2 j2 i2 (hle j2 i2 h2)
    refine ⟨?_, hm2⟩
    intro e hememb
    simp only at hememb
    have hi : i < a.len := hwf.2 j i hbit
    by_cases hmt : minterms ≤ terms
    · rw [if_pos hmt] at hememb
      rcases List.mem_append.mp hememb with h2 | h2
      · exact hwf.1 e h2
      · simp only [List.mem_singleton] at h2
        subst h2
        refine ⟨rfl, hroot, hi, ?_⟩
        intro k hk
        rcases hnew k hk with h3 | h3 | h3
        · exact absurd h3 (by simp)
        · omega
        · obtain ⟨j3, h4⟩ := h3
          exact hwf.2 j3 k h4
    · rw [if_neg hmt] at hememb
      exact hwf.1 e hememb

theorem ebsRowLoop_wf (a b : NodeArr) (n : Nat) (minterms : Int)
    (atFuel j : Nat) :
    ∀ lf cursor st, ebsResWf a n st →
      ebsResWf a n (ebsRowLoop a b n minterms atFuel j lf cursor st) := by
  intro lf
  induction lf with
  | zero => intro cursor st hwf; exact hwf
  | succ lf ih =>
    intro cursor st hwf
    rw [ebsRowLoop]
    by_cases hh : st.halted
    · rw [if_pos hh]; exact hwf
    · rw [if_neg hh]
      rcases hnext : nextSetBit (st.m j) cursor a.len with _ | i
      · exact hwf
      · have ⟨hcur, hiw, hbit⟩ := nextSetBit_mem hnext
        exact ih (i + 1) _ (ebsStart_wf a b n minterms atFuel j i st hwf hbit)

theorem ebs_wf (a b : NodeArr) (n : Nat) (minterms : Int) (atFuel : Nat) :
    ∀ tf j st, ebsResWf a n st →
      ebsResWf a n (ebs a b n minterms atFuel tf j st) := by
  intro tf
  induction tf with
  | zero => intro j st hwf; exact hwf
  | succ tf ih =>
    intro j st hwf
    rw [ebs]
    by_cases hh : st.halted
    · rw [if_pos hh]; exact hwf
    · rw [if_neg hh]
      have h1 := ebsRowLoop_wf a b n minterms atFuel j (a.len + 1) 0 st hwf
      by_cases hl : 0 ≤ (b.node j).left
      · rw [if_pos hl]
        have h2 := ih ((b.node j).left).toNat _ h1
        by_cases hr : 0 ≤ (b.node j).right
        · rw [if_pos hr]
          exact ih ((b.node j).right).toNat _ h2
        · rw [if_neg hr]
          exact h2
      · rw [if_neg hl]
        exact h1

/-- C4: every fragment bitset emitted by the extraction pass from source
tree `n` of the corpus counts at least once under `exactcounts` run
against the same corpus (with its production index built): the fragment
embeds at its own root in its source tree, the source tree survives the
candidate intersection, and the production-sorted inner loop reaches the
root before its `break`. -/
theorem exactcounts_emitted_ge_one (trees : List NodeArr) (numprods : Nat)
    (n : Nat) (a b : NodeArr) (haeq : trees.getD n dfltArr = a)
    (minterms : Int) (atFuel tf j0 : Nat) (m0 : Mat)
    (hn : n < trees.length) (ha : prodSorted a)
    (hm0 : ∀ j2 i2, m0 j2 i2 = true → i2 < a.len)
    (hprods : ∀ k, k < a.len → ((a.node k).prod).toNat < numprods)
    (d : Nat → Nat)
    (hd : ∀ k, k < a.len →
      (0 ≤ (a.node k).left → ((a.node k).left).toNat < a.len ∧
        d (((a.node k).left).toNat) < d k) ∧
      (0 ≤ (a.node k).right → ((a.node k).right).toNat < a.len ∧
        d (((a.node k).right).toNat) < d k))
    (cfuel : Nat) (hfuel : ∀ k, k < a.len → d k < cfuel)
    (e : (Nat → Bool) × Nat × Nat)
    (he : e ∈ (ebs a b n minterms atFuel tf j0
      { m := m0, results := [], trace := [], halted := false }).results) :
    1 ≤ exactcountOne trees trees (indextrees trees numprods) cfuel
      e.1 e.2.1 e.2.2 a.len := by
  subst haeq
  obtain ⟨hid, hrbit, hrootlt, hbits⟩ :=
    (ebs_wf (trees.getD n dfltArr) b n minterms atFuel tf j0
      { m := m0, results := [], trace := [], halted := false }
      ⟨fun e2 he2 => absurd he2 (List.not_mem_nil e2), hm0⟩).1 e he
  unfold exactcountOne
  rw [hid]
  have hcand := candidatesOf_self trees numprods n hn e.1 e.2.1 hrootlt
    hrbit hprods
  have hselfc := containsbitset_self (trees.getD n dfltArr) e.1 d hd cfuel
    e.2.1 hrootlt (hfuel e.2.1 hrootlt)
  have hcount := countMatchesFrom_self_ge (trees.getD n dfltArr) e.1 e.2.1
    cfuel ha hrootlt hselfc e.2.1 0 (by omega) (by omega)
  calc 1 ≤ countMatchesFrom (trees.getD n dfltArr) (trees.getD n dfltArr)
        e.1 e.2.1 cfuel 0 := hcount
    _ ≤ (candidatesOf (indextrees trees numprods) (trees.getD n dfltArr)
          e.1 (trees.getD n dfltArr).len).sum
        (fun mm => countMatchesFrom (trees.getD n dfltArr)
          (trees.getD mm dfltArr) e.1 e.2.1 cfuel 0) :=
      @Finset.single_le_sum Nat Nat _
        (fun mm => countMatchesFrom (trees.getD n dfltArr)
          (trees.getD mm dfltArr) e.1 e.2.1 cfuel 0)
        (candidatesOf (indextrees trees numprods) (trees.getD n dfltArr)
          e.1 (trees.getD n dfltArr).len)
        (fun i2 hi2 => Nat.zero_le _) n hcand

theorem exactcounts_emitted_ge_one_witness :
    1 ≤ exactcountOne [cex2] [cex2] (indextrees [cex2] 2) 2
      ((ebs cex2 cex2 0 0 5 3 1
        { m := refMat cex2 cex2, results := [], trace := [],
          halted := false }).results.getD 0 (fun _ => false, 0, 0)).1
      ((ebs cex2 cex2 0 0 5 3 1
        { m := refMat cex2 cex2, results := [], trace := [],
          halted := false }).results.getD 0 (fun _ => false, 0, 0)).2.1
      ((ebs cex2 cex2 0 0 5 3 1
        { m := refMat cex2 cex2, results := [], trace := [],
          halted := false }).results.getD 0 (fun _ => false, 0, 0)).2.2
      cex2.len := by
  have hlen : (ebs cex2 cex2 0 0 5 3 1
      { m := refMat cex2 cex2, results := [], trace := [],
        halted := false }).results.length = 1 := by decide
  have hmem : (ebs cex2 cex2 0 0 5 3 1
      { m := refMat cex2 cex2, results := [], trace := [],
        halted := false }).results.getD 0 (fun _ => false, 0, 0) ∈
      (ebs cex2 cex2 0 0 5 3 1
      { m := refMat cex2 cex2, results := [], trace := [],
        halted := false }).results := by
    rcases hl : (ebs cex2 cex2 0 0 5 3 1
        { m := refMat cex2 cex2, results := [], trace := [],
          halted := false }).results with _ | ⟨x, xs⟩
    · rw [hl] at hlen
      simp at hlen
    · rw [List.getD_cons_zero]
      exact List.mem_cons_self x xs
  exact exactcounts_emitted_ge_one [cex2] 2 0 cex2 cex2 rfl 0 5 3 1
    (refMat cex2 cex2) (by decide) (by decide)
    (fun j2 i2 h => (of_decide_eq_true h).2.1) (by decide)
    (fun k => k) (by decide) 2 (by decide) _ hmem

theorem takeDigits_length (s : List Char) :
    (takeDigits s).1.length + (takeDigits s).2.length = s.length := by
  induction s with
  | nil => rfl
  | cons c rest ih =>
    rw [takeDigits]
    split
    · simp only [List.length_cons]
      omega
    · simp

theorem takeDigits_suffix_lt {s ds rest2 : List Char} {d : Char}
    (h : takeDigits s = (d :: ds, rest2)) : rest2.length < s.length := by
  have h2 := takeDigits_length s
  rw [h] at h2
  simp only [List.length_cons] at h2
  omega

theorem getsentLoop_spec (sent : List String) (leaves : List Nat)
    (spv : Nat → Nat) (keys : List Nat) (maxl : Nat) :
    ∀ ks m0,
      ((getsentLoop sent leaves spv keys maxl ks m0).2.map Prod.fst = ks) ∧
      (∀ q ∈ (getsentLoop sent leaves spv keys maxl ks m0).2,
        m0 ≤ q.2 ∧
        (getsentLoop sent leaves spv keys maxl ks m0).1.get? (q.2 - m0) =
          some (if q.1 ∈ leaves then sent.get? q.1 else none)) ∧
      (∀ pos, pos < (getsentLoop sent leaves spv keys maxl ks m0).1.length →
        (∀ q ∈ (getsentLoop sent leaves spv keys maxl ks m0).2,
          q.2 - m0 ≠ pos) →
        (getsentLoop sent leaves spv keys maxl ks m0).1.get? pos =
          some none) ∧
      ((getsentLoop sent leaves spv keys maxl ks m0).1.length =
        ks.length + gapCount spv keys maxl ks) := by
  intro ks
  induction ks with
  | nil =>
    intro m0
    refine ⟨rfl, ?_, ?_, rfl⟩
    · intro q hq
      exact absurd hq (List.not_mem_nil q)
    · intro pos hpos
      exact absurd hpos (by simp [getsentLoop])
  | cons n rest ih =>
    intro m0
    rw [getsentLoop]
    by_cases hgap : spv n ∉ keys ∧ n ≠ maxl
    · rw [if_pos hgap]
      obtain ⟨ih1, ih2, ih3, ih4⟩ := ih (m0 + 2)
      simp only
      refine ⟨?_, ?_, ?_, ?_⟩
      · simp only [List.map_cons, ih1]
      · intro q hq
        rcases List.mem_cons.mp hq with rfl | hq2
        · exact ⟨le_refl _, by simp⟩
        · obtain ⟨hge, hget⟩ := ih2 q hq2
          refine ⟨by omega, ?_⟩
          have he : q.2 - m0 = (q.2 - (m0 + 2)) + 1 + 1 := by omega
          rw [he, List.get?_cons_succ, List.get?_cons_succ]
          exact hget
      · intro pos hpos hnone
        match pos with
        | 0 =>
          exact absurd (hnone (n, m0) (List.mem_cons_self _ _))
            (by simp)
        | 1 => rfl
        | pos + 2 =>
          rw [List.get?_cons_succ, List.get?_cons_succ]
          refine ih3 pos ?_ ?_
          · simp only [List.length_cons] at hpos
            omega
          · intro q hq
            obtain ⟨hge, _⟩ := ih2 q hq
            have := hnone q (List.mem_cons_of_mem _ hq)
            omega
      · simp only [List.length_cons]
        rw [ih4, gapCount, if_pos hgap]
        omega
    · rw [if_neg hgap]
      obtain ⟨ih1, ih2, ih3, ih4⟩ := ih (m0 + 1)
      simp only
      refine ⟨?_, ?_, ?_, ?_⟩
      · simp only [List.map_cons, ih1]
      · intro q hq
        rcases List.mem_cons.mp hq with rfl | hq2
        · exact ⟨le_refl _, by simp⟩
        · obtain ⟨hge, hget⟩ := ih2 q hq2
          refine ⟨by omega, ?_⟩
          have he : q.2 - m0 = (q.2 - (m0 + 1)) + 1 := by omega
          rw [he, List.get?_cons_succ]
          exact hget
      · intro pos hpos hnone
        match pos with
        | 0 =>
          exact absurd (hnone (n, m0) (List.mem_cons_self _ _))
            (by simp)
        | pos + 1 =>
          rw [List.get?_cons_succ]
          refine ih3 pos ?_ ?_
          · simp only [List.length_cons] at hpos
            omega
          · intro q hq
            obtain ⟨hge, _⟩ := ih2 q hq
            have := hnone q (List.mem_cons_of_mem _ hq)
            omega
      · simp only [List.length_cons]
        rw [ih4, gapCount, if_neg hgap]
        omega

theorem filter_range_single (m i : Nat) (h : i < m) :
    (List.range m).filter (fun k => decide (k = i)) = [i] := by
  induction m with
  | zero => omega
  | succ m2 ih =>
    rw [List.range_succ, List.filter_append]
    by_cases hi : i = m2
    · subst hi
      have h0 : (List.range i).filter (fun k => decide (k = i)) = [] := by
        refine List.filter_eq_nil_iff.mpr ?_
        intro x hx
        simp only [decide_eq_true_eq]
        exact Nat.ne_of_lt (List.mem_range.mp hx)
      rw [h0]
      simp
    · have h2 : i < m2 := by omega
      rw [ih h2]
      have h3 : [m2].filter (fun k => decide (k = i)) = [] := by
        simp only [List.filter_cons, List.filter_nil, decide_eq_true_eq]
        rw [if_neg (fun hc => hi hc.symm)]
      rw [h3, List.append_nil]

theorem space_split {l l2 r r2 : List Char} (hl : ' ' ∉ l) (hl2 : ' ' ∉ l2)
    (h : l ++ ' ' :: r = l2 ++ ' ' :: r2) : l = l2 := by
  induction l generalizing l2 with
  | nil =>
    match l2 with
    | [] => rfl
    | c :: cs =>
      exfalso
      simp only [List.nil_append, List.cons_append, List.cons.injEq] at h
      exact hl2 (by rw [← h.1]; exact List.mem_cons_self _ _)
  | cons c cs ih =>
    match l2 with
    | [] =>
      exfalso
      simp only [List.cons_append, List.nil_append, List.cons.injEq] at h
      exact hl (by rw [h.1]; exact List.mem_cons_self _ _)
    | c2 :: cs2 =>
      simp only [List.cons_append, List.cons.injEq] at h
      rw [h.1]
      rw [ih (fun hm => hl (List.mem_cons_of_mem _ hm))
        (fun hm => hl2 (List.mem_cons_of_mem _ hm)) h.2]

theorem dictInsert_fresh {l : List (CovKey × BitsetW)} {k : CovKey}
    {v : BitsetW} (h : ∀ e ∈ l, e.1 ≠ k) :
    dictInsert l k v = l ++ [(k, v)] := by
  have hb : l.any (fun q => q.1 == k) = false := by
    rw [List.any_eq_false]
    intro e he
    simp only [beq_iff_eq]
    exact h e he
  unfold dictInsert
  rw [hb]
  simp

theorem selectsSingleNode_mk (trees : List NodeArr) (p : Nat)
    (key : CovKey) (i n : Nat)
    (hlen : i < (trees.getD n dfltArr).len)
    (hprod : ((trees.getD n dfltArr).node i).prod = (p : Int)) :
    selectsSingleNode trees p (key, ⟨fun k => decide (k = i), i, n⟩)
      = true := by
  show (decide ((List.range (trees.getD n dfltArr).len).filter
      (fun k => decide (k = i)) = [i]) &&
    decide (((trees.getD n dfltArr).node i).prod = (p : Int))) = true
  simp only [Bool.and_eq_true, decide_eq_true_eq]
  exact ⟨filter_range_single _ i hlen, hprod⟩

theorem selectsSingleNode_ne (trees : List NodeArr) (p q : Nat)
    (hpq : q ≠ p) (e : CovKey × BitsetW)
    (he : ((trees.getD e.2.treeid dfltArr).node e.2.root).prod
      = (q : Int)) :
    selectsSingleNode trees p e = false := by
  have h2 : ¬ (((trees.getD e.2.treeid dfltArr).node e.2.root).prod
      = (p : Int)) := by
    rw [he]
    intro hc
    exact hpq (by exact_mod_cast hc)
  unfold selectsSingleNode
  rw [decide_eq_false h2, Bool.and_false]

theorem getD_set_just {acc : List (Finset Nat)} {p q x : Nat}
    {s : Finset Nat} (h : x ∈ (acc.set p s).getD q ∅) :
    x ∈ acc.getD q ∅ ∨ (p = q ∧ x ∈ s) := by
  by_cases hlen : p < acc.length
  · by_cases hq : p = q
    · subst hq
      rw [List.getD_eq_getElem?_getD, List.getElem?_set_self hlen] at h
      simp only [Option.getD_some] at h
      exact Or.inr ⟨rfl, h⟩
    · rw [List.getD_eq_getElem?_getD, List.getElem?_set_ne hq] at h
      exact Or.inl (by rw [List.getD_eq_getElem?_getD]; exact h)
  · rw [List.set_eq_of_length_le (by omega)] at h
    exact Or.inl h

theorem indexNodes_just {n : Nat} {a : NodeArr} {q x : Nat} (l : List Nat) :
    ∀ acc : List (Finset Nat), x ∈ (indexNodes n a l acc).getD q ∅ →
    x ∈ acc.getD q ∅ ∨
      (x = n ∧ ∃ m ∈ l, (((a.node m).prod).toNat = q)) := by
  induction l with
  | nil => intro acc h; exact Or.inl h
  | cons m ms ih =>
    intro acc h
    simp only [indexNodes, List.foldl_cons] at h
    rcases ih _ h with h2 | h2
    · rcases getD_set_just h2 with h3 | ⟨h3, h4⟩
      · exact Or.inl h3
      · rcases Finset.mem_insert.mp h4 with h5 | h5
        · exact Or.inr ⟨h5, m, List.mem_cons_self _ _, h3⟩
        · exact Or.inl (h3 ▸ h5)
    · obtain ⟨hx, m2, hm2, hp⟩ := h2
      exact Or.inr ⟨hx, m2, List.mem_cons_of_mem _ hm2, hp⟩

theorem indexOneTree_just {n : Nat} {a : NodeArr} {acc : List (Finset Nat)}
    {q x : Nat} (h : x ∈ (indexOneTree n a acc).getD q ∅) :
    x ∈ acc.getD q ∅ ∨
      (x = n ∧ ∃ m, m < a.len ∧ (((a.node m).prod).toNat = q)) := by
  rcases indexNodes_just (List.range a.len) acc h with h2 | ⟨hx, m, hm, hp⟩
  · exact Or.inl h2
  · exact Or.inr ⟨hx, m, List.mem_range.mp hm, hp⟩

theorem indextreesAux_just {q x : Nat} (trees : List NodeArr) :
    ∀ (n0 : Nat) (acc : List (Finset Nat)),
      x ∈ (indextreesAux trees n0 acc).getD q ∅ →
      x ∈ acc.getD q ∅ ∨
        (∃ t, t < trees.length ∧ x = n0 + t ∧
          ∃ m, m < (trees.getD t dfltArr).len ∧
            ((((trees.getD t dfltArr).node m).prod).toNat = q)) := by
  induction trees with
  | nil => intro n0 acc h; exact Or.inl h
  | cons a rest ih =>
    intro n0 acc h
    simp only [indextreesAux] at h
    rcases ih _ _ h with h2 | ⟨t, ht, hx, m, hm, hp⟩
    · rcases indexOneTree_just h2 with h3 | ⟨hx, m, hm, hp⟩
      · exact Or.inl h3
      · refine Or.inr ⟨0, by simp, by omega, m, ?_, ?_⟩
        · simpa using hm
        · simpa using hp
    · refine Or.inr ⟨t + 1, by simp only [List.length_cons]; omega,
        by omega, m, ?_, ?_⟩
      · simpa using hm
      · simpa using hp

theorem indextrees_just {trees : List NodeArr} {numprods : Nat} {q x : Nat}
    (h : x ∈ (indextrees trees numprods).getD q ∅) :
    x < trees.length ∧
      ∃ m, m < (trees.getD x dfltArr).len ∧
        ((((trees.getD x dfltArr).node m).prod).toNat = q) := by
  unfold indextrees at h
  rcases indextreesAux_just trees 0 (List.replicate numprods ∅) h with
    h2 | ⟨t, ht, hx, m, hm, hp⟩
  · exfalso
    rw [List.getD_eq_getElem?_getD] at h2
    by_cases hq : q < numprods
    · rw [List.getElem?_replicate, if_pos hq] at h2
      simp at h2
    · rw [List.getElem?_eq_none (by simp; omega)] at h2
      simp at h2
  · have hx0 : x = t := by omega
    subst hx0
    exact ⟨ht, m, hm, hp⟩


theorem digitChar_toNat {d : Nat} (h : d < 10) : (digitChar d).toNat = 48 + d := by
  interval_cases d <;> decide

theorem digitChar_isDigit {d : Nat} (h : d < 10) :
    (digitChar d).isDigit = true := by
  interval_cases d <;> decide

theorem isDigit_facts {c : Char} (h : c.isDigit = true) :
    c ≠ ' ' ∧ c ≠ '(' ∧ c ≠ ')' ∧ c ≠ ':' ∧ isWordChar c = true := by
  refine ⟨?_, ?_, ?_, ?_, ?_⟩
  · intro hc; subst hc; exact absurd h (by decide)
  · intro hc; subst hc; exact absurd h (by decide)
  · intro hc; subst hc; exact absurd h (by decide)
  · intro hc; subst hc; exact absurd h (by decide)
  · simp [isWordChar, Char.isAlphanum, h]

theorem digitsVal_append (ds : List Char) (c : Char) :
    digitsVal (ds ++ [c]) = 10 * digitsVal ds + (c.toNat - 48) := by
  unfold digitsVal
  rw [List.foldl_append]
  simp only [List.foldl_cons, List.foldl_nil]
  omega

theorem natDigitsAux_spec (n : Nat) : ∀ fuel, n + 1 ≤ fuel →
    natDigitsAux fuel n ≠ [] ∧
    (∀ c ∈ natDigitsAux fuel n, c.isDigit = true) ∧
    digitsVal (natDigitsAux fuel n) = n := by
  induction n using Nat.strong_induction_on with
  | _ n ih =>
    intro fuel hf
    match fuel, hf with
    | fuel + 1, hf =>
      by_cases h10 : n < 10
      · simp only [natDigitsAux, if_pos h10]
        refine ⟨by simp, ?_, ?_⟩
        · intro c hc
          have hc2 : c = digitChar n := by simpa using hc
          rw [hc2]
          exact digitChar_isDigit h10
        · have ht := digitChar_toNat h10
          simp only [digitsVal, List.foldl_cons, List.foldl_nil, ht]
          omega
      · have hd : n / 10 < n := Nat.div_lt_self (by omega) (by omega)
        have hih := ih (n / 10) hd fuel (by omega)
        simp only [natDigitsAux, if_neg h10]
        have hm : n % 10 < 10 := Nat.mod_lt _ (by omega)
        refine ⟨by simp, ?_, ?_⟩
        · intro c hc
          rcases List.mem_append.mp hc with h2 | h2
          · exact hih.2.1 c h2
          · have hc2 : c = digitChar (n % 10) := by simpa using h2
            rw [hc2]
            exact digitChar_isDigit hm
        · rw [digitsVal_append, hih.2.2, digitChar_toNat hm]
          omega

theorem natDigits_ne_nil (n : Nat) : natDigits n ≠ [] :=
  (natDigitsAux_spec n (n + 1) (Nat.le_refl _)).1

theorem natDigits_digits (n : Nat) : ∀ c ∈ natDigits n, c.isDigit = true :=
  (natDigitsAux_spec n (n + 1) (Nat.le_refl _)).2.1

theorem digitsVal_natDigits (n : Nat) : digitsVal (natDigits n) = n :=
  (natDigitsAux_spec n (n + 1) (Nat.le_refl _)).2.2

theorem natDigits_inj {a b : Nat} (h : natDigits a = natDigits b) : a = b := by
  have h2 := digitsVal_natDigits a
  rw [h, digitsVal_natDigits] at h2
  omega

theorem takeDigits_digits_run (ds rest : List Char)
    (hds : ∀ c ∈ ds, c.isDigit = true) (hrest : headDigit rest = false) :
    takeDigits (ds ++ rest) = (ds, rest) := by
  induction ds with
  | nil =>
    simp only [List.nil_append]
    match rest, hrest with
    | [], _ => rfl
    | c :: r, hrest =>
      have hc : c.isDigit = false := by simpa [headDigit] using hrest
      simp [takeDigits, hc]
  | cons d ds2 ih =>
    simp only [List.cons_append, takeDigits]
    rw [if_pos (hds d (by simp))]
    simp only [List.append_eq]
    rw [ih (fun c hc => hds c (by simp [hc]))]

theorem scanFrontiers_nospace (x y : List Char) (hx : ∀ c ∈ x, c ≠ ' ') :
    scanFrontiers (x ++ y) = scanFrontiers y := by
  induction x with
  | nil => rfl
  | cons c x2 ih =>
    simp only [List.cons_append, scanFrontiers]
    rw [if_neg (hx c (by simp))]
    simp only [List.nil_append]
    exact ih (fun c2 hc2 => hx c2 (by simp [hc2]))

theorem natDigits_nospace (k : Nat) : ∀ c ∈ natDigits k, c ≠ ' ' :=
  fun c hc => (isDigit_facts (natDigits_digits k c hc)).1


theorem scanFrontiers_space (rest : List Char) :
    scanFrontiers (' ' :: rest) = frontHead rest ++ scanFrontiers rest := by
  simp [scanFrontiers, frontHead]

theorem scanFrontiers_skipc (c : Char) (hc : c ≠ ' ') (y : List Char) :
    scanFrontiers (c :: y) = scanFrontiers y := by
  simpa using scanFrontiers_nospace [c] y
    (by intro c2 hc2; rw [List.mem_singleton.mp hc2]; exact hc)

theorem frontHead_term (k : Nat) (y : List Char) :
    frontHead (natDigits k ++ ')' :: y) = [] := by
  obtain ⟨d, ds, hnd⟩ : ∃ d ds, natDigits k = d :: ds := by
    match h : natDigits k with
    | [] => exact absurd h (natDigits_ne_nil k)
    | d :: ds => exact ⟨d, ds, rfl⟩
  unfold frontHead
  rw [takeDigits_digits_run _ _ (natDigits_digits k) (by simp [headDigit]),
    hnd]
  rfl

theorem frontHead_iv (a b : Nat) (y : List Char)
    (hy1 : headDigit y = false) (hy2 : wordBoundary y = true) :
    frontHead (natDigits a ++ ':' :: (natDigits b ++ y)) = [(a, b)] := by
  obtain ⟨d, ds, hnd⟩ : ∃ d ds, natDigits a = d :: ds := by
    match h : natDigits a with
    | [] => exact absurd h (natDigits_ne_nil a)
    | d :: ds => exact ⟨d, ds, rfl⟩
  obtain ⟨d2, ds2, hnd2⟩ : ∃ d ds, natDigits b = d :: ds := by
    match h : natDigits b with
    | [] => exact absurd h (natDigits_ne_nil b)
    | d :: ds => exact ⟨d, ds, rfl⟩
  unfold frontHead
  rw [takeDigits_digits_run _ _ (natDigits_digits a) (by simp [headDigit]),
    hnd]
  simp only []
  rw [takeDigits_digits_run _ _ (natDigits_digits b) hy1, hnd2]
  simp only []
  rw [hy2, if_pos rfl, ← hnd, ← hnd2, digitsVal_natDigits,
    digitsVal_natDigits]

theorem frontHead_nondigit (rest : List Char) (h : headDigit rest = false) :
    frontHead rest = [] := by
  match rest, h with
  | [], _ => rfl
  | c :: r, h =>
    have hc : c.isDigit = false := by simpa [headDigit] using h
    unfold frontHead
    simp [takeDigits, hc]

theorem scanFrontiers_termRegion (k : Nat) (y : List Char) :
    scanFrontiers (' ' :: (natDigits k ++ ')' :: y)) = scanFrontiers y := by
  rw [scanFrontiers_space, frontHead_term,
    scanFrontiers_nospace (natDigits k) _ (natDigits_nospace k),
    scanFrontiers_skipc ')' (by decide) y]
  simp

theorem scanFrontiers_ivStep (a b : Nat) (y : List Char)
    (hy1 : headDigit y = false) (hy2 : wordBoundary y = true) :
    scanFrontiers (renderIv (a, b) ++ y) = (a, b) :: scanFrontiers y := by
  show scanFrontiers (' ' :: ((natDigits a ++ ':' :: natDigits b) ++ y)) = _
  rw [List.append_assoc, List.cons_append, scanFrontiers_space,
    frontHead_iv a b y hy1 hy2]
  rw [show natDigits a ++ ':' :: (natDigits b ++ y) =
    (natDigits a ++ ':' :: natDigits b) ++ y from by simp]
  rw [scanFrontiers_nospace (natDigits a ++ ':' :: natDigits b) y
    (by
      intro c hc
      rcases List.mem_append.mp hc with h2 | h2
      · exact natDigits_nospace a c h2
      · rcases List.mem_cons.mp h2 with h3 | h3
        · rw [h3]; decide
        · exact natDigits_nospace b c h3)]
  simp

theorem scanFrontiers_ivs (ivs : List (Nat × Nat)) (y : List Char)
    (hy1 : headDigit y = false) (hy2 : wordBoundary y = true) :
    scanFrontiers (renderIvs ivs ++ y) = ivs ++ scanFrontiers y := by
  induction ivs with
  | nil => simp [renderIvs]
  | cons iv rest ih =>
    show scanFrontiers ((renderIv iv ++ renderIvs rest) ++ y) = _
    rw [List.append_assoc]
    match iv with
    | (a, b) =>
      rw [scanFrontiers_ivStep a b (renderIvs rest ++ y)
        (by
          match rest with
          | [] => simpa [renderIvs] using hy1
          | iv2 :: r2 => rfl)
        (by
          match rest with
          | [] => simpa [renderIvs] using hy2
          | iv2 :: r2 => rfl)]
      rw [ih]
      simp

theorem render_head (T : FTree) : ∃ r, render T = '(' :: r := by
  cases T <;> exact ⟨_, rfl⟩

theorem cleanLabel_nospace {l : List Char} (h : cleanLabel l = true) :
    ∀ c ∈ l, c ≠ ' ' := by
  intro c hc hc2
  simp only [cleanLabel, Bool.and_eq_true] at h
  have h3 := (List.all_eq_true.mp h.2) c hc
  rw [hc2] at h3
  simp at h3

theorem scanFrontiers_render (T : FTree) : wfT T = true →
    ∀ y, headDigit y = false → wordBoundary y = true →
    scanFrontiers (render T ++ y) = frontsOf T ++ scanFrontiers y := by
  induction T with
  | term tag k =>
    intro hT y hy1 hy2
    show scanFrontiers
      ('(' :: ((tag ++ ' ' :: (natDigits k ++ [')'])) ++ y)) = _
    rw [scanFrontiers_skipc '(' (by decide)]
    rw [show (tag ++ ' ' :: (natDigits k ++ [')'])) ++ y =
      tag ++ (' ' :: (natDigits k ++ ')' :: y)) from by simp]
    rw [scanFrontiers_nospace tag _
      (cleanLabel_nospace (by simpa [wfT] using hT))]
    rw [scanFrontiers_termRegion]
    simp [frontsOf]
  | front lab ivs =>
    intro hT y hy1 hy2
    show scanFrontiers
      ('(' :: ((lab ++ renderIvs ivs ++ [')']) ++ y)) = _
    rw [scanFrontiers_skipc '(' (by decide)]
    rw [show (lab ++ renderIvs ivs ++ [')']) ++ y =
      lab ++ (renderIvs ivs ++ ')' :: y) from by simp]
    have hcl : cleanLabel lab = true := by
      simp only [wfT, Bool.and_eq_true] at hT
      exact hT.1
    rw [scanFrontiers_nospace lab _ (cleanLabel_nospace hcl)]
    rw [scanFrontiers_ivs ivs (')' :: y) (by rfl) (by rfl)]
    rw [scanFrontiers_skipc ')' (by decide)]
    simp [frontsOf]
  | node1 lab c ih =>
    intro hT y hy1 hy2
    have hw : wfT c = true := by
      simp only [wfT, Bool.and_eq_true] at hT
      exact hT.2
    have hcl : cleanLabel lab = true := by
      simp only [wfT, Bool.and_eq_true] at hT
      exact hT.1
    show scanFrontiers
      ('(' :: ((lab ++ ' ' :: (render c ++ [')'])) ++ y)) = _
    rw [scanFrontiers_skipc '(' (by decide)]
    rw [show (lab ++ ' ' :: (render c ++ [')'])) ++ y =
      lab ++ (' ' :: (render c ++ ')' :: y)) from by simp]
    rw [scanFrontiers_nospace lab _ (cleanLabel_nospace hcl)]
    rw [scanFrontiers_space]
    rw [frontHead_nondigit _
      (by obtain ⟨r, hr⟩ := render_head c; rw [hr]; rfl)]
    rw [ih hw (')' :: y) (by rfl) (by rfl)]
    rw [scanFrontiers_skipc ')' (by decide)]
    simp [frontsOf]
  | node2 lab c1 c2 ih1 ih2 =>
    intro hT y hy1 hy2
    have hw1 : wfT c1 = true := by
      simp only [wfT, Bool.and_eq_true] at hT
      exact hT.1.2
    have hw2 : wfT c2 = true := by
      simp only [wfT, Bool.and_eq_true] at hT
      exact hT.2
    have hcl : cleanLabel lab = true := by
      simp only [wfT, Bool.and_eq_true] at hT
      exact hT.1.1
    show scanFrontiers ('(' :: ((lab ++ ' ' ::
      (render c1 ++ ' ' :: (render c2 ++ [')']))) ++ y)) = _
    rw [scanFrontiers_skipc '(' (by decide)]
    rw [show (lab ++ ' ' :: (render c1 ++ ' ' :: (render c2 ++ [')']))) ++ y
      = lab ++ (' ' :: (render c1 ++ (' ' :: (render c2 ++ ')' :: y))))
      from by simp]
    rw [scanFrontiers_nospace lab _ (cleanLabel_nospace hcl)]
    rw [scanFrontiers_space]
    rw [frontHead_nondigit _
      (by obtain ⟨r, hr⟩ := render_head c1; rw [hr]; rfl)]
    rw [ih1 hw1 (' ' :: (render c2 ++ ')' :: y)) (by rfl) (by rfl)]
    rw [scanFrontiers_space]
    rw [frontHead_nondigit _
      (by obtain ⟨r, hr⟩ := render_head c2; rw [hr]; rfl)]
    rw [ih2 hw2 (')' :: y) (by rfl) (by rfl)]
    rw [scanFrontiers_skipc ')' (by decide)]
    simp [frontsOf]

theorem termHead_nondigit (rest : List Char) (h : headDigit rest = false) :
    termHead rest = [] := by
  match rest, h with
  | [], _ => rfl
  | c :: r, h =>
    have hc : c.isDigit = false := by simpa [headDigit] using h
    unfold termHead
    simp [takeDigits, hc]

theorem termHead_term (k : Nat) (y : List Char) :
    termHead (natDigits k ++ ')' :: y) = [k] := by
  obtain ⟨d, ds, hnd⟩ : ∃ d ds, natDigits k = d :: ds := by
    match h : natDigits k with
    | [] => exact absurd h (natDigits_ne_nil k)
    | d :: ds => exact ⟨d, ds, rfl⟩
  unfold termHead
  rw [takeDigits_digits_run _ _ (natDigits_digits k) (by simp [headDigit]),
    hnd]
  simp only []
  rw [← hnd, digitsVal_natDigits]

theorem termHead_colon (a : Nat) (z : List Char) :
    termHead (natDigits a ++ ':' :: z) = [] := by
  obtain ⟨d, ds, hnd⟩ : ∃ d ds, natDigits a = d :: ds := by
    match h : natDigits a with
    | [] => exact absurd h (natDigits_ne_nil a)
    | d :: ds => exact ⟨d, ds, rfl⟩
  unfold termHead
  rw [takeDigits_digits_run _ _ (natDigits_digits a) (by simp [headDigit]),
    hnd]
  rfl

theorem segTermVals_space (rest : List Char) (q : Nat) (hq : 1 ≤ q) :
    segTermVals (' ' :: rest) q = termHead rest ++ segTermVals rest (q + 1)
    := by
  simp only [segTermVals, termHead]
  rw [if_pos ⟨trivial, hq⟩]

theorem segTermVals_nonspace {c : Char} (hc : c ≠ ' ') (rest : List Char)
    (q : Nat) :
    segTermVals (c :: rest) q = segTermVals rest (q + 1) := by
  simp only [segTermVals]
  rw [if_neg (fun h2 => hc h2.1)]
  simp

theorem segTermVals_skip (x : List Char) (hx : ∀ c ∈ x, c ≠ ' ') :
    ∀ (y : List Char) (q : Nat),
    segTermVals (x ++ y) q = segTermVals y (q + x.length) := by
  induction x with
  | nil => intro y q; simp
  | cons c x2 ih =>
    intro y q
    simp only [List.cons_append]
    rw [segTermVals_nonspace (hx c (by simp)) _ q]
    rw [ih (fun c2 hc2 => hx c2 (by simp [hc2])) y (q + 1)]
    simp only [List.length_cons]
    rw [show q + 1 + x2.length = q + (x2.length + 1) from by omega]

theorem segTermVals_clean (l : List Char)
    (hl : ∀ c ∈ l, c = ')' ∨ c = ' ') : ∀ q, segTermVals l q = [] := by
  induction l with
  | nil => intro q; rfl
  | cons c r ih =>
    intro q
    have hr : ∀ c2 ∈ r, c2 = ')' ∨ c2 = ' ' :=
      fun c2 hc2 => hl c2 (by simp [hc2])
    rcases hl c (by simp) with hc | hc
    · rw [hc, segTermVals_nonspace (by decide) r q]
      exact ih hr (q + 1)
    · rw [hc]
      by_cases hq : 1 ≤ q
      · rw [segTermVals_space r q hq]
        rw [termHead_nondigit r
          (by
            match r, hr with
            | [], _ => rfl
            | c2 :: r2, hr =>
              rcases hr c2 (by simp) with h3 | h3 <;>
                simp [headDigit, h3])]
        simp only [List.nil_append]
        exact ih hr (q + 1)
      · simp only [segTermVals]
        rw [if_neg (fun h2 => hq h2.2)]
        simp only [List.nil_append]
        exact ih hr (q + 1)

theorem segTermVals_termSeg (tag : List Char) (k : Nat) (z : List Char)
    (htag1 : tag ≠ []) (htag2 : ∀ c ∈ tag, c ≠ ' ')
    (hz : ∀ c ∈ z, c = ')' ∨ c = ' ') :
    segTermVals (tag ++ ' ' :: (natDigits k ++ ')' :: z)) 0 = [k] := by
  rw [segTermVals_skip tag htag2 _ 0]
  rw [segTermVals_space _ _ (by
    match tag, htag1 with
    | c :: t2, _ => simp)]
  rw [show natDigits k ++ ')' :: z = natDigits k ++ ')' :: z from rfl]
  rw [termHead_term k z]
  rw [segTermVals_skip (natDigits k) (natDigits_nospace k) _ _]
  rw [segTermVals_nonspace (by decide) z _]
  rw [segTermVals_clean z hz]
  simp

theorem segTermVals_ivsSeg : ∀ (ivs : List (Nat × Nat)) (z : List Char)
    (q : Nat), 1 ≤ q → (∀ c ∈ z, c = ')' ∨ c = ' ') →
    segTermVals (renderIvs ivs ++ ')' :: z) q = [] := by
  intro ivs
  induction ivs with
  | nil =>
    intro z q hq hz
    show segTermVals (')' :: z) q = []
    rw [segTermVals_nonspace (by decide) z q]
    exact segTermVals_clean z hz _
  | cons iv rest ih =>
    intro z q hq hz
    match iv with
    | (a, b) =>
      show segTermVals ((renderIv (a, b) ++ renderIvs rest) ++ ')' :: z) q
        = []
      rw [List.append_assoc]
      show segTermVals (' ' :: ((natDigits a ++ ':' :: natDigits b) ++
        (renderIvs rest ++ ')' :: z))) q = []
      rw [segTermVals_space _ _ hq]
      rw [show (natDigits a ++ ':' :: natDigits b) ++
        (renderIvs rest ++ ')' :: z) =
        natDigits a ++ ':' :: (natDigits b ++ (renderIvs rest ++ ')' :: z))
        from by simp]
      rw [termHead_colon]
      rw [segTermVals_skip (natDigits a) (natDigits_nospace a) _ _]
      rw [segTermVals_nonspace (by decide)]
      rw [segTermVals_skip (natDigits b) (natDigits_nospace b) _ _]
      simp only [List.nil_append]
      exact ih z _ (by omega) hz

theorem takeWhile_append_all (p : Char → Bool) (x y : List Char)
    (hx : ∀ c ∈ x, p c = true) :
    (x ++ y).takeWhile p = x ++ y.takeWhile p := by
  induction x with
  | nil => simp
  | cons c x2 ih =>
    simp only [List.cons_append, List.takeWhile_cons]
    rw [hx c (by simp)]
    simp only [if_true]
    rw [ih (fun c2 hc2 => hx c2 (by simp [hc2]))]

theorem takeWhile_stop (p : Char → Bool) {c : Char} (hc : p c = false)
    (y : List Char) : (c :: y).takeWhile p = [] := by
  simp [List.takeWhile_cons, hc]

theorem scanTermIndices_skipc {c : Char} (hc : c ≠ '(') (y : List Char) :
    scanTermIndices (c :: y) = scanTermIndices y := by
  simp only [scanTermIndices]
  rw [if_neg hc]
  simp

theorem scanTermIndices_skip (x : List Char) (hx : ∀ c ∈ x, c ≠ '(') :
    ∀ y, scanTermIndices (x ++ y) = scanTermIndices y := by
  induction x with
  | nil => intro y; rfl
  | cons c x2 ih =>
    intro y
    simp only [List.cons_append]
    rw [scanTermIndices_skipc (hx c (by simp))]
    exact ih (fun c2 hc2 => hx c2 (by simp [hc2])) y

theorem scanTermIndices_open (rest : List Char) :
    scanTermIndices ('(' :: rest) =
      (match (segTermVals (rest.takeWhile (fun x => x ≠ '(')) 0).getLast?
        with
      | some v => [v]
      | none => []) ++ scanTermIndices rest := by
  simp [scanTermIndices]

theorem tailClean_chars {y : List Char} (hy : tailClean y = true) :
    ∀ c ∈ y.takeWhile (fun x => x ≠ '('), c = ')' ∨ c = ' ' := by
  intro c hc
  simp only [tailClean] at hy
  have h2 := (List.all_eq_true.mp hy) c hc
  rcases Bool.or_eq_true_iff.mp h2 with h3 | h3
  · exact Or.inl (by simpa using h3)
  · exact Or.inr (by simpa using h3)

theorem cleanLabel_chars {l : List Char} (h : cleanLabel l = true) :
    l ≠ [] ∧ (∀ c ∈ l, c ≠ ' ' ∧ c ≠ '(' ∧ c ≠ ')') := by
  simp only [cleanLabel, Bool.and_eq_true] at h
  obtain ⟨h1, h2⟩ := h
  constructor
  · intro hnil
    rw [hnil] at h1
    simp at h1
  · intro c hc
    have h3 := (List.all_eq_true.mp h2) c hc
    simp only [Bool.and_eq_true, decide_eq_true_eq] at h3
    exact ⟨h3.1.1, h3.1.2, h3.2⟩

theorem renderIvs_chars (ivs : List (Nat × Nat)) :
    ∀ c ∈ renderIvs ivs, c = ' ' ∨ c = ':' ∨ c.isDigit = true := by
  induction ivs with
  | nil => intro c hc; exact absurd hc (by simp [renderIvs])
  | cons iv rest ih =>
    intro c hc
    have hc2 : c ∈ renderIv iv ++ renderIvs rest := hc
    rcases List.mem_append.mp hc2 with h2 | h2
    · match iv with
      | (a, b) =>
        rcases List.mem_cons.mp h2 with h3 | h3
        · exact Or.inl h3
        · rcases List.mem_append.mp h3 with h4 | h4
          · exact Or.inr (Or.inr (natDigits_digits a c h4))
          · rcases List.mem_cons.mp h4 with h5 | h5
            · exact Or.inr (Or.inl h5)
            · exact Or.inr (Or.inr (natDigits_digits b c h5))
    · exact ih c h2

theorem renderIvs_no_paren (ivs : List (Nat × Nat)) :
    ∀ c ∈ renderIvs ivs, c ≠ '(' ∧ c ≠ ')' := by
  intro c hc
  rcases renderIvs_chars ivs c hc with h | h | h
  · rw [h]; exact ⟨by decide, by decide⟩
  · rw [h]; exact ⟨by decide, by decide⟩
  · exact ⟨(isDigit_facts h).2.1, (isDigit_facts h).2.2.1⟩

theorem tailClean_close {y : List Char} (hy : tailClean y = true) :
    tailClean (')' :: y) = true := by
  simp only [tailClean, List.takeWhile_cons] at hy ⊢
  rw [if_pos (by decide)]
  simp only [List.all_cons, Bool.and_eq_true]
  exact ⟨by decide, hy⟩

theorem tailClean_space_open (r : List Char) :
    tailClean (' ' :: '(' :: r) = true := by
  simp only [tailClean, List.takeWhile_cons]
  rw [if_pos (by decide)]
  rw [if_neg (by simp)]
  decide

theorem termHead_nil : termHead [] = [] := rfl

theorem scanTermIndices_render (T : FTree) : wfT T = true →
    ∀ y, tailClean y = true →
    scanTermIndices (render T ++ y) = termsOf T ++ scanTermIndices y := by
  induction T with
  | term tag k =>
    intro hT y hy
    have hcl := cleanLabel_chars (show cleanLabel tag = true by
      simpa [wfT] using hT)
    have hA : ∀ c ∈ tag ++ ' ' :: (natDigits k ++ [')']), c ≠ '(' := by
      intro c hc
      rcases List.mem_append.mp hc with h2 | h2
      · exact (hcl.2 c h2).2.1
      · rcases List.mem_cons.mp h2 with h3 | h3
        · rw [h3]; decide
        · rcases List.mem_append.mp h3 with h4 | h4
          · exact (isDigit_facts (natDigits_digits k c h4)).2.1
          · rw [List.mem_singleton.mp h4]; decide
    show scanTermIndices
      ('(' :: ((tag ++ ' ' :: (natDigits k ++ [')'])) ++ y)) = _
    rw [scanTermIndices_open]
    rw [takeWhile_append_all _ _ y
      (fun c hc => by
        simp only [decide_eq_true_eq]
        exact hA c hc)]
    rw [show (tag ++ ' ' :: (natDigits k ++ [')'])) ++
        y.takeWhile (fun x => x ≠ '(') =
      tag ++ ' ' :: (natDigits k ++ ')' ::
        y.takeWhile (fun x => x ≠ '(')) from by simp]
    rw [segTermVals_termSeg tag k _ hcl.1
      (fun c hc => (hcl.2 c hc).1) (tailClean_chars hy)]
    rw [scanTermIndices_skip _ hA y]
    simp [termsOf]
  | front lab ivs =>
    intro hT y hy
    have hcl := cleanLabel_chars (show cleanLabel lab = true by
      simp only [wfT, Bool.and_eq_true] at hT
      exact hT.1)
    have hA : ∀ c ∈ lab ++ renderIvs ivs ++ [')'], c ≠ '(' := by
      intro c hc
      rcases List.mem_append.mp hc with h2 | h2
      · rcases List.mem_append.mp h2 with h3 | h3
        · exact (hcl.2 c h3).2.1
        · exact (renderIvs_no_paren ivs c h3).1
      · rw [List.mem_singleton.mp h2]
        decide
    show scanTermIndices
      ('(' :: ((lab ++ renderIvs ivs ++ [')']) ++ y)) = _
    rw [scanTermIndices_open]
    rw [takeWhile_append_all _ _ y
      (fun c hc => by
        simp only [decide_eq_true_eq]
        exact hA c hc)]
    rw [show (lab ++ renderIvs ivs ++ [')']) ++
        y.takeWhile (fun x => x ≠ '(') =
      lab ++ (renderIvs ivs ++ ')' ::
        y.takeWhile (fun x => x ≠ '(')) from by simp]
    rw [segTermVals_skip lab (fun c hc => (hcl.2 c hc).1) _ 0]
    rw [segTermVals_ivsSeg ivs _ _
      (by
        match lab, hcl.1 with
        | c :: l2, _ => simp)
      (tailClean_chars hy)]
    rw [scanTermIndices_skip _ hA y]
    simp [termsOf]
  | node1 lab c ih =>
    intro hT y hy
    have hw : wfT c = true := by
      simp only [wfT, Bool.and_eq_true] at hT
      exact hT.2
    have hcl := cleanLabel_chars (show cleanLabel lab = true by
      simp only [wfT, Bool.and_eq_true] at hT
      exact hT.1)
    obtain ⟨r, hr⟩ := render_head c
    have hA : ∀ c2 ∈ lab ++ [' '], c2 ≠ '(' := by
      intro c2 hc2
      rcases List.mem_append.mp hc2 with h2 | h2
      · exact (hcl.2 c2 h2).2.1
      · rw [List.mem_singleton.mp h2]; decide
    show scanTermIndices
      ('(' :: ((lab ++ ' ' :: (render c ++ [')'])) ++ y)) = _
    rw [show (lab ++ ' ' :: (render c ++ [')'])) ++ y =
      (lab ++ [' ']) ++ (render c ++ ')' :: y) from by simp]
    rw [scanTermIndices_open]
    rw [takeWhile_append_all _ _ _
      (fun c2 hc2 => by
        simp only [decide_eq_true_eq]
        exact hA c2 hc2)]
    have htw : List.takeWhile (fun x => decide (x ≠ '('))
        (render c ++ ')' :: y) = [] := by
      rw [hr, List.cons_append]
      exact takeWhile_stop _ (by simp) _
    rw [htw]
    rw [List.append_nil]
    rw [segTermVals_skip lab (fun c2 hc2 => (hcl.2 c2 hc2).1) [' '] 0]
    rw [segTermVals_space [] _ (by
      match lab, hcl.1 with
      | c2 :: l2, _ => simp)]
    rw [termHead_nil]
    rw [scanTermIndices_skip (lab ++ [' ']) hA]
    rw [ih hw (')' :: y) (tailClean_close hy)]
    rw [scanTermIndices_skipc (by decide) y]
    simp [termsOf, segTermVals]
  | node2 lab c1 c2 ih1 ih2 =>
    intro hT y hy
    have hw1 : wfT c1 = true := by
      simp only [wfT, Bool.and_eq_true] at hT
      exact hT.1.2
    have hw2 : wfT c2 = true := by
      simp only [wfT, Bool.and_eq_true] at hT
      exact hT.2
    have hcl := cleanLabel_chars (show cleanLabel lab = true by
      simp only [wfT, Bool.and_eq_true] at hT
      exact hT.1.1)
    obtain ⟨r1, hr1⟩ := render_head c1
    obtain ⟨r2, hr2⟩ := render_head c2
    have hA : ∀ c2 ∈ lab ++ [' '], c2 ≠ '(' := by
      intro c2 hc2
      rcases List.mem_append.mp hc2 with h2 | h2
      · exact (hcl.2 c2 h2).2.1
      · rw [List.mem_singleton.mp h2]; decide
    show scanTermIndices ('(' :: ((lab ++ ' ' ::
      (render c1 ++ ' ' :: (render c2 ++ [')']))) ++ y)) = _
    rw [show (lab ++ ' ' :: (render c1 ++ ' ' :: (render c2 ++ [')']))) ++ y
      = (lab ++ [' ']) ++
        (render c1 ++ (' ' :: (render c2 ++ ')' :: y))) from by simp]
    rw [scanTermIndices_open]
    rw [takeWhile_append_all _ _ _
      (fun c2 hc2 => by
        simp only [decide_eq_true_eq]
        exact hA c2 hc2)]
    have htw : List.takeWhile (fun x => decide (x ≠ '('))
        (render c1 ++ (' ' :: (render c2 ++ ')' :: y))) = [] := by
      rw [hr1, List.cons_append]
      exact takeWhile_stop _ (by simp) _
    rw [htw]
    rw [List.append_nil]
    rw [segTermVals_skip lab (fun c2 hc2 => (hcl.2 c2 hc2).1) [' '] 0]
    rw [segTermVals_space [] _ (by
      match lab, hcl.1 with
      | c2 :: l2, _ => simp)]
    rw [termHead_nil]
    rw [scanTermIndices_skip (lab ++ [' ']) hA]
    rw [ih1 hw1 (' ' :: (render c2 ++ ')' :: y))
      (by rw [hr2]; exact tailClean_space_open _)]
    rw [scanTermIndices_skipc (by decide) (render c2 ++ ')' :: y)]
    rw [ih2 hw2 (')' :: y) (tailClean_close hy)]
    rw [scanTermIndices_skipc (by decide) y]
    simp [termsOf, segTermVals]

theorem tryLeafMatch_nonspace {c : Char} (hc : c ≠ ' ') (rest : List Char) :
    tryLeafMatch (c :: rest) = none := by
  unfold tryLeafMatch
  split
  · next r heq =>
    exfalso
    injection heq with h1 h2
    exact hc h1
  · rfl

theorem substFuel_nospace (lm : Nat → List Char) (x : List Char)
    (hx : ∀ c ∈ x, c ≠ ' ') : ∀ (y : List Char) (f : Nat),
    substFragFuel lm ((x ++ y).length + f) (x ++ y) =
      x ++ substFragFuel lm (y.length + f) y := by
  induction x with
  | nil => intro y f; simp
  | cons c x2 ih =>
    intro y f
    simp only [List.cons_append, List.length_cons]
    rw [show (x2 ++ y).length + 1 + f = ((x2 ++ y).length + f) + 1 from by
      omega]
    simp only [substFragFuel]
    rw [tryLeafMatch_nonspace (hx c (by simp))]
    rw [ih (fun c2 hc2 => hx c2 (by simp [hc2])) y f]

theorem tryLeafMatch_term (k : Nat) (y : List Char) :
    tryLeafMatch (' ' :: (natDigits k ++ ')' :: y)) = some (k, ')' :: y)
    := by
  obtain ⟨d, ds, hnd⟩ : ∃ d ds, natDigits k = d :: ds := by
    match h : natDigits k with
    | [] => exact absurd h (natDigits_ne_nil k)
    | d :: ds => exact ⟨d, ds, rfl⟩
  show tryLeafMatch (' ' :: (natDigits k ++ ')' :: y)) = _
  simp only [tryLeafMatch]
  rw [takeDigits_digits_run _ _ (natDigits_digits k) (by simp [headDigit]),
    hnd]
  simp only []
  rw [show wordBoundary (')' :: y) = true from rfl]
  rw [if_pos rfl, ← hnd, digitsVal_natDigits]
  rfl

theorem tryLeafMatch_iv (a b : Nat) (y : List Char)
    (hy1 : headDigit y = false) (hy2 : wordBoundary y = true) :
    tryLeafMatch (' ' :: (natDigits a ++ ':' :: (natDigits b ++ y))) =
      some (a, y) := by
  obtain ⟨d, ds, hnd⟩ : ∃ d ds, natDigits a = d :: ds := by
    match h : natDigits a with
    | [] => exact absurd h (natDigits_ne_nil a)
    | d :: ds => exact ⟨d, ds, rfl⟩
  obtain ⟨d2, ds2, hnd2⟩ : ∃ d ds, natDigits b = d :: ds := by
    match h : natDigits b with
    | [] => exact absurd h (natDigits_ne_nil b)
    | d :: ds => exact ⟨d, ds, rfl⟩
  simp only [tryLeafMatch]
  rw [takeDigits_digits_run _ _ (natDigits_digits a) (by simp [headDigit]),
    hnd]
  simp only []
  rw [takeDigits_digits_run _ _ (natDigits_digits b) hy1, hnd2]
  simp only []
  rw [hy2, if_pos rfl, ← hnd, digitsVal_natDigits]

theorem substFuel_ivs (lm : Nat → List Char) :
    ∀ (ivs : List (Nat × Nat)) (z : List Char) (f : Nat),
    headDigit z = false → wordBoundary z = true →
    ∃ f2, substFragFuel lm ((renderIvs ivs ++ z).length + f)
        (renderIvs ivs ++ z) =
      (ivs.foldr (fun iv acc => lm iv.1 ++ acc) []) ++
        substFragFuel lm (z.length + f2) z := by
  intro ivs
  induction ivs with
  | nil =>
    intro z f hz1 hz2
    exact ⟨f, by simp [renderIvs]⟩
  | cons iv rest ih =>
    intro z f hz1 hz2
    match iv with
    | (a, b) =>
      have hcond1 : headDigit (renderIvs rest ++ z) = false := by
        match rest with
        | [] => simpa [renderIvs] using hz1
        | iv2 :: r2 => rfl
      have hcond2 : wordBoundary (renderIvs rest ++ z) = true := by
        match rest with
        | [] => simpa [renderIvs] using hz2
        | iv2 :: r2 => rfl
      show ∃ f2, substFragFuel lm
        (((renderIv (a, b) ++ renderIvs rest) ++ z).length + f)
        ((renderIv (a, b) ++ renderIvs rest) ++ z) = _
      rw [List.append_assoc]
      rw [show renderIv (a, b) ++ (renderIvs rest ++ z) =
        ' ' :: (natDigits a ++ ':' ::
          (natDigits b ++ (renderIvs rest ++ z))) from by
        show ' ' :: ((natDigits a ++ ':' :: natDigits b) ++
          (renderIvs rest ++ z)) = _
        simp]
      rw [show (' ' :: (natDigits a ++ ':' ::
          (natDigits b ++ (renderIvs rest ++ z)))).length + f =
        ((renderIvs rest ++ z).length +
          (f + 1 + (natDigits a).length + (natDigits b).length)) + 1 from by
        simp only [List.length_cons, List.length_append]
        omega]
      simp only [substFragFuel]
      rw [tryLeafMatch_iv a b (renderIvs rest ++ z) hcond1 hcond2]
      simp only []
      obtain ⟨f2, hf2⟩ := ih z
        (f + 1 + (natDigits a).length + (natDigits b).length) hz1 hz2
      refine ⟨f2, ?_⟩
      rw [hf2]
      simp

theorem tryLeafMatch_space_nondigit (z : List Char)
    (hz : headDigit z = false) : tryLeafMatch (' ' :: z) = none := by
  simp only [tryLeafMatch]
  match z, hz with
  | [], _ => rfl
  | c :: r, hz =>
    have hc : c.isDigit = false := by simpa [headDigit] using hz
    simp [takeDigits, hc]

theorem substFuel_spaceskip (lm : Nat → List Char) (z : List Char) (f : Nat)
    (hz : headDigit z = false) :
    substFragFuel lm ((' ' :: z).length + f) (' ' :: z) =
      ' ' :: substFragFuel lm (z.length + f) z := by
  rw [show (' ' :: z).length + f = (z.length + f) + 1 from by
    simp only [List.length_cons]
    omega]
  simp only [substFragFuel]
  rw [tryLeafMatch_space_nondigit z hz]

theorem substFuel_render (lm : Nat → List Char) (T : FTree) :
    wfT T = true → ∀ (y : List Char) (f : Nat),
    headDigit y = false → wordBoundary y = true →
    ∃ f2, substFragFuel lm ((render T ++ y).length + f) (render T ++ y) =
      substRender lm T ++ substFragFuel lm (y.length + f2) y := by
  induction T with
  | term tag k =>
    intro hT y f hy1 hy2
    have hcl := cleanLabel_chars (show cleanLabel tag = true by
      simpa [wfT] using hT)
    show ∃ f2, substFragFuel lm
      (('(' :: (tag ++ ' ' :: (natDigits k ++ [')'])) ++ y).length + f)
      ('(' :: (tag ++ ' ' :: (natDigits k ++ [')'])) ++ y) = _
    rw [show ('(' :: (tag ++ ' ' :: (natDigits k ++ [')'])) ++ y) =
      ('(' :: tag) ++ (' ' :: (natDigits k ++ ')' :: y)) from by simp]
    rw [substFuel_nospace lm ('(' :: tag)
      (by
        intro c hc
        rcases List.mem_cons.mp hc with h2 | h2
        · rw [h2]; decide
        · exact (hcl.2 c h2).1)]
    rw [show (' ' :: (natDigits k ++ ')' :: y)).length + f =
      (((')' :: y).length + (f + (natDigits k).length)) + 1) from by
      simp only [List.length_cons, List.length_append]
      omega]
    simp only [substFragFuel]
    rw [tryLeafMatch_term k y]
    simp only []
    rw [show (')' :: y) = [')'] ++ y from rfl]
    rw [substFuel_nospace lm [')']
      (by intro c hc; rw [List.mem_singleton.mp hc]; decide)]
    refine ⟨f + (natDigits k).length, ?_⟩
    show ('(' :: tag) ++ (lm k ++ (')' :: substFragFuel lm _ y)) = _
    simp [substRender]
  | front lab ivs =>
    intro hT y f hy1 hy2
    have hcl := cleanLabel_chars (show cleanLabel lab = true by
      simp only [wfT, Bool.and_eq_true] at hT
      exact hT.1)
    show ∃ f2, substFragFuel lm
      (('(' :: (lab ++ renderIvs ivs ++ [')']) ++ y).length + f)
      ('(' :: (lab ++ renderIvs ivs ++ [')']) ++ y) = _
    rw [show ('(' :: (lab ++ renderIvs ivs ++ [')']) ++ y) =
      ('(' :: lab) ++ (renderIvs ivs ++ ')' :: y) from by simp]
    rw [substFuel_nospace lm ('(' :: lab)
      (by
        intro c hc
        rcases List.mem_cons.mp hc with h2 | h2
        · rw [h2]; decide
        · exact (hcl.2 c h2).1)]
    obtain ⟨f2, hf2⟩ := substFuel_ivs lm ivs (')' :: y) f (by rfl) (by rfl)
    rw [hf2]
    rw [show (')' :: y) = [')'] ++ y from rfl]
    rw [substFuel_nospace lm [')']
      (by intro c hc; rw [List.mem_singleton.mp hc]; decide)]
    refine ⟨f2, ?_⟩
    show ('(' :: lab) ++ (_ ++ (')' :: substFragFuel lm _ y)) = _
    simp [substRender]
  | node1 lab c ih =>
    intro hT y f hy1 hy2
    have hw : wfT c = true := by
      simp only [wfT, Bool.and_eq_true] at hT
      exact hT.2
    have hcl := cleanLabel_chars (show cleanLabel lab = true by
      simp only [wfT, Bool.and_eq_true] at hT
      exact hT.1)
    obtain ⟨r, hr⟩ := render_head c
    show ∃ f2, substFragFuel lm
      (('(' :: (lab ++ ' ' :: (render c ++ [')'])) ++ y).length + f)
      ('(' :: (lab ++ ' ' :: (render c ++ [')'])) ++ y) = _
    rw [show ('(' :: (lab ++ ' ' :: (render c ++ [')'])) ++ y) =
      ('(' :: lab) ++ (' ' :: (render c ++ ')' :: y)) from by simp]
    rw [substFuel_nospace lm ('(' :: lab)
      (by
        intro c2 hc2
        rcases List.mem_cons.mp hc2 with h2 | h2
        · rw [h2]; decide
        · exact (hcl.2 c2 h2).1)]
    rw [substFuel_spaceskip lm (render c ++ ')' :: y) f
      (by rw [hr]; rfl)]
    obtain ⟨f2, hf2⟩ := ih hw (')' :: y) f (by rfl) (by rfl)
    rw [hf2]
    rw [show (')' :: y) = [')'] ++ y from rfl]
    rw [substFuel_nospace lm [')']
      (by intro c2 hc2; rw [List.mem_singleton.mp hc2]; decide)]
    refine ⟨f2, ?_⟩
    show ('(' :: lab) ++ (' ' :: (substRender lm c ++
      (')' :: substFragFuel lm _ y))) = _
    simp [substRender]
  | node2 lab c1 c2 ih1 ih2 =>
    intro hT y f hy1 hy2
    have hw1 : wfT c1 = true := by
      simp only [wfT, Bool.and_eq_true] at hT
      exact hT.1.2
    have hw2 : wfT c2 = true := by
      simp only [wfT, Bool.and_eq_true] at hT
      exact hT.2
    have hcl := cleanLabel_chars (show cleanLabel lab = true by
      simp only [wfT, Bool.and_eq_true] at hT
      exact hT.1.1)
    obtain ⟨r1, hr1⟩ := render_head c1
    obtain ⟨r2, hr2⟩ := render_head c2
    show ∃ f2, substFragFuel lm
      (('(' :: (lab ++ ' ' :: (render c1 ++ ' ' :: (render c2 ++ [')'])))
        ++ y).length + f)
      ('(' :: (lab ++ ' ' :: (render c1 ++ ' ' :: (render c2 ++ [')'])))
        ++ y) = _
    rw [show ('(' :: (lab ++ ' ' :: (render c1 ++ ' ' ::
        (render c2 ++ [')']))) ++ y) =
      ('(' :: lab) ++ (' ' :: (render c1 ++
        (' ' :: (render c2 ++ ')' :: y)))) from by simp]
    rw [substFuel_nospace lm ('(' :: lab)
      (by
        intro c3 hc3
        rcases List.mem_cons.mp hc3 with h2 | h2
        · rw [h2]; decide
        · exact (hcl.2 c3 h2).1)]
    rw [substFuel_spaceskip lm (render c1 ++ (' ' ::
      (render c2 ++ ')' :: y))) f (by rw [hr1]; rfl)]
    obtain ⟨f2, hf2⟩ := ih1 hw1 (' ' :: (render c2 ++ ')' :: y)) f
      (by rfl) (by rfl)
    rw [hf2]
    rw [substFuel_spaceskip lm (render c2 ++ ')' :: y) f2
      (by rw [hr2]; rfl)]
    obtain ⟨f3, hf3⟩ := ih2 hw2 (')' :: y) f2 (by rfl) (by rfl)
    rw [hf3]
    rw [show (')' :: y) = [')'] ++ y from rfl]
    rw [substFuel_nospace lm [')']
      (by intro c3 hc3; rw [List.mem_singleton.mp hc3]; decide)]
    refine ⟨f3, ?_⟩
    show ('(' :: lab) ++ (' ' :: (substRender lm c1 ++
      (' ' :: (substRender lm c2 ++ (')' :: substFragFuel lm _ y))))) = _
    simp [substRender]

theorem substFrag_render (lm : Nat → List Char) (T : FTree)
    (hT : wfT T = true) : substFrag lm (render T) = substRender lm T := by
  obtain ⟨f2, hf2⟩ := substFuel_render lm T hT [] 0 (by rfl) (by rfl)
  rw [List.append_nil] at hf2
  unfold substFrag
  rw [show (render T).length = (render T).length + 0 from by omega]
  rw [hf2]
  have h2 : substFragFuel lm (List.length ([] : List Char) + f2)
      ([] : List Char) = [] := by
    match f2 with
    | 0 => rfl
    | f3 + 1 => rfl
  rw [h2, List.append_nil]

theorem insertSorted_eq (x : Nat) (l : List Nat) :
    insertSorted x l = List.orderedInsert (· ≤ ·) x l := by
  induction l with
  | nil => rfl
  | cons y ys ih =>
    simp only [insertSorted, List.orderedInsert]
    rw [ih]

theorem sortNat_eq (l : List Nat) :
    sortNat l = List.insertionSort (· ≤ ·) l := by
  unfold sortNat
  induction l with
  | nil => rfl
  | cons x xs ih =>
    simp only [List.foldr_cons, List.insertionSort]
    rw [ih, insertSorted_eq]

theorem sortNat_sorted (l : List Nat) : List.Sorted (· ≤ ·) (sortNat l) := by
  rw [sortNat_eq]
  exact List.sorted_insertionSort _ l

theorem sortNat_perm (l : List Nat) : List.Perm (sortNat l) l := by
  rw [sortNat_eq]
  exact List.perm_insertionSort _ l

theorem sortNat_mem (l : List Nat) (x : Nat) : x ∈ sortNat l ↔ x ∈ l :=
  (sortNat_perm l).mem_iff

theorem sortNat_nodup {l : List Nat} (h : l.Nodup) : (sortNat l).Nodup :=
  (sortNat_perm l).nodup_iff.mpr h

theorem getsentLoop_headPair (sent : List String) (lv : List Nat)
    (spv : Nat → Nat) (keys : List Nat) (maxl n : Nat) (rest : List Nat)
    (m0 : Nat) :
    ∃ t, (getsentLoop sent lv spv keys maxl (n :: rest) m0).2 =
      (n, m0) :: t := by
  simp only [getsentLoop]
  by_cases h : spv n ∉ keys ∧ n ≠ maxl
  · rw [if_pos h]
    exact ⟨_, rfl⟩
  · rw [if_neg h]
    exact ⟨_, rfl⟩

theorem getsentLoop_chain (sent : List String) (lv : List Nat)
    (spv : Nat → Nat) (keys : List Nat) (maxl : Nat) : ∀ ns m0,
    List.Chain' (· < ·)
      ((getsentLoop sent lv spv keys maxl ns m0).2.map Prod.snd) := by
  intro ns
  induction ns with
  | nil => intro m0; simp [getsentLoop]
  | cons n rest ih =>
    intro m0
    have hnext : ∀ m2, m0 < m2 →
        List.Chain' (· < ·) ((m0 : Nat) ::
          ((getsentLoop sent lv spv keys maxl rest m2).2.map Prod.snd)) := by
      intro m2 hm2
      rw [List.chain'_cons']
      refine ⟨?_, ih m2⟩
      intro y hy
      match rest with
      | [] => simp [getsentLoop] at hy
      | n2 :: r2 =>
        obtain ⟨t, ht⟩ := getsentLoop_headPair sent lv spv keys maxl n2 r2 m2
        rw [ht] at hy
        simp at hy
        omega
    simp only [getsentLoop]
    by_cases h : spv n ∉ keys ∧ n ≠ maxl
    · rw [if_pos h]
      simp only [List.map_cons]
      exact hnext (m0 + 2) (by omega)
    · rw [if_neg h]
      simp only [List.map_cons]
      exact hnext (m0 + 1) (by omega)

theorem lookup_of_mem_fst {l : List (Nat × Nat)} {k : Nat}
    (h : k ∈ l.map Prod.fst) : ∃ v, l.lookup k = some v := by
  induction l with
  | nil => simp at h
  | cons p rest ih =>
    simp only [List.map_cons, List.mem_cons] at h
    by_cases hk : k = p.1
    · refine ⟨p.2, ?_⟩
      match p with
      | (a, b) =>
        have hb : (k == a) = true := beq_iff_eq.mpr (by simpa using hk)
        simp only [List.lookup, hb]
    · rcases h with h2 | h2
      · exact absurd h2 hk
      · obtain ⟨v, hv⟩ := ih h2
        refine ⟨v, ?_⟩
        match p with
        | (a, b) =>
          have hb : (k == a) = false := by
            simp only [beq_eq_false_iff_ne]
            simpa using hk
          simp only [List.lookup, hb]
          exact hv

theorem scanFrontiers_render_nil (T : FTree) (hT : wfT T = true) :
    scanFrontiers (render T) = frontsOf T := by
  have h := scanFrontiers_render T hT [] (by rfl) (by rfl)
  simpa [scanFrontiers] using h

theorem scanTermIndices_render_nil (T : FTree) (hT : wfT T = true) :
    scanTermIndices (render T) = termsOf T := by
  have h := scanTermIndices_render T hT [] (by rfl)
  simpa [scanTermIndices] using h

theorem getsent_render (T : FTree) (sent : List String)
    (hT : wfT T = true) :
    getsent (render T) sent =
      (substRender (fragLeafmap T sent) T, (fragLoop T sent).1) := by
  unfold getsent
  simp only [scanFrontiers_render_nil T hT, scanTermIndices_render_nil T hT]
  rw [substFrag_render _ T hT]
  rfl

/-- C5: for every well-formed fragment string — the render of a tree whose
leaves are ` <k>` terminal indices or ` <k>:<k'>` frontier intervals, with
clean labels — and every sentence list, `getsent` collects exactly the
indices appearing in the fragment (the frontier intervals and terminal
indices in string order), sorts the distinct keys ascending, renumbers
them to a dense sequence starting at `0` (strictly increasing assigned
indices, with exactly one extra `None` position per gap), substitutes the
new index for each leaf occurrence in the fragment string, and returns
the sentence tuple holding `sent[k]` at the position assigned to each
terminal index `k` and `None` at every other position; on the claim's
example it returns exactly the documented pair. -/
theorem getsent_renumbering :
    (getsent "(S (NP 2) (VP 4))".toList
        ["The", "tall", "man", "there", "walks"] =
      ("(S (NP 0) (VP 2))".toList, [some "man", none, some "walks"])) ∧
    (∀ (T : FTree) (sent : List String), wfT T = true →
      (scanFrontiers (render T) = frontsOf T) ∧
      (scanTermIndices (render T) = termsOf T) ∧
      List.Sorted (· ≤ ·) (fragSorted T) ∧
      (fragSorted T).Nodup ∧
      (∀ x, x ∈ fragSorted T ↔
        x ∈ (frontsOf T).map Prod.fst ++ termsOf T) ∧
      (getsent (render T) sent =
        (substRender (fragLeafmap T sent) T, (fragLoop T sent).1)) ∧
      (∀ k, k ∈ (frontsOf T).map Prod.fst ++ termsOf T →
        ∃ mm, (fragLoop T sent).2.lookup k = some mm ∧
          fragLeafmap T sent k = ' ' :: natDigits mm) ∧
      ((fragLoop T sent).2.map Prod.fst = fragSorted T) ∧
      List.Chain' (· < ·) ((fragLoop T sent).2.map Prod.snd) ∧
      (∀ q ∈ (fragLoop T sent).2,
        (fragLoop T sent).1.get? q.2 =
          some (if q.1 ∈ termsOf T then sent.get? q.1 else none)) ∧
      (∀ pos, pos < (fragLoop T sent).1.length →
        (∀ q ∈ (fragLoop T sent).2, q.2 ≠ pos) →
        (fragLoop T sent).1.get? pos = some none) ∧
      ((fragLoop T sent).1.length =
        (fragSorted T).length +
          gapCount (fragSpans T) (fragKeys T) (fragMaxl T) (fragSorted T)))
    := by
  refine ⟨by decide, ?_⟩
  intro T sent hT
  have hspec := getsentLoop_spec sent (termsOf T) (fragSpans T)
    (fragKeys T) (fragMaxl T) (fragSorted T) 0
  refine ⟨scanFrontiers_render_nil T hT, scanTermIndices_render_nil T hT,
    sortNat_sorted _, sortNat_nodup (List.nodup_dedup _), ?_,
    getsent_render T sent hT, ?_, hspec.1, ?_, ?_, ?_, hspec.2.2.2⟩
  · intro x
    exact (sortNat_mem _ x).trans List.mem_dedup
  · intro k hk
    have hk2 : k ∈ fragSorted T :=
      ((sortNat_mem _ k).trans List.mem_dedup).mpr hk
    rw [← hspec.1] at hk2
    obtain ⟨mm, hmm⟩ := lookup_of_mem_fst hk2
    refine ⟨mm, hmm, ?_⟩
    unfold fragLeafmap fragLoop
    rw [hmm]
  · exact getsentLoop_chain sent (termsOf T) (fragSpans T) (fragKeys T)
      (fragMaxl T) (fragSorted T) 0
  · intro q hq
    have h2 := (hspec.2.1 q hq).2
    rwa [Nat.sub_zero] at h2
  · intro pos hpos hun
    refine hspec.2.2.1 pos hpos ?_
    intro q hq
    rw [Nat.sub_zero]
    exact hun q hq

theorem getsent_renumbering_witness :
    scanTermIndices (render (FTree.node2 ['S']
      (FTree.term ['N', 'P'] 2) (FTree.term ['V', 'P'] 4))) =
      termsOf (FTree.node2 ['S']
        (FTree.term ['N', 'P'] 2) (FTree.term ['V', 'P'] 4)) ∧
    getsent (render (FTree.node2 ['S']
        (FTree.term ['N', 'P'] 2) (FTree.term ['V', 'P'] 4)))
      ["The", "tall", "man", "there", "walks"] =
      (substRender (fragLeafmap (FTree.node2 ['S']
          (FTree.term ['N', 'P'] 2) (FTree.term ['V', 'P'] 4))
          ["The", "tall", "man", "there", "walks"])
        (FTree.node2 ['S']
          (FTree.term ['N', 'P'] 2) (FTree.term ['V', 'P'] 4)),
       (fragLoop (FTree.node2 ['S']
          (FTree.term ['N', 'P'] 2) (FTree.term ['V', 'P'] 4))
          ["The", "tall", "man", "there", "walks"]).1) := by
  have h := getsent_renumbering.2
    (FTree.node2 ['S'] (FTree.term ['N', 'P'] 2) (FTree.term ['V', 'P'] 4))
    ["The", "tall", "man", "there", "walks"] (by decide)
  exact ⟨h.2.1, h.2.2.2.2.2.1⟩

theorem coverAux_specK (trees : List NodeArr) (labels : Nat → List Char)
    (sents : List (List String)) (disc : Bool) (numprods : Nat)
    (K : Nat → CovKey)
    (hKinj : ∀ p, p < numprods → ∀ q, q < numprods → K p = K q → p = q)
    (hocc : ∀ p, p < numprods → ∀ n, n < trees.length →
      ∀ i, i < (trees.getD n dfltArr).len →
      ((trees.getD n dfltArr).node i).prod = (p : Int) →
      covKeyAt trees sents labels disc n i = K p) :
    ∀ (L : List (Finset Nat)) (p0 : Nat) (acc : List (CovKey × BitsetW)),
      p0 + L.length ≤ numprods →
      (∀ j, j < L.length → ∀ n ∈ L.getD j ∅,
        n < trees.length ∧
        ∃ i, i < (trees.getD n dfltArr).len ∧
          ((trees.getD n dfltArr).node i).prod = ((p0 + j : Nat) : Int)) →
      (∀ e ∈ acc, ∃ q, q < p0 ∧ entryForK trees K q e) →
      ∃ res, coverAux trees labels sents disc L p0 acc = some res ∧
        (∀ e ∈ res, ∃ q, q < p0 + L.length ∧ entryForK trees K q e) ∧
        (∀ j, j < L.length → (L.getD j ∅).Nonempty →
          res.countP (selectsSingleNode trees (p0 + j)) =
            acc.countP (selectsSingleNode trees (p0 + j)) + 1) ∧
        (∀ q, q < p0 →
          res.countP (selectsSingleNode trees q) =
            acc.countP (selectsSingleNode trees q)) := by
  intro L
  induction L with
  | nil =>
    intro p0 acc hbound HL Hacc
    refine ⟨acc, rfl, ?_, ?_, ?_⟩
    · intro e he
      obtain ⟨q, hq, hqe⟩ := Hacc e he
      exact ⟨q, by simp only [List.length_nil]; omega, hqe⟩
    · intro j hj
      simp at hj
    · intro q hq
      rfl
  | cons ti rest ih =>
    intro p0 acc hbound HL Hacc
    have HL2 : ∀ j, j < rest.length → ∀ n2 ∈ rest.getD j ∅,
        n2 < trees.length ∧
        ∃ i2, i2 < (trees.getD n2 dfltArr).len ∧
          ((trees.getD n2 dfltArr).node i2).prod
            = (((p0 + 1) + j : Nat) : Int) := by
      intro j hj n2 hn2
      have h2 := HL (j + 1) (by simp only [List.length_cons]; omega) n2
        (by rw [List.getD_cons_succ]; exact hn2)
      obtain ⟨ha, i2, hb2, hc2⟩ := h2
      refine ⟨ha, i2, hb2, ?_⟩
      rw [show (p0 + 1) + j = p0 + (j + 1) from by omega]
      exact hc2
    by_cases h : ti.Nonempty
    · obtain ⟨hn, i0, hi0, hip⟩ := HL 0 (by simp) (ti.min' h)
        (by rw [List.getD_cons_zero]; exact ti.min'_mem h)
      have hip2 : ((trees.getD (ti.min' h) dfltArr).node i0).prod
          = ((p0 : Nat) : Int) := by
        simpa using hip
      rcases hfi : firstProdIdx (trees.getD (ti.min' h) dfltArr) p0 with _ | i
      · exfalso
        simp only [firstProdIdx] at hfi
        rw [List.find?_eq_none] at hfi
        have hpred : (((trees.getD (ti.min' h) dfltArr).node i0).prod
            == ((p0 : Nat) : Int)) = true := by
          rw [beq_iff_eq]
          exact hip2
        exact absurd hpred (by simpa using hfi i0 (List.mem_range.mpr hi0))
      · have hfind := hfi
        simp only [firstProdIdx] at hfind
        have himem : i < (trees.getD (ti.min' h) dfltArr).len :=
          List.mem_range.mp (List.mem_of_find?_eq_some hfind)
        have hiprod : ((trees.getD (ti.min' h) dfltArr).node i).prod
            = ((p0 : Nat) : Int) := by
          have h2 := List.find?_some hfind
          rwa [beq_iff_eq] at h2
        have hp0lt : p0 < numprods := by
          simp only [List.length_cons] at hbound
          omega
        set k0 := covKeyAt trees sents labels disc (ti.min' h) i with hk0
        set w : BitsetW := ⟨fun k => decide (k = i), i, ti.min' h⟩
          with hwdef
        have hkK : k0 = K p0 := by
          rw [hk0]
          exact hocc p0 hp0lt (ti.min' h) hn i himem hiprod
        have hnew : entryForK trees K p0 (k0, w) := by
          unfold entryForK
          exact ⟨hkK, hn, himem, hiprod, fun k => rfl⟩
        have hfresh : ∀ e ∈ acc, e.1 ≠ k0 := by
          intro e he hc
          obtain ⟨q, hq, hqe⟩ := Hacc e he
          have h2 : K q = K p0 := by
            rw [← hqe.1, hc, hkK]
          have h3 := hKinj q (by omega) p0 hp0lt h2
          omega
        have hstep : coverAux trees labels sents disc (ti :: rest) p0 acc =
            coverAux trees labels sents disc rest (p0 + 1)
              (acc ++ [(k0, w)]) := by
          rw [← dictInsert_fresh hfresh]
          simp only [coverAux]
          rw [dif_pos h, hfi]
        have Hacc2 : ∀ e ∈ acc ++ [(k0, w)],
            ∃ q, q < p0 + 1 ∧ entryForK trees K q e := by
          intro e he
          rcases List.mem_append.mp he with h2 | h2
          · obtain ⟨q, hq, hqe⟩ := Hacc e h2
            exact ⟨q, by omega, hqe⟩
          · have h3 : e = (k0, w) := by simpa using h2
            exact ⟨p0, by omega, h3 ▸ hnew⟩
        obtain ⟨res, hres, hb, hc, hd⟩ := ih (p0 + 1) (acc ++ [(k0, w)])
          (by simp only [List.length_cons] at hbound ⊢; omega) HL2 Hacc2
        have hcount_app : ∀ pr : (CovKey × BitsetW) → Bool,
            (acc ++ [(k0, w)]).countP pr
              = acc.countP pr + (if pr (k0, w) then 1 else 0) := by
          intro pr
          rw [List.countP_append]
          simp [List.countP_cons]
        have hselnew : selectsSingleNode trees p0 (k0, w) = true := by
          rw [hwdef]
          exact selectsSingleNode_mk trees p0 k0 i (ti.min' h) himem hiprod
        refine ⟨res, by rw [hstep]; exact hres, ?_, ?_, ?_⟩
        · intro e he
          obtain ⟨q, hq, hqe⟩ := hb e he
          exact ⟨q, by simp only [List.length_cons]; omega, hqe⟩
        · intro j hj hne
          match j with
          | 0 =>
            simp only [Nat.add_zero]
            have h2 := hd p0 (by omega)
            rw [h2, hcount_app, hselnew]
            simp
          | j2 + 1 =>
            have h2 := hc j2 (by simp only [List.length_cons] at hj; omega)
              (by rw [List.getD_cons_succ] at hne; exact hne)
            rw [show p0 + (j2 + 1) = (p0 + 1) + j2 from by omega]
            rw [h2, hcount_app]
            have hne2 : selectsSingleNode trees ((p0 + 1) + j2) (k0, w)
                = false := by
              refine selectsSingleNode_ne trees _ p0 (by omega) _ ?_
              exact hiprod
            rw [hne2]
            simp
        · intro q hq
          have h2 := hd q (by omega)
          rw [h2, hcount_app]
          have hne2 : selectsSingleNode trees q (k0, w) = false := by
            refine selectsSingleNode_ne trees _ p0 (by omega) _ ?_
            exact hiprod
          rw [hne2]
          simp
    · have hstep : coverAux trees labels sents disc (ti :: rest) p0 acc =
          coverAux trees labels sents disc rest (p0 + 1) acc := by
        simp only [coverAux]
        rw [dif_neg h]
      obtain ⟨res, hres, hb, hc, hd⟩ := ih (p0 + 1) acc
        (by simp only [List.length_cons] at hbound ⊢; omega) HL2
        (fun e he => by
          obtain ⟨q, hq, hqe⟩ := Hacc e he
          exact ⟨q, by omega, hqe⟩)
      refine ⟨res, by rw [hstep]; exact hres, ?_, ?_, ?_⟩
      · intro e he
        obtain ⟨q, hq, hqe⟩ := hb e he
        exact ⟨q, by simp only [List.length_cons]; omega, hqe⟩
      · intro j hj hne
        match j with
        | 0 =>
          rw [List.getD_cons_zero] at hne
          exact absurd hne h
        | j2 + 1 =>
          have h2 := hc j2 (by simp only [List.length_cons] at hj; omega)
            (by rw [List.getD_cons_succ] at hne; exact hne)
          rw [show p0 + (j2 + 1) = (p0 + 1) + j2 from by omega]
          exact h2
      · intro q hq
        exact hd q (by omega)

theorem space_split2 {l l2 r r2 : List Char} (hl : ' ' ∉ l)
    (hl2 : ' ' ∉ l2) (h : l ++ ' ' :: r = l2 ++ ' ' :: r2) :
    l = l2 ∧ r = r2 := by
  have h1 := space_split hl hl2 h
  subst h1
  refine ⟨rfl, ?_⟩
  have h2 := List.append_cancel_left h
  injection h2

theorem getsubtree_unset (a : NodeArr) (bitset : Nat → Bool)
    (labels : Nat → List Char) (s : List String) (fuel c : Nat)
    (hc : bitset c = false) :
    getsubtree a bitset labels (some s) (fuel + 1) c =
      '(' :: (labels ((a.node c).prod).toNat ++ ' ' :: [')']) := by
  simp only [getsubtree]
  rw [hc]
  simp


theorem getsubtree_succ (a : NodeArr) (bitset : Nat → Bool)
    (labels : Nat → List Char) (sent : Option (List String))
    (fuel i : Nat) :
    getsubtree a bitset labels sent (fuel + 1) i =
      '(' :: (labels ((a.node i).prod).toNat ++ ' ' ::
        ((if bitset i then
            if (a.node i).left ≥ 0 then
              getsubtree a bitset labels sent fuel ((a.node i).left).toNat
                ++ (if (a.node i).right ≥ 0 then
                  ' ' :: getsubtree a bitset labels sent fuel
                    ((a.node i).right).toNat
                else [])
            else
              (match sent with
              | some s => (s.getD (termidx (a.node i).left) "").toList
              | none => natDigits (termidx (a.node i).left))
          else
            (match sent with
            | some _ => []
            | none =>
              rangesBody (yieldGroups
                (sortNat (getyield a (a.len + 1) i))))) ++ [')'])) := rfl

theorem covKeyAt_cont (trees : List NodeArr) (sents : List (List String))
    (labels : Nat → List Char) (n i : Nat)
    (hi : i < (trees.getD n dfltArr).len)
    (hl : ((trees.getD n dfltArr).node i).left ≥ 0 →
      (((trees.getD n dfltArr).node i).left).toNat ≠ i)
    (hr : ((trees.getD n dfltArr).node i).right ≥ 0 →
      (((trees.getD n dfltArr).node i).right).toNat ≠ i) :
    covKeyAt trees sents labels false n i =
      (renderC (sigAtC trees sents labels n i), none) := by
  obtain ⟨m, hm⟩ : ∃ m, (trees.getD n dfltArr).len = m + 1 :=
    ⟨(trees.getD n dfltArr).len - 1, by omega⟩
  have hfrag : getsubtree (trees.getD n dfltArr) (fun k => decide (k = i))
      labels (some (sents.getD n []))
      ((trees.getD n dfltArr).len + 1) i =
      renderC (sigAtC trees sents labels n i) := by
    rw [hm, getsubtree_succ]
    simp only []
    have hcond : (decide True) = true := rfl
    rw [if_pos hcond]
    by_cases hlt : ((trees.getD n dfltArr).node i).left ≥ 0
    · rw [if_pos hlt]
      have hcl : (fun k => decide (k = i))
          ((((trees.getD n dfltArr).node i).left).toNat) = false := by
        simp only [decide_eq_false_iff_not]
        exact hl hlt
      by_cases hrt : ((trees.getD n dfltArr).node i).right ≥ 0
      · rw [if_pos hrt]
        have hcr : (fun k => decide (k = i))
            ((((trees.getD n dfltArr).node i).right).toNat) = false := by
          simp only [decide_eq_false_iff_not]
          exact hr hrt
        rw [getsubtree_unset _ _ _ _ m _ hcl,
          getsubtree_unset _ _ _ _ m _ hcr]
        unfold sigAtC
        rw [if_neg (by omega), if_neg (by omega)]
        simp [renderC]
      · rw [if_neg hrt]
        rw [getsubtree_unset _ _ _ _ m _ hcl]
        unfold sigAtC
        rw [if_neg (by omega), if_pos (by omega)]
        simp [renderC]
    · rw [if_neg hlt]
      unfold sigAtC
      rw [if_pos (by omega)]
      simp [renderC]
  unfold covKeyAt
  rw [if_neg (by simp)]
  exact congrArg (fun x => (x, (none : Option (List (Option String)))))
    hfrag

theorem renderC_inj {s1 s2 : CSig} (h1 : cleanC s1 = true)
    (h2 : cleanC s2 = true) (h : renderC s1 = renderC s2) : s1 = s2 := by
  match s1, s2 with
  | .cterm tag w, .cterm tag2 w2 =>
    simp only [renderC, List.cons.injEq, true_and] at h
    simp only [cleanC, Bool.and_eq_true] at h1 h2
    obtain ⟨hta, hrest⟩ := space_split2
      (fun hc => cleanLabel_nospace h1.1 ' ' hc rfl)
      (fun hc => cleanLabel_nospace h2.1 ' ' hc rfl) h
    have hw := List.append_cancel_right hrest
    rw [hta, hw]
  | .cterm tag w, .cnode1 lab cl =>
    exfalso
    simp only [renderC, List.cons.injEq, true_and] at h
    simp only [cleanC, Bool.and_eq_true] at h1 h2
    obtain ⟨hta, hrest⟩ := space_split2
      (fun hc => cleanLabel_nospace h1.1 ' ' hc rfl)
      (fun hc => cleanLabel_nospace h2.1 ' ' hc rfl) h
    have hw : w = '(' :: (cl ++ ' ' :: [')']) := by
      have h3 : w ++ [')'] = ('(' :: (cl ++ ' ' :: [')'])) ++ [')'] := by
        simpa using hrest
      exact List.append_cancel_right h3
    rw [hw] at h1
    simp at h1
  | .cnode1 lab cl, .cterm tag w =>
    exfalso
    simp only [renderC, List.cons.injEq, true_and] at h
    simp only [cleanC, Bool.and_eq_true] at h1 h2
    obtain ⟨hta, hrest⟩ := space_split2
      (fun hc => cleanLabel_nospace h1.1 ' ' hc rfl)
      (fun hc => cleanLabel_nospace h2.1 ' ' hc rfl) h
    have hw : w = '(' :: (cl ++ ' ' :: [')']) := by
      have h3 : w ++ [')'] = ('(' :: (cl ++ ' ' :: [')'])) ++ [')'] := by
        simpa using hrest.symm
      exact List.append_cancel_right h3
    rw [hw] at h2
    simp at h2
  | .cterm tag w, .cnode2 lab cl cr =>
    exfalso
    simp only [renderC, List.cons.injEq, true_and] at h
    simp only [cleanC, Bool.and_eq_true] at h1 h2
    obtain ⟨hta, hrest⟩ := space_split2
      (fun hc => cleanLabel_nospace h1.1 ' ' hc rfl)
      (fun hc => cleanLabel_nospace h2.1.1 ' ' hc rfl) h
    have hw : w = '(' :: (cl ++ ' ' :: (')' :: ' ' ::
        ('(' :: (cr ++ ' ' :: [')'])))) := by
      have h3 : w ++ [')'] = ('(' :: (cl ++ ' ' :: (')' :: ' ' ::
          ('(' :: (cr ++ ' ' :: [')']))))) ++ [')'] := by
        simpa using hrest
      exact List.append_cancel_right h3
    rw [hw] at h1
    simp at h1
  | .cnode2 lab cl cr, .cterm tag w =>
    exfalso
    simp only [renderC, List.cons.injEq, true_and] at h
    simp only [cleanC, Bool.and_eq_true] at h1 h2
    obtain ⟨hta, hrest⟩ := space_split2
      (fun hc => cleanLabel_nospace h1.1.1 ' ' hc rfl)
      (fun hc => cleanLabel_nospace h2.1 ' ' hc rfl) h
    have hw : w = '(' :: (cl ++ ' ' :: (')' :: ' ' ::
        ('(' :: (cr ++ ' ' :: [')'])))) := by
      have h3 : w ++ [')'] = ('(' :: (cl ++ ' ' :: (')' :: ' ' ::
          ('(' :: (cr ++ ' ' :: [')']))))) ++ [')'] := by
        simpa using hrest.symm
      exact List.append_cancel_right h3
    rw [hw] at h2
    simp at h2
  | .cnode1 lab cl, .cnode1 lab2 cl2 =>
    simp only [renderC, List.cons.injEq, true_and] at h
    simp only [cleanC, Bool.and_eq_true] at h1 h2
    obtain ⟨hla, hrest⟩ := space_split2
      (fun hc => cleanLabel_nospace h1.1 ' ' hc rfl)
      (fun hc => cleanLabel_nospace h2.1 ' ' hc rfl) h
    have h3 : '(' :: (cl ++ ' ' :: [')']) = '(' :: (cl2 ++ ' ' :: [')'])
        := List.append_cancel_right hrest
    simp only [List.cons.injEq, true_and] at h3
    obtain ⟨hcl, _⟩ := space_split2
      (fun hc => cleanLabel_nospace h1.2 ' ' hc rfl)
      (fun hc => cleanLabel_nospace h2.2 ' ' hc rfl) h3
    rw [hla, hcl]
  | .cnode1 lab cl, .cnode2 lab2 cl2 cr2 =>
    exfalso
    simp only [renderC, List.cons.injEq, true_and] at h
    simp only [cleanC, Bool.and_eq_true] at h1 h2
    obtain ⟨hla, hrest⟩ := space_split2
      (fun hc => cleanLabel_nospace h1.1 ' ' hc rfl)
      (fun hc => cleanLabel_nospace h2.1.1 ' ' hc rfl) h
    have h3 : '(' :: (cl ++ ' ' :: [')']) =
        '(' :: (cl2 ++ ' ' :: (')' :: ' ' ::
          ('(' :: (cr2 ++ ' ' :: [')'])))) := by
      have h4 : ('(' :: (cl ++ ' ' :: [')'])) ++ [')'] =
          ('(' :: (cl2 ++ ' ' :: (')' :: ' ' ::
            ('(' :: (cr2 ++ ' ' :: [')']))))) ++ [')'] := by
        simpa using hrest
      exact List.append_cancel_right h4
    simp only [List.cons.injEq, true_and] at h3
    obtain ⟨hcl, hrr⟩ := space_split2
      (fun hc => cleanLabel_nospace h1.2 ' ' hc rfl)
      (fun hc => cleanLabel_nospace h2.1.2 ' ' hc rfl) h3
    simp at hrr
  | .cnode2 lab cl cr, .cnode1 lab2 cl2 =>
    exfalso
    simp only [renderC, List.cons.injEq, true_and] at h
    simp only [cleanC, Bool.and_eq_true] at h1 h2
    obtain ⟨hla, hrest⟩ := space_split2
      (fun hc => cleanLabel_nospace h1.1.1 ' ' hc rfl)
      (fun hc => cleanLabel_nospace h2.1 ' ' hc rfl) h
    have h3 : '(' :: (cl2 ++ ' ' :: [')']) =
        '(' :: (cl ++ ' ' :: (')' :: ' ' ::
          ('(' :: (cr ++ ' ' :: [')'])))) := by
      have h4 : ('(' :: (cl2 ++ ' ' :: [')'])) ++ [')'] =
          ('(' :: (cl ++ ' ' :: (')' :: ' ' ::
            ('(' :: (cr ++ ' ' :: [')']))))) ++ [')'] := by
        simpa using hrest.symm
      exact List.append_cancel_right h4
    simp only [List.cons.injEq, true_and] at h3
    obtain ⟨hcl, hrr⟩ := space_split2
      (fun hc => cleanLabel_nospace h2.2 ' ' hc rfl)
      (fun hc => cleanLabel_nospace h1.1.2 ' ' hc rfl) h3
    simp at hrr
  | .cnode2 lab cl cr, .cnode2 lab2 cl2 cr2 =>
    simp only [renderC, List.cons.injEq, true_and] at h
    simp only [cleanC, Bool.and_eq_true] at h1 h2
    obtain ⟨hla, hrest⟩ := space_split2
      (fun hc => cleanLabel_nospace h1.1.1 ' ' hc rfl)
      (fun hc => cleanLabel_nospace h2.1.1 ' ' hc rfl) h
    have h3 : '(' :: (cl ++ ' ' :: (')' :: ' ' ::
        ('(' :: (cr ++ ' ' :: [')'])))) =
        '(' :: (cl2 ++ ' ' :: (')' :: ' ' ::
          ('(' :: (cr2 ++ ' ' :: [')'])))) := by
      have h4 : ('(' :: (cl ++ ' ' :: (')' :: ' ' ::
          ('(' :: (cr ++ ' ' :: [')']))))) ++ [')'] =
          ('(' :: (cl2 ++ ' ' :: (')' :: ' ' ::
            ('(' :: (cr2 ++ ' ' :: [')']))))) ++ [')'] := by
        simpa using hrest
      exact List.append_cancel_right h4
    simp only [List.cons.injEq, true_and] at h3
    obtain ⟨hcl, hrr⟩ := space_split2
      (fun hc => cleanLabel_nospace h1.1.2 ' ' hc rfl)
      (fun hc => cleanLabel_nospace h2.1.2 ' ' hc rfl) h3
    simp only [List.cons.injEq, true_and] at hrr
    obtain ⟨hcr, _⟩ := space_split2
      (fun hc => cleanLabel_nospace h1.2 ' ' hc rfl)
      (fun hc => cleanLabel_nospace h2.2 ' ' hc rfl) hrr
    rw [hla, hcl, hcr]

theorem run_split {p : Char → Bool} {l l2 r r2 : List Char} {a b : Char}
    (hl : ∀ c ∈ l, p c = true) (hl2 : ∀ c ∈ l2, p c = true)
    (ha : p a = false) (hb : p b = false)
    (h : l ++ a :: r = l2 ++ b :: r2) : l = l2 ∧ a = b ∧ r = r2 := by
  induction l generalizing l2 with
  | nil =>
    match l2 with
    | [] =>
      simp only [List.nil_append, List.cons.injEq] at h
      exact ⟨rfl, h.1, h.2⟩
    | c :: cs =>
      exfalso
      simp only [List.nil_append, List.cons_append, List.cons.injEq] at h
      have hpc := hl2 c (by simp)
      rw [h.1] at ha
      rw [hpc] at ha
      simp at ha
  | cons c cs ih =>
    match l2 with
    | [] =>
      exfalso
      simp only [List.cons_append, List.nil_append, List.cons.injEq] at h
      have hpc := hl c (by simp)
      rw [← h.1] at hb
      rw [hpc] at hb
      simp at hb
    | c2 :: cs2 =>
      simp only [List.cons_append, List.cons.injEq] at h
      obtain ⟨ha2, hb2, hc2⟩ := ih (fun x hx => hl x (by simp [hx]))
        (fun x hx => hl2 x (by simp [hx])) h.2
      exact ⟨by rw [h.1, ha2], hb2, hc2⟩

theorem numsRender_cons (k : Nat) (ks : List Nat) :
    numsRender (k :: ks) = ' ' :: (natDigits k ++ numsRender ks) := by
  simp [numsRender]

theorem numsTail_split : ∀ (ks1 : List Nat) (k1 k2 : Nat)
    (ks2 : List Nat) (y1 y2 : List Char),
    natDigits k1 ++ (numsRender ks1 ++ ')' :: y1) =
      natDigits k2 ++ (numsRender ks2 ++ ')' :: y2) →
    k1 = k2 ∧ ks1 = ks2 ∧ y1 = y2 := by
  intro ks1
  induction ks1 with
  | nil =>
    intro k1 k2 ks2 y1 y2 h
    match ks2 with
    | [] =>
      simp only [numsRender, List.foldr_nil, List.nil_append] at h
      obtain ⟨hd, _, hr⟩ := run_split (natDigits_digits k1)
        (natDigits_digits k2) (by decide) (by decide) h
      exact ⟨natDigits_inj hd, rfl, hr⟩
    | k2h :: ks2t =>
      exfalso
      rw [numsRender_cons] at h
      simp only [numsRender, List.foldr_nil, List.nil_append,
        List.cons_append, List.append_assoc] at h
      obtain ⟨_, hab, _⟩ := run_split (natDigits_digits k1)
        (natDigits_digits k2) (by decide) (by decide) h
      simp at hab
  | cons k1h ks1t ih =>
    intro k1 k2 ks2 y1 y2 h
    match ks2 with
    | [] =>
      exfalso
      rw [numsRender_cons] at h
      simp only [numsRender, List.foldr_nil, List.nil_append,
        List.cons_append, List.append_assoc] at h
      obtain ⟨_, hab, _⟩ := run_split (natDigits_digits k1)
        (natDigits_digits k2) (by decide) (by decide) h
      simp at hab
    | k2h :: ks2t =>
      rw [numsRender_cons, numsRender_cons] at h
      simp only [List.cons_append, List.append_assoc] at h
      obtain ⟨hd, _, hr⟩ := run_split (natDigits_digits k1)
        (natDigits_digits k2) (by decide) (by decide) h
      obtain ⟨h1, h2, h3⟩ := ih k1h k2h ks2t y1 y2 (by
        simpa [List.append_assoc] using hr)
      refine ⟨natDigits_inj hd, ?_, h3⟩
      rw [h1, h2]

theorem renderN_eq_cons (T : NTree) : ∃ b, renderN T = '(' :: b := by
  match T with
  | .leaf lab ks => exact ⟨_, rfl⟩
  | .node1 lab c => exact ⟨_, rfl⟩
  | .node2 lab c1 c2 => exact ⟨_, rfl⟩

theorem natDigits_cons (k : Nat) : ∃ d ds, natDigits k = d :: ds := by
  match hnd : natDigits k with
  | [] => exact absurd hnd (natDigits_ne_nil k)
  | d :: ds => exact ⟨d, ds, rfl⟩

theorem renderN_pi : ∀ (T1 : NTree), wfN T1 = true → ∀ (T2 : NTree)
    (y1 y2 : List Char), wfN T2 = true →
    renderN T1 ++ y1 = renderN T2 ++ y2 → T1 = T2 ∧ y1 = y2 := by
  intro T1
  induction T1 with
  | leaf lab ks =>
    intro h1 T2 y1 y2 h2 h
    simp only [wfN, Bool.and_eq_true] at h1
    obtain ⟨hcl1, hne1⟩ := h1
    obtain ⟨kh, kt, rfl⟩ : ∃ kh kt, ks = kh :: kt := by
      match ks, hne1 with
      | [], hne => exact nomatch hne
      | kh :: kt, _ => exact ⟨kh, kt, rfl⟩
    match T2 with
    | .leaf lab2 ks2 =>
      simp only [wfN, Bool.and_eq_true] at h2
      obtain ⟨hcl2, hne2⟩ := h2
      obtain ⟨k2h, k2t, rfl⟩ : ∃ k2h k2t, ks2 = k2h :: k2t := by
        match ks2, hne2 with
        | [], hne => exact nomatch hne
        | k2h :: k2t, _ => exact ⟨k2h, k2t, rfl⟩
      simp only [renderN, numsRender_cons, List.cons_append,
        List.append_assoc, List.nil_append, List.cons.injEq, true_and] at h
      obtain ⟨hla, hrest⟩ := space_split2
        (fun hc => cleanLabel_nospace hcl1 ' ' hc rfl)
        (fun hc => cleanLabel_nospace hcl2 ' ' hc rfl) h
      obtain ⟨hk, hks, hy⟩ := numsTail_split kt kh k2h k2t y1 y2 hrest
      refine ⟨?_, hy⟩
      rw [hla, hk, hks]
    | .node1 lab2 c2 =>
      exfalso
      simp only [wfN, Bool.and_eq_true] at h2
      simp only [renderN, numsRender_cons, List.cons_append,
        List.append_assoc, List.nil_append, List.cons.injEq, true_and] at h
      obtain ⟨hla, hrest⟩ := space_split2
        (fun hc => cleanLabel_nospace hcl1 ' ' hc rfl)
        (fun hc => cleanLabel_nospace h2.1 ' ' hc rfl) h
      obtain ⟨b2, hb2⟩ := renderN_eq_cons c2
      obtain ⟨d, ds, hd⟩ := natDigits_cons kh
      rw [hb2, hd] at hrest
      simp only [List.cons_append, List.cons.injEq] at hrest
      have hdd : d.isDigit = true := natDigits_digits kh d (by rw [hd]; simp)
      rw [hrest.1] at hdd
      simp at hdd
    | .node2 lab2 c21 c22 =>
      exfalso
      simp only [wfN, Bool.and_eq_true] at h2
      simp only [renderN, numsRender_cons, List.cons_append,
        List.append_assoc, List.nil_append, List.cons.injEq, true_and] at h
      obtain ⟨hla, hrest⟩ := space_split2
        (fun hc => cleanLabel_nospace hcl1 ' ' hc rfl)
        (fun hc => cleanLabel_nospace h2.1.1 ' ' hc rfl) h
      obtain ⟨b2, hb2⟩ := renderN_eq_cons c21
      obtain ⟨d, ds, hd⟩ := natDigits_cons kh
      rw [hb2, hd] at hrest
      simp only [List.cons_append, List.cons.injEq] at hrest
      have hdd : d.isDigit = true := natDigits_digits kh d (by rw [hd]; simp)
      rw [hrest.1] at hdd
      simp at hdd
  | node1 lab c ih =>
    intro h1 T2 y1 y2 h2 h
    simp only [wfN, Bool.and_eq_true] at h1
    match T2 with
    | .leaf lab2 ks2 =>
      exfalso
      simp only [wfN, Bool.and_eq_true] at h2
      obtain ⟨hcl2, hne2⟩ := h2
      obtain ⟨k2h, k2t, rfl⟩ : ∃ k2h k2t, ks2 = k2h :: k2t := by
        match ks2, hne2 with
        | [], hne => exact nomatch hne
        | k2h :: k2t, _ => exact ⟨k2h, k2t, rfl⟩
      simp only [renderN, numsRender_cons, List.cons_append,
        List.append_assoc, List.nil_append, List.cons.injEq, true_and] at h
      obtain ⟨hla, hrest⟩ := space_split2
        (fun hc => cleanLabel_nospace h1.1 ' ' hc rfl)
        (fun hc => cleanLabel_nospace hcl2 ' ' hc rfl) h
      obtain ⟨b2, hb2⟩ := renderN_eq_cons c
      obtain ⟨d, ds, hd⟩ := natDigits_cons k2h
      rw [hb2, hd] at hrest
      simp only [List.cons_append, List.cons.injEq] at hrest
      have hdd : d.isDigit = true :=
        natDigits_digits k2h d (by rw [hd]; simp)
      rw [← hrest.1] at hdd
      simp at hdd
    | .node1 lab2 c2 =>
      simp only [wfN, Bool.and_eq_true] at h2
      simp only [renderN, List.cons_append, List.append_assoc,
        List.nil_append, List.cons.injEq, true_and] at h
      obtain ⟨hla, hrest⟩ := space_split2
        (fun hc => cleanLabel_nospace h1.1 ' ' hc rfl)
        (fun hc => cleanLabel_nospace h2.1 ' ' hc rfl) h
      obtain ⟨hcc, hyy⟩ := ih h1.2 c2 (')' :: y1) (')' :: y2) h2.2 hrest
      simp only [List.cons.injEq, true_and] at hyy
      refine ⟨?_, hyy⟩
      rw [hla, hcc]
    | .node2 lab2 c21 c22 =>
      exfalso
      simp only [wfN, Bool.and_eq_true] at h2
      simp only [renderN, List.cons_append, List.append_assoc,
        List.nil_append, List.cons.injEq, true_and] at h
      obtain ⟨hla, hrest⟩ := space_split2
        (fun hc => cleanLabel_nospace h1.1 ' ' hc rfl)
        (fun hc => cleanLabel_nospace h2.1.1 ' ' hc rfl) h
      obtain ⟨hcc, hyy⟩ := ih h1.2 c21 (')' :: y1)
        (' ' :: (renderN c22 ++ ')' :: y2)) h2.1.2 hrest
      simp at hyy
  | node2 lab c1 c2 ih1 ih2 =>
    intro h1 T2 y1 y2 h2 h
    simp only [wfN, Bool.and_eq_true] at h1
    match T2 with
    | .leaf lab2 ks2 =>
      exfalso
      simp only [wfN, Bool.and_eq_true] at h2
      obtain ⟨hcl2, hne2⟩ := h2
      obtain ⟨k2h, k2t, rfl⟩ : ∃ k2h k2t, ks2 = k2h :: k2t := by
        match ks2, hne2 with
        | [], hne => exact nomatch hne
        | k2h :: k2t, _ => exact ⟨k2h, k2t, rfl⟩
      simp only [renderN, numsRender_cons, List.cons_append,
        List.append_assoc, List.nil_append, List.cons.injEq, true_and] at h
      obtain ⟨hla, hrest⟩ := space_split2
        (fun hc => cleanLabel_nospace h1.1.1 ' ' hc rfl)
        (fun hc => cleanLabel_nospace hcl2 ' ' hc rfl) h
      obtain ⟨b2, hb2⟩ := renderN_eq_cons c1
      obtain ⟨d, ds, hd⟩ := natDigits_cons k2h
      rw [hb2, hd] at hrest
      simp only [List.cons_append, List.cons.injEq] at hrest
      have hdd : d.isDigit = true :=
        natDigits_digits k2h d (by rw [hd]; simp)
      rw [← hrest.1] at hdd
      simp at hdd
    | .node1 lab2 c21 =>
      exfalso
      simp only [wfN, Bool.and_eq_true] at h2
      simp only [renderN, List.cons_append, List.append_assoc,
        List.nil_append, List.cons.injEq, true_and] at h
      obtain ⟨hla, hrest⟩ := space_split2
        (fun hc => cleanLabel_nospace h1.1.1 ' ' hc rfl)
        (fun hc => cleanLabel_nospace h2.1 ' ' hc rfl) h
      obtain ⟨hcc, hyy⟩ := ih1 h1.1.2 c21
        (' ' :: (renderN c2 ++ ')' :: y1)) (')' :: y2) h2.2 hrest
      simp at hyy
    | .node2 lab2 c21 c22 =>
      simp only [wfN, Bool.and_eq_true] at h2
      simp only [renderN, List.cons_append, List.append_assoc,
        List.nil_append, List.cons.injEq, true_and] at h
      obtain ⟨hla, hrest⟩ := space_split2
        (fun hc => cleanLabel_nospace h1.1.1 ' ' hc rfl)
        (fun hc => cleanLabel_nospace h2.1.1 ' ' hc rfl) h
      obtain ⟨hcc1, hyy1⟩ := ih1 h1.1.2 c21
        (' ' :: (renderN c2 ++ ')' :: y1))
        (' ' :: (renderN c22 ++ ')' :: y2)) h2.1.2 hrest
      simp only [List.cons.injEq, true_and] at hyy1
      obtain ⟨hcc2, hyy2⟩ := ih2 h1.2 c22 (')' :: y1) (')' :: y2)
        h2.2 hyy1
      simp only [List.cons.injEq, true_and] at hyy2
      refine ⟨?_, hyy2⟩
      rw [hla, hcc1, hcc2]

theorem renderN_inj {T1 T2 : NTree} (h1 : wfN T1 = true)
    (h2 : wfN T2 = true) (h : renderN T1 = renderN T2) : T1 = T2 :=
  (renderN_pi T1 h1 T2 [] [] h2 (by simpa using h)).1

theorem wfN_normT (f : Nat → Nat) : ∀ T : FTree, wfT T = true →
    wfN (normT f T) = true := by
  intro T
  induction T with
  | term tag k =>
    intro h
    simp only [wfT] at h
    simp [normT, wfN, h]
  | front lab ivs =>
    intro h
    simp only [wfT, Bool.and_eq_true] at h
    match ivs, h.2 with
    | iv :: rest, _ => simp [normT, wfN, h.1]
  | node1 lab c ihc =>
    intro h
    simp only [wfT, Bool.and_eq_true] at h
    simp [normT, wfN, h.1, ihc h.2]
  | node2 lab c1 c2 ih1 ih2 =>
    intro h
    simp only [wfT, Bool.and_eq_true] at h
    simp [normT, wfN, h.1.1, ih1 h.1.2, ih2 h.2]

theorem substRender_normT (lm : Nat → List Char) (f : Nat → Nat) :
    ∀ T : FTree,
    (∀ k, k ∈ (frontsOf T).map Prod.fst ++ termsOf T →
      lm k = ' ' :: natDigits (f k)) →
    substRender lm T = renderN (normT f T) := by
  intro T
  induction T with
  | term tag k =>
    intro hlm
    have h := hlm k (by simp [frontsOf, termsOf])
    simp [substRender, normT, renderN, numsRender, h]
  | front lab ivs =>
    intro hlm
    have hivs : ∀ iv ∈ ivs, lm iv.1 = ' ' :: natDigits (f iv.1) := by
      intro iv hiv
      refine hlm iv.1 ?_
      simp only [frontsOf, termsOf, List.append_nil, List.mem_map]
      exact ⟨iv, hiv, rfl⟩
    have key : ∀ l : List (Nat × Nat),
        (∀ iv ∈ l, lm iv.1 = ' ' :: natDigits (f iv.1)) →
        l.foldr (fun iv acc => lm iv.1 ++ acc) [] =
          numsRender (l.map (fun iv => f iv.1)) := by
      intro l
      induction l with
      | nil => intro _; rfl
      | cons iv rest ihl =>
        intro hall
        simp only [List.foldr_cons, List.map_cons, numsRender_cons]
        rw [hall iv (by simp), ihl (fun x hx => hall x (by simp [hx]))]
        simp
    simp only [substRender, normT, renderN]
    rw [key ivs hivs]
  | node1 lab c ihc =>
    intro hlm
    simp only [substRender, normT, renderN]
    rw [ihc (fun k hk => hlm k hk)]
  | node2 lab c1 c2 ih1 ih2 =>
    intro hlm
    have hl1 : ∀ k, k ∈ (frontsOf c1).map Prod.fst ++ termsOf c1 →
        lm k = ' ' :: natDigits (f k) := by
      intro k hk
      refine hlm k ?_
      simp only [frontsOf, termsOf, List.map_append, List.mem_append,
        List.append_assoc] at hk ⊢
      tauto
    have hl2 : ∀ k, k ∈ (frontsOf c2).map Prod.fst ++ termsOf c2 →
        lm k = ' ' :: natDigits (f k) := by
      intro k hk
      refine hlm k ?_
      simp only [frontsOf, termsOf, List.map_append, List.mem_append,
        List.append_assoc] at hk ⊢
      tauto
    simp only [substRender, normT, renderN]
    rw [ih1 hl1, ih2 hl2]

theorem fragLeafmap_eq (T : FTree) (sent : List String) (k : Nat)
    (hk : k ∈ (frontsOf T).map Prod.fst ++ termsOf T) :
    fragLeafmap T sent k = ' ' :: natDigits (fragRenum T sent k) := by
  have hk2 : k ∈ fragSorted T :=
    ((sortNat_mem _ k).trans List.mem_dedup).mpr hk
  have hspec := getsentLoop_spec sent (termsOf T) (fragSpans T)
    (fragKeys T) (fragMaxl T) (fragSorted T) 0
  rw [← hspec.1] at hk2
  obtain ⟨mm, hmm⟩ := lookup_of_mem_fst hk2
  unfold fragLeafmap fragRenum fragLoop
  rw [hmm]
  simp

theorem yieldGroupsAux_ne_nil (rest : List Nat) : ∀ s c,
    yieldGroupsAux s c rest ≠ [] := by
  induction rest with
  | nil => intro s c; simp [yieldGroupsAux]
  | cons n t ih =>
    intro s c
    simp only [yieldGroupsAux]
    by_cases hn : n = c + 1
    · rw [if_pos hn]; exact ih s n
    · rw [if_neg hn]; simp

theorem yieldGroups_cons {l : List Nat} (h : l ≠ []) :
    ∃ iv rest, yieldGroups l = iv :: rest := by
  match l with
  | [] => exact absurd rfl h
  | n :: t =>
    simp only [yieldGroups]
    match hy : yieldGroupsAux n n t with
    | [] => exact absurd hy (yieldGroupsAux_ne_nil t n n)
    | iv :: rest => exact ⟨iv, rest, rfl⟩

theorem sortNat_ne_nil {l : List Nat} (h : l ≠ []) : sortNat l ≠ [] := by
  intro hc
  have hp := sortNat_perm l
  rw [hc] at hp
  exact h (List.Perm.nil_eq hp).symm

theorem getsubtree_unset_none (a : NodeArr) (bitset : Nat → Bool)
    (labels : Nat → List Char) (fuel c : Nat) (hc : bitset c = false) :
    getsubtree a bitset labels none (fuel + 1) c =
      '(' :: (labels ((a.node c).prod).toNat ++ ' ' ::
        (rangesBody (yieldGroups (sortNat (getyield a (a.len + 1) c)))
          ++ [')'])) := by
  rw [getsubtree_succ, hc]
  simp

theorem fragTreeAt_wf (trees : List NodeArr) (labels : Nat → List Char)
    (n i : Nat) (hlab : ∀ k, cleanLabel (labels k) = true)
    (hyl : ((trees.getD n dfltArr).node i).left ≥ 0 →
      getyield (trees.getD n dfltArr) ((trees.getD n dfltArr).len + 1)
        ((((trees.getD n dfltArr).node i).left).toNat) ≠ [])
    (hyr : ((trees.getD n dfltArr).node i).right ≥ 0 →
      getyield (trees.getD n dfltArr) ((trees.getD n dfltArr).len + 1)
        ((((trees.getD n dfltArr).node i).right).toNat) ≠ []) :
    wfT (fragTreeAt trees labels n i) = true := by
  unfold fragTreeAt
  by_cases h1 : ((trees.getD n dfltArr).node i).left < 0
  · rw [if_pos h1]
    simp [wfT, hlab]
  · rw [if_neg h1]
    obtain ⟨ivl, restl, hivl⟩ :=
      yieldGroups_cons (sortNat_ne_nil (hyl (by omega)))
    by_cases h2 : ((trees.getD n dfltArr).node i).right < 0
    · rw [if_pos h2]
      simp only [childFront, wfT, Bool.and_eq_true]
      rw [hivl]
      simp [hlab]
    · rw [if_neg h2]
      obtain ⟨ivr, restr, hivr⟩ :=
        yieldGroups_cons (sortNat_ne_nil (hyr (by omega)))
      simp only [childFront, wfT, Bool.and_eq_true]
      rw [hivl, hivr]
      simp [hlab]

theorem getsubtree_none_render (trees : List NodeArr)
    (labels : Nat → List Char) (n i : Nat)
    (hi : i < (trees.getD n dfltArr).len)
    (hl : ((trees.getD n dfltArr).node i).left ≥ 0 →
      (((trees.getD n dfltArr).node i).left).toNat ≠ i)
    (hr : ((trees.getD n dfltArr).node i).right ≥ 0 →
      (((trees.getD n dfltArr).node i).right).toNat ≠ i)
    (hyl : ((trees.getD n dfltArr).node i).left ≥ 0 →
      getyield (trees.getD n dfltArr) ((trees.getD n dfltArr).len + 1)
        ((((trees.getD n dfltArr).node i).left).toNat) ≠ [])
    (hyr : ((trees.getD n dfltArr).node i).right ≥ 0 →
      getyield (trees.getD n dfltArr) ((trees.getD n dfltArr).len + 1)
        ((((trees.getD n dfltArr).node i).right).toNat) ≠ []) :
    getsubtree (trees.getD n dfltArr) (fun k => decide (k = i)) labels
      none ((trees.getD n dfltArr).len + 1) i =
      render (fragTreeAt trees labels n i) := by
  obtain ⟨m, hm⟩ : ∃ m, (trees.getD n dfltArr).len = m + 1 :=
    ⟨(trees.getD n dfltArr).len - 1, by omega⟩
  rw [hm, getsubtree_succ]
  simp only []
  have hcond : (decide True) = true := rfl
  rw [if_pos hcond]
  unfold fragTreeAt
  by_cases hlt : ((trees.getD n dfltArr).node i).left ≥ 0
  · rw [if_pos hlt]
    have hcl : (fun k => decide (k = i))
        ((((trees.getD n dfltArr).node i).left).toNat) = false := by
      simp only [decide_eq_false_iff_not]
      exact hl hlt
    obtain ⟨ivl, restl, hivl⟩ :=
      yieldGroups_cons (sortNat_ne_nil (hyl hlt))
    by_cases hrt : ((trees.getD n dfltArr).node i).right ≥ 0
    · rw [if_pos hrt]
      have hcr : (fun k => decide (k = i))
          ((((trees.getD n dfltArr).node i).right).toNat) = false := by
        simp only [decide_eq_false_iff_not]
        exact hr hrt
      obtain ⟨ivr, restr, hivr⟩ :=
        yieldGroups_cons (sortNat_ne_nil (hyr hrt))
      rw [getsubtree_unset_none _ _ _ m _ hcl,
        getsubtree_unset_none _ _ _ m _ hcr]
      rw [if_neg (show ¬((trees.getD n dfltArr).node i).left < 0
          by omega),
        if_neg (show ¬((trees.getD n dfltArr).node i).right < 0
          by omega)]
      simp only [childFront]
      rw [hivl, hivr]
      simp [render, renderIvs, renderIv, rangesBody]
    · rw [if_neg hrt]
      rw [getsubtree_unset_none _ _ _ m _ hcl]
      rw [if_neg (show ¬((trees.getD n dfltArr).node i).left < 0
          by omega),
        if_pos (show ((trees.getD n dfltArr).node i).right < 0
          by omega)]
      simp only [childFront]
      rw [hivl]
      simp [render, renderIvs, renderIv, rangesBody]
  · rw [if_neg hlt]
    rw [if_pos (show ((trees.getD n dfltArr).node i).left < 0 by omega)]
    simp [render]

theorem covKeyAt_disc (trees : List NodeArr) (sents : List (List String))
    (labels : Nat → List Char) (n i : Nat)
    (hi : i < (trees.getD n dfltArr).len)
    (hl : ((trees.getD n dfltArr).node i).left ≥ 0 →
      (((trees.getD n dfltArr).node i).left).toNat ≠ i)
    (hr : ((trees.getD n dfltArr).node i).right ≥ 0 →
      (((trees.getD n dfltArr).node i).right).toNat ≠ i)
    (hlab : ∀ k, cleanLabel (labels k) = true)
    (hyl : ((trees.getD n dfltArr).node i).left ≥ 0 →
      getyield (trees.getD n dfltArr) ((trees.getD n dfltArr).len + 1)
        ((((trees.getD n dfltArr).node i).left).toNat) ≠ [])
    (hyr : ((trees.getD n dfltArr).node i).right ≥ 0 →
      getyield (trees.getD n dfltArr) ((trees.getD n dfltArr).len + 1)
        ((((trees.getD n dfltArr).node i).right).toNat) ≠ []) :
    covKeyAt trees sents labels true n i =
      (renderN (normT (fragRenum (fragTreeAt trees labels n i)
          (sents.getD n [])) (fragTreeAt trees labels n i)),
        some ((fragLoop (fragTreeAt trees labels n i)
          (sents.getD n [])).1)) := by
  have hwf := fragTreeAt_wf trees labels n i hlab hyl hyr
  have hfrag := getsubtree_none_render trees labels n i hi hl hr hyl hyr
  unfold covKeyAt
  rw [if_pos rfl]
  rw [hfrag, getsent_render _ _ hwf]
  rw [substRender_normT (fragLeafmap (fragTreeAt trees labels n i)
    (sents.getD n [])) (fragRenum (fragTreeAt trees labels n i)
    (sents.getD n [])) (fragTreeAt trees labels n i)
    (fun k hk => fragLeafmap_eq (fragTreeAt trees labels n i)
      (sents.getD n []) k hk)]

/-- C6: `coverbitsets(trees, sents, labels, maxnodes, discontinuous)`
returns exactly one fragment per distinct production: for every production
id `p` indexed in `trees.treeswithprod`, the result contains exactly one
entry whose bitset selects a single node carrying production `p`.  The key
distinctness this rests on is derived from the fragment strings
themselves: in continuous mode the rendered string determines the
production's signature — its label and its word or child labels —
(`renderC_inj`), and in discontinuous mode the `getsent`-renumbered
string determines the normalized fragment tree with its renumbered yield
intervals (`renderN_inj`).  The grammar-level hypotheses say only that
distinct production ids have distinct signatures and that every
occurrence of a production carries its production's signature. -/
theorem coverbitsets_one_per_production
    (trees : List NodeArr) (sents : List (List String))
    (labels : Nat → List Char) (numprods : Nat) (disc : Bool)
    (descC : Nat → CSig) (descD : Nat → NTree × List (Option String))
    (hprod : ∀ n, n < trees.length → ∀ i, i < (trees.getD n dfltArr).len →
      0 ≤ ((trees.getD n dfltArr).node i).prod)
    (hchild : ∀ n, n < trees.length → ∀ i, i < (trees.getD n dfltArr).len →
      (((trees.getD n dfltArr).node i).left ≥ 0 →
        (((trees.getD n dfltArr).node i).left).toNat ≠ i) ∧
      (((trees.getD n dfltArr).node i).right ≥ 0 →
        (((trees.getD n dfltArr).node i).right).toNat ≠ i))
    (hcont : disc = false →
      (∀ p, p < numprods → cleanC (descC p) = true) ∧
      (∀ p, p < numprods → ∀ q, q < numprods → descC p = descC q → p = q) ∧
      (∀ p, p < numprods → ∀ n, n < trees.length →
        ∀ i, i < (trees.getD n dfltArr).len →
        ((trees.getD n dfltArr).node i).prod = (p : Int) →
        sigAtC trees sents labels n i = descC p))
    (hdisc : disc = true →
      (∀ k, cleanLabel (labels k) = true) ∧
      (∀ p, p < numprods → wfN (descD p).1 = true) ∧
      (∀ p, p < numprods → ∀ q, q < numprods → descD p = descD q → p = q) ∧
      (∀ n, n < trees.length → ∀ i, i < (trees.getD n dfltArr).len →
        (((trees.getD n dfltArr).node i).left ≥ 0 →
          getyield (trees.getD n dfltArr) ((trees.getD n dfltArr).len + 1)
            ((((trees.getD n dfltArr).node i).left).toNat) ≠ []) ∧
        (((trees.getD n dfltArr).node i).right ≥ 0 →
          getyield (trees.getD n dfltArr) ((trees.getD n dfltArr).len + 1)
            ((((trees.getD n dfltArr).node i).right).toNat) ≠ [])) ∧
      (∀ p, p < numprods → ∀ n, n < trees.length →
        ∀ i, i < (trees.getD n dfltArr).len →
        ((trees.getD n dfltArr).node i).prod = (p : Int) →
        normT (fragRenum (fragTreeAt trees labels n i) (sents.getD n []))
          (fragTreeAt trees labels n i) = (descD p).1) ∧
      (∀ p, p < numprods → ∀ n, n < trees.length →
        ∀ i, i < (trees.getD n dfltArr).len →
        ((trees.getD n dfltArr).node i).prod = (p : Int) →
        (fragLoop (fragTreeAt trees labels n i)
          (sents.getD n [])).1 = (descD p).2)) :
    ∃ res, coverbitsets trees sents labels numprods disc = some res ∧
      ∀ p, p < numprods →
        ((indextrees trees numprods).getD p ∅).Nonempty →
        res.countP (selectsSingleNode trees p) = 1 := by
  have hlen : (indextrees trees numprods).length = numprods := by
    unfold indextrees
    rw [indextreesAux_length]
    simp
  have HL : ∀ j, j < (indextrees trees numprods).length →
      ∀ n2 ∈ (indextrees trees numprods).getD j ∅,
      n2 < trees.length ∧
      ∃ i2, i2 < (trees.getD n2 dfltArr).len ∧
        ((trees.getD n2 dfltArr).node i2).prod = ((0 + j : Nat) : Int) := by
    intro j hj n2 hn2
    obtain ⟨hlt, m, hm, hp⟩ := indextrees_just hn2
    refine ⟨hlt, m, hm, ?_⟩
    have h0 := hprod n2 hlt m hm
    omega
  cases disc with
  | false =>
    obtain ⟨hclean, hinjC, hsig⟩ := hcont rfl
    have hKinj : ∀ p, p < numprods → ∀ q, q < numprods →
        ((renderC (descC p), (none : Option (List (Option String)))) :
          CovKey) = (renderC (descC q), none) → p = q := by
      intro p hp q hq h
      have h2 : renderC (descC p) = renderC (descC q) :=
        congrArg Prod.fst h
      exact hinjC p hp q hq (renderC_inj (hclean p hp) (hclean q hq) h2)
    have hocc : ∀ p, p < numprods → ∀ n2, n2 < trees.length →
        ∀ i2, i2 < (trees.getD n2 dfltArr).len →
        ((trees.getD n2 dfltArr).node i2).prod = (p : Int) →
        covKeyAt trees sents labels false n2 i2 =
          (renderC (descC p), none) := by
      intro p hp n2 hn2 i2 hi2 hpr
      rw [covKeyAt_cont trees sents labels n2 i2 hi2
        (hchild n2 hn2 i2 hi2).1 (hchild n2 hn2 i2 hi2).2]
      rw [hsig p hp n2 hn2 i2 hi2 hpr]
    obtain ⟨res, hres, hshape, hcount, hlow⟩ := coverAux_specK trees
      labels sents false numprods
      (fun p => ((renderC (descC p), none) : CovKey)) hKinj hocc
      (indextrees trees numprods) 0 [] (by rw [hlen]; omega) HL
      (by intro e he; simp at he)
    refine ⟨res, ?_, ?_⟩
    · unfold coverbitsets
      exact hres
    · intro p hp hne
      have hc := hcount p (by rw [hlen]; exact hp) hne
      simpa using hc
  | true =>
    obtain ⟨hlab, hNwf, hNinj, hyields, hNocc1, hNocc2⟩ := hdisc rfl
    have hKinj : ∀ p, p < numprods → ∀ q, q < numprods →
        ((renderN (descD p).1, some (descD p).2) : CovKey) =
          (renderN (descD q).1, some (descD q).2) → p = q := by
      intro p hp q hq h
      have h1 : renderN (descD p).1 = renderN (descD q).1 :=
        congrArg Prod.fst h
      have h2 : (descD p).2 = (descD q).2 := by
        have h3 := congrArg Prod.snd h
        simpa using h3
      refine hNinj p hp q hq ?_
      exact Prod.ext_iff.mpr
        ⟨renderN_inj (hNwf p hp) (hNwf q hq) h1, h2⟩
    have hocc : ∀ p, p < numprods → ∀ n2, n2 < trees.length →
        ∀ i2, i2 < (trees.getD n2 dfltArr).len →
        ((trees.getD n2 dfltArr).node i2).prod = (p : Int) →
        covKeyAt trees sents labels true n2 i2 =
          (renderN (descD p).1, some (descD p).2) := by
      intro p hp n2 hn2 i2 hi2 hpr
      rw [covKeyAt_disc trees sents labels n2 i2 hi2
        (hchild n2 hn2 i2 hi2).1 (hchild n2 hn2 i2 hi2).2 hlab
        (hyields n2 hn2 i2 hi2).1 (hyields n2 hn2 i2 hi2).2]
      rw [hNocc1 p hp n2 hn2 i2 hi2 hpr, hNocc2 p hp n2 hn2 i2 hi2 hpr]
    obtain ⟨res, hres, hshape, hcount, hlow⟩ := coverAux_specK trees
      labels sents true numprods
      (fun p => ((renderN (descD p).1, some (descD p).2) : CovKey))
      hKinj hocc
      (indextrees trees numprods) 0 [] (by rw [hlen]; omega) HL
      (by intro e he; simp at he)
    refine ⟨res, ?_, ?_⟩
    · unfold coverbitsets
      exact hres
    · intro p hp hne
      have hc := hcount p (by rw [hlen]; exact hp) hne
      simpa using hc

theorem covLabels_clean : ∀ k, cleanLabel (covLabels k) = true := by
  intro k
  unfold covLabels
  by_cases hk : k = 0
  · rw [if_pos hk]
    decide
  · rw [if_neg hk]
    decide

theorem coverbitsets_one_per_production_witness :
    (∃ res, coverbitsets covTrees covSents covLabels 2 false = some res ∧
      ∀ p, p < 2 → ((indextrees covTrees 2).getD p ∅).Nonempty →
        res.countP (selectsSingleNode covTrees p) = 1) ∧
    (∃ res, coverbitsets covTrees covSents covLabels 2 true = some res ∧
      ∀ p, p < 2 → ((indextrees covTrees 2).getD p ∅).Nonempty →
        res.countP (selectsSingleNode covTrees p) = 1) :=
  ⟨coverbitsets_one_per_production covTrees covSents covLabels 2 false
    covDescC covDescD
    (by decide) (by decide) (fun _ => by decide) (fun h => nomatch h),
   coverbitsets_one_per_production covTrees covSents covLabels 2 true
    covDescC covDescD
    (by decide) (by decide) (fun h => nomatch h)
    (fun _ => ⟨covLabels_clean, by decide, by decide, by decide,
      by decide, by
        intro p hp n hn i hi hpr
        have hn0 : n = 0 := by
          have hl1 : covTrees.length = 1 := rfl
          omega
        subst hn0
        have hi2 : i < 2 := by
          have hlen2 : (covTrees.getD 0 dfltArr).len = 2 := rfl
          omega
        have hi01 : i = 0 ∨ i = 1 := by omega
        rcases hi01 with rfl | rfl
        · have hp0 : ((covTrees.getD 0 dfltArr).node 0).prod = 0 := rfl
          rw [hp0] at hpr
          have hpz : p = 0 := by omega
          subst hpz
          decide
        · have hp1 : ((covTrees.getD 0 dfltArr).node 1).prod = 1 := rfl
          rw [hp1] at hpr
          have hpo : p = 1 := by omega
          subst hpo
          decide⟩)⟩
